import Mathlib
set_option linter.unusedVariables false

/-!
# Verification of the ResurrectJS graph serializer (`src/resurrect.ts`)

Shallow embedding of the encode/decode engine of ResurrectJS.  Live JavaScript
object graphs are modelled as a heap (`Heap`, a list of `HObj`, addresses being
list indices) whose cells are `JVal` (either an `Atom` or a reference `ref a`
to a heap address).  The reserved `prefix + "#"` identity-marker property that
the engine writes onto visited objects is modelled by the dedicated `marker`
field of `HObj`; this builds in the documented precondition that caller data
never uses keys that start with the configured prefix.  The external flat-text
codec (`JSON.stringify`/`JSON.parse`) is out of scope per the specification and
is modelled as the identity on the structured `Encoded` values, which contain
only plain data.  External browser builtins (`Date.prototype.toISOString`,
`new Date(string)`, `XMLSerializer`, `RegExp.prototype.toString`) are modelled
by concrete injective codecs.
-/

/-- JavaScript number values, split into the finite and non-finite cases the
engine distinguishes (`isNaN(atom) || !isFinite(atom)`).  Finite numbers pass
through the codec unchanged, so their payload is modelled as an integer. -/
inductive JNum where
  | fin (i : Int)
  | nan
  | inf
  | negInf
deriving DecidableEq, Repr

/-- `true` exactly when `isNaN(n) || !isFinite(n)` holds in JavaScript. -/
def JNum.nonFinite : JNum → Bool
  | .fin _ => false
  | _ => true

/-- Values that `Resurrect.isAtom` classifies as atoms: everything whose
`Object.prototype.toString` class is neither `"[object Object]"` nor
`"[object Array]"`.  Dates, patterns, DOM nodes, functions, `undefined` and
`null` are all atoms to the traversal.  A `date` carries its millisecond
timestamp; a `regexp` carries `source` and `flags`; a `node` carries its
serialized markup (constructing a node from markup and re-serializing is
modelled as the identity on that text). -/
inductive Atom where
  | str (s : String)
  | num (n : JNum)
  | bool (b : Bool)
  | null
  | undef
  | date (ms : Int)
  | regexp (source flags : String)
  | node (html : String)
  | func
deriving DecidableEq, Repr

/-- A live JavaScript value: an atom, or a reference to a compound value (a
record or array) living at a heap address. -/
inductive JVal where
  | atom (a : Atom)
  | ref (a : Nat)
deriving DecidableEq, Repr

/-- The state of the reserved `prefix + "#"` identity-marker property on a live
object: absent, present with value `null` (the non-`cleanup` residue), or
present with a table position (the object is tagged for the current call). -/
inductive Marker where
  | absent
  | nullTag
  | tagged (i : Nat)
deriving DecidableEq, Repr

/-- `_isTagged`: the marker property is present and not `null`-ish. -/
def Marker.isTagged : Marker → Bool
  | .tagged _ => true
  | _ => false

/-- The caller-visible content of a compound value: whether it is an array,
its constructor name (`object.constructor.name`; `""` for an anonymous
constructor), the identity of its prototype object, its elements (for arrays)
and its own enumerable properties in enumeration order (for records). -/
structure ObjContent where
  isArr : Bool
  ctorName : String
  protoId : Nat
  elems : List JVal
  props : List (String × JVal)
deriving DecidableEq, Repr

/-- A live compound value: content plus the transient identity marker. -/
structure HObj where
  content : ObjContent
  marker : Marker
deriving DecidableEq, Repr

/-- The live heap; addresses are indices. -/
abbrev Heap := List HObj

/-- Prototype identity of `Object.prototype` (what `JSON.parse` gives to plain
parsed records). -/
def objectProtoId : Nat := 0

/-- Prototype identity of `Array.prototype`. -/
def arrayProtoId : Nat := 1

/-- A cell of the encoded form: a plain atom passed through, a back-reference
`{ <prefix>= : i }` (with `-1` the missing-value sentinel), or a builder
`{ <prefix>@ : name, <prefix>_ : args }`.  The reserved key names themselves
are determined by the configured prefix and carry no further information, so
cells are modelled by this tagged type. -/
inductive Cell where
  | atom (a : Atom)
  | backref (i : Int)
  | builder (name : String) (args : List String)
deriving DecidableEq, Repr

/-- A finished table entry: an encoded array, or an encoded record with an
optional `{ <prefix>+ : typeName }` tag (which `_tag` writes before any other
property of the copy) and its encoded properties in order. -/
inductive Entry where
  | arr (cells : List Cell)
  | obj (protoTag : Option String) (cells : List (String × Cell))
deriving DecidableEq, Repr

/-- A table entry as it sits in `this._table` during `stringify`, before the
cleanup loop: the entry proper, the copy's own `prefix#` property (its table
position, written by `_tag` and deleted by the cleanup loop) and the copy's
`prefix&` property (the address of the original, also deleted). -/
structure TEntry where
  entry : Entry
  refIdx : Nat
  orig : Nat
deriving DecidableEq, Repr

/-- A slot of the in-progress table.  `_tag` pushes the copy before its cells
are filled in; `none` stands for such a reserved, still-under-construction
copy, which is replaced by the finished entry once its children have been
visited. -/
abbrev TSlot := Option TEntry

/-- Traversal state: the live heap (mutated through its markers) and the
growing reference table. -/
structure VSt where
  heap : Heap
  table : List TSlot
deriving DecidableEq

/-- Errors: the five documented failure conditions, a native `TypeError`
(raised e.g. by `.slice` on a failed match — unreachable for genuine
patterns), and fuel exhaustion (a modelling device for the recursive
traversal; proved unreachable when the fuel exceeds the number of untagged
objects). -/
inductive Err where
  | unserializable
  | anonymousCtor
  | ctorMismatch
  | unknownConstructor
  | unknownEncoding
  | typeErr
  | outOfFuel
deriving DecidableEq, Repr

/-- The resolver's namespace: constructor names mapped to the prototype
identity of the named constructor (`scope[name].prototype`). -/
structure Resolver where
  scope : List (String × Nat)
deriving DecidableEq, Repr

/-- First binding of a name in the scope (JavaScript property lookup). -/
def Resolver.lookupScope (r : Resolver) (n : String) : Option Nat :=
  r.scope.lookup n

/-- Per-instance configuration: reserved-key prefix, `cleanup`, `revive`, and
the resolver. -/
structure Config where
  pfx : String
  cleanup : Bool
  revive : Bool
  resolver : Resolver
deriving DecidableEq, Repr

/-- A `JSON.stringify`-style replacer after normalization to function form;
returning the missing value omits the property. -/
def Replacer := String → JVal → JVal

/-- The replacer argument of `stringify`: absent, a function, or an allow-list
of key names. -/
inductive ReplArg where
  | none
  | fn (f : Replacer)
  | keys (ks : List String)

/-- The parsed form of the serialized text: either a single encoded value
(an atom passed through, or one back-reference/builder object), or the
reference table, entry 0 first.  The flat-text codec itself is external and
injective on these values, so "the text" is identified with this structure. -/
inductive Encoded where
  | single (c : Cell)
  | table (es : List Entry)
deriving DecidableEq, Repr

/-! ## Modelled external codecs -/

/-- Decimal digits of a natural number, least significant first. -/
def natToRev (n : Nat) : List Char :=
  if h : n < 10 then [Nat.digitChar n]
  else Nat.digitChar (n % 10) :: natToRev (n / 10)
decreasing_by
  exact Nat.div_lt_self (by omega) (by omega)

/-- Digit value of a decimal digit character. -/
def charToDigit (c : Char) : Option Nat :=
  if '0' ≤ c ∧ c ≤ '9' then some (c.toNat - '0'.toNat) else none

/-- Parse a least-significant-first decimal digit list. -/
def parseRev : List Char → Option Nat
  | [] => some 0
  | c :: cs => do
    let d ← charToDigit c
    let rest ← parseRev cs
    pure (d + 10 * rest)

/-- Decimal rendering of a natural number. -/
def natToDec (n : Nat) : List Char := (natToRev n).reverse

/-- Parse a most-significant-first decimal digit list; fails on the empty
list or any non-digit. -/
def parseDec (cs : List Char) : Option Nat :=
  if cs = [] then none else parseRev cs.reverse

/-- Modelled `Date.prototype.toISOString`: an injective rendering of the
timestamp.  The concrete ISO-8601 layout is an external library detail; what
the engine relies on is that `new Date(iso)` recovers the timestamp, which
the decimal codec provides exactly (hence to ISO-second precision and
better). -/
def dateToISO (ms : Int) : String :=
  if ms < 0 then ⟨'-' :: natToDec ms.natAbs⟩ else ⟨natToDec ms.natAbs⟩

/-- Modelled `new Date(string)` timestamp extraction, the partial inverse of
`dateToISO`.  Unparsable strings give an arbitrary timestamp (JavaScript
would give an invalid date); this case is dead on encoder output. -/
def dateFromISO (s : String) : Int :=
  match s.data with
  | [] => 0
  | c :: cs =>
    if c = '-' then -(((parseDec cs).getD 0 : Nat) : Int)
    else (((parseDec (c :: cs)).getD 0 : Nat) : Int)

/-- `"" + atom` for the non-finite numbers (the only numbers it is applied
to by `_handleAtom`). -/
def JNum.toJSString : JNum → String
  | .fin i => dateToISO i
  | .nan => "NaN"
  | .inf => "Infinity"
  | .negInf => "-Infinity"

/-- Modelled `new Number(string).valueOf()`: the three non-finite spellings,
decimal numerals, the empty string coercing to `0`, anything else `NaN`. -/
def jsStringToNum (s : String) : JNum :=
  if s = "NaN" then .nan
  else if s = "Infinity" then .inf
  else if s = "-Infinity" then .negInf
  else if s = "" then .fin 0
  else match s.data with
    | [] => .fin 0
    | c :: cs =>
      if c = '-' then
        match parseDec cs with
        | some n => .fin (-(n : Int))
        | none => .nan
      else
        match parseDec (c :: cs) with
        | some n => .fin (n : Int)
        | none => .nan

/-- `RegExp.prototype.toString`: `"/" + source + "/" + flags`. -/
def regexpToString (source flags : String) : String :=
  "/" ++ source ++ "/" ++ flags

/-- Longest lowercase-letter run at the head of a character list — what the
greedy `([a-z]*)` group captures. -/
def lowerRun (cs : List Char) : List Char :=
  cs.takeWhile (fun c => 'a' ≤ c ∧ c ≤ 'z')

/-- Split a character list at its last `'/'`. -/
def lastSlashSplit (body : List Char) : Option (List Char × List Char) :=
  match (body.reverse).findIdx? (· = '/') with
  | none => Option.none
  | some ridx =>
    let pos := body.length - 1 - ridx
    some (body.take pos, body.drop (pos + 1))

/-- Model of `string.match(/\/(.+)\/([a-z]*)/)` restricted to strings of the
form produced by `regexpToString`, i.e. starting with `'/'`.  The greedy
`(.+)` captures everything up to the last `'/'` (requiring it nonempty), and
`([a-z]*)` the longest lowercase run after it.  On strings not of that form
the result is `none` (the engine never produces such strings; a `none` maps
to the native `TypeError` of `.slice` on `null`). -/
def matchSlashPattern (s : String) : Option (String × String) :=
  match s.data with
  | '/' :: body =>
    match lastSlashSplit body with
    | some (mid, rest) =>
      if mid = [] then Option.none
      else some (⟨mid⟩, ⟨lowerRun rest⟩)
    | none => Option.none
  | _ => Option.none

/-! ## The atom codec (`_handleAtom`, `_ref`, `_builder`) -/

/-- `_handleAtom`: classify a leaf value and produce its encoding.  The
source checks its rules in order; the rule classes are disjoint (a value has
exactly one `Object.prototype.toString` class), which the `Atom` constructors
reflect, so each constructor maps to the rule that fires for it:
functions fail; DOM nodes, dates, patterns and non-finite numbers become
builders; the missing value becomes `_ref(undefined)`, the back-reference
sentinel `-1`; everything else passes through. -/
def handleAtom : Atom → Except Err Cell
  | .func => .error .unserializable
  | .node html => .ok (.builder "Resurrect.Node" [html])
  | .date ms => .ok (.builder "Date" [dateToISO ms])
  | .regexp src flags =>
    match matchSlashPattern (regexpToString src flags) with
    | some (a, b) => .ok (.builder "RegExp" [a, b])
    | none => .error .typeErr
  | .undef => .ok (.backref (-1))
  | .num n =>
    if n.nonFinite then .ok (.builder "Number" [n.toJSString])
    else .ok (.atom (.num n))
  | .str s => .ok (.atom (.str s))
  | .bool b => .ok (.atom (.bool b))
  | .null => .ok (.atom .null)

/-- The head of `_tag` run on the fresh copy of a record (the copy shares the
original's prototype, hence its constructor name): with `revive` on, look up
the constructor name; an anonymous constructor fails; `"Object"`/`"Array"`
yield no tag; otherwise the resolver's prototype for the name must be the
value's own prototype (`getPrototype` itself failing when the name is
unregistered), and the name becomes the entry's type tag. -/
def tagCheck (cfg : Config) (ctorName : String) (protoId : Nat) :
    Except Err (Option String) :=
  if cfg.revive then
    if ctorName = "" then .error .anonymousCtor
    else if ctorName = "Object" ∨ ctorName = "Array" then .ok Option.none
    else
      match cfg.resolver.lookupScope ctorName with
      | Option.none => .error .unknownConstructor
      | some p =>
        if p ≠ protoId then .error .ctorMismatch
        else .ok (some ctorName)
  else .ok Option.none

/-- Write the identity marker of the object at address `a` (no-op on a
dangling address, which cannot arise from a well-formed heap). -/
def setMarker (h : Heap) (a : Nat) (m : Marker) : Heap :=
  match (h : List HObj).get? a with
  | some o => (h : List HObj).set a { o with marker := m }
  | Option.none => h

/-- Number of heap objects not currently tagged; the traversal tags one such
object before each level of recursion, which bounds its depth. -/
def untaggedCount (h : Heap) : Nat :=
  (h : List HObj).countP (fun o => !o.marker.isTagged)

/-- Normalize the replacer argument as `stringify` does: functions are
wrapped so that reserved (prefix-initial) keys pass through untouched;
an array becomes an allow-list test. -/
def normalizeRepl (cfg : Config) : ReplArg → Option Replacer
  | .none => Option.none
  | .fn f => some (fun k v => if k.startsWith cfg.pfx then v else f k v)
  | .keys ks => some (fun k v => if ks.contains k then v else .atom .undef)

/-! ## The graph visitor (`_visit`, `_tag`)

`visit` is `_visit` with an explicit fuel argument standing for the call
stack: each recursive `_visit` call costs one unit.  The fuel is a modelling
device only — `visit_no_fuel_error` below shows that with more fuel than
there are untagged objects (which is what `stringify` supplies) the
`outOfFuel` branch is unreachable, which is the termination argument of the
source (a position is reserved, and the object tagged, before its children
are recursed into). -/

mutual

def visit (cfg : Config) (repl : Option Replacer) :
    Nat → VSt → JVal → VSt × Except Err Cell
  | 0, st, _ => (st, .error .outOfFuel)
  | _ + 1, st, .atom a => (st, handleAtom a)
  | fuel + 1, st, .ref r =>
    match (st.heap : List HObj).get? r with
    | Option.none => (st, .error .typeErr)
    | some o =>
      match o.marker with
      | .tagged i => (st, .ok (.backref (i : Int)))
      | _ => visitUntagged cfg repl fuel st r o
termination_by fuel _ _ => (fuel, 0, 0)

def visitUntagged (cfg : Config) (repl : Option Replacer)
    (fuel : Nat) (st : VSt) (r : Nat) (o : HObj) : VSt × Except Err Cell :=
  if o.content.isArr then
    -- copy := []; root[refcode] := _tag(copy).  The fresh array copy
    -- has constructor "Array", so getName yields null: no type tag.
    let idx := st.table.length
    let st1 : VSt := ⟨setMarker st.heap r (.tagged idx), st.table ++ [(Option.none : TSlot)]⟩
    match visitElems cfg repl fuel st1 o.content.elems with
    | (st2, .error e) => (st2, .error e)
    | (st2, .ok cells) =>
      (⟨st2.heap, st2.table.set idx (some ⟨.arr cells, idx, r⟩)⟩,
       .ok (.backref (idx : Int)))
  else
    -- copy := Object.create(getPrototypeOf(root)); _tag(copy) first
    -- resolves the type tag (throwing before anything is reserved),
    -- then reserves the next position and tags the original.
    match tagCheck cfg o.content.ctorName o.content.protoId with
    | .error e => (st, .error e)
    | .ok ptag =>
      let idx := st.table.length
      let st1 : VSt := ⟨setMarker st.heap r (.tagged idx), st.table ++ [(Option.none : TSlot)]⟩
      match visitProps cfg repl fuel st1 o.content.props with
      | (st2, .error e) => (st2, .error e)
      | (st2, .ok pcells) =>
        -- The marker property itself is enumerated last by the
        -- property loop (it was just appended to the original); its
        -- value, the finite number `idx`, is re-visited and written
        -- back onto the copy's own marker slot, to be deleted by the
        -- cleanup loop.
        match visit cfg repl fuel st2 (.atom (.num (.fin (idx : Int)))) with
        | (st3, .error e) => (st3, .error e)
        | (st3, .ok _) =>
          (⟨st3.heap, st3.table.set idx (some ⟨.obj ptag pcells, idx, r⟩)⟩,
           .ok (.backref (idx : Int)))
termination_by (fuel, 2, 0)

def visitElems (cfg : Config) (repl : Option Replacer) :
    Nat → VSt → List JVal → VSt × Except Err (List Cell)
  | _, st, [] => (st, .ok [])
  | fuel, st, v :: vs =>
    match visit cfg repl fuel st v with
    | (st1, .error e) => (st1, .error e)
    | (st1, .ok c) =>
      match visitElems cfg repl fuel st1 vs with
      | (st2, .error e) => (st2, .error e)
      | (st2, .ok cs) => (st2, .ok (c :: cs))
termination_by fuel _ l => (fuel, 1, l.length + 1)

def visitProps (cfg : Config) (repl : Option Replacer) :
    Nat → VSt → List (String × JVal) → VSt × Except Err (List (String × Cell))
  | _, st, [] => (st, .ok [])
  | fuel, st, (k, v) :: ps =>
    -- value := root[k]; if a replacer is present and the value is not the
    -- missing value, it is filtered first, `undefined` omitting the key.
    let keep : Option JVal :=
      match repl with
      | some f =>
        if v = .atom .undef then some v
        else
          let w := f k v
          if w = .atom .undef then Option.none else some w
      | Option.none => some v
    match keep with
    | Option.none => visitProps cfg repl fuel st ps
    | some w =>
      match visit cfg repl fuel st w with
      | (st1, .error e) => (st1, .error e)
      | (st1, .ok c) =>
        match visitProps cfg repl fuel st1 ps with
        | (st2, .error e) => (st2, .error e)
        | (st2, .ok pcs) => (st2, .ok ((k, c) :: pcs))
termination_by fuel _ l => (fuel, 1, l.length + 1)

end

/-! ## Instance state and `stringify` -/

/-- A decoder entry after the prototype-restoration pass (`_fixPrototype`):
its prototype identity, the possibly remaining `prefix+` property (the tag is
deleted only under `cleanup`, and not touched at all when `revive` is off),
and its still-encoded cells. -/
structure FEntry where
  isArr : Bool
  protoId : Nat
  protoProp : Option String
  cells : List Cell
  pcells : List (String × Cell)
deriving DecidableEq, Repr

/-- A fully reconstructed table entry: a live value of the decoded heap
(whose addresses are table positions).  `protoProp` is the residual reserved
`prefix+` property when present. -/
structure DObj where
  isArr : Bool
  protoId : Nat
  protoProp : Option String
  elems : List JVal
  props : List (String × JVal)
deriving DecidableEq, Repr

/-- A decoder table entry at one of its three stages: as parsed, after the
prototype-restoration pass, or after the cell-resolution pass.  The decoder
mutates `this._table` in place; an error exit leaves a mixed-stage table. -/
inductive DecStage where
  | raw (e : Entry)
  | fixed (f : FEntry)
  | done (d : DObj)
deriving DecidableEq, Repr

/-- The possible non-null values of the instance field `this._table`: the
encoder's table of copies, or the decoder's table of parsed entries at its
various stages. -/
inductive TableVal where
  | enc (t : List TSlot)
  | dec (t : List DecStage)
deriving DecidableEq, Repr

/-- The instance field `this._table`: `none` is JavaScript `null`. -/
abbrev ResState := Option TableVal

/-- The fuel `stringify` hands the visitor: strictly more than the number of
untagged objects, which `visit_no_fuel_error` shows is enough for the
traversal to run exactly as the unbounded source recursion does. -/
def encodeFuel (h : Heap) : Nat := untaggedCount h + 1

/-- The cleanup loop at the end of `stringify`: for every table position, the
marker on the *original* object is deleted (under `cleanup`) or set to `null`,
and the copy's own `prefix#` and `prefix&` properties are deleted, leaving the
finished entries.  A reserved-but-unfilled slot cannot occur here (the loop
only runs after a successful traversal, which fills every slot); that dead
branch maps to the native error the source would raise. -/
def finishTable (cfg : Config) : Heap → List TSlot → Heap × Except Err (List Entry)
  | h, [] => (h, .ok [])
  | h, (Option.none : TSlot) :: _ => (h, .error .typeErr)
  | h, some te :: rest =>
    let h1 := setMarker h te.orig (if cfg.cleanup then .absent else .nullTag)
    match finishTable cfg h1 rest with
    | (h2, .error e) => (h2, .error e)
    | (h2, .ok es) => (h2, .ok (te.entry :: es))

/-- `stringify(object, replacer, space)`.  The `space` argument only affects
the external flat-text writer and is not modelled.  An atom root is encoded
directly, without touching `this._table`; a compound root re-initializes the
table, runs the visitor, then the cleanup loop, and detaches the table —
but only on the success path: a thrown condition propagates out with the
partial table still attached (there is no try/finally in the source). -/
def stringify (cfg : Config) (ra : ReplArg) (st : ResState) (heap : Heap)
    (v : JVal) : ResState × Heap × Except Err Encoded :=
  let repl := normalizeRepl cfg ra
  match v with
  | .atom a => (st, heap, (handleAtom a).map .single)
  | .ref r =>
    match visit cfg repl (encodeFuel heap) ⟨heap, []⟩ (.ref r) with
    | (vst, .error e) => (some (.enc vst.table), vst.heap, .error e)
    | (vst, .ok _) =>
      match finishTable cfg vst.heap vst.table with
      | (h2, .error e) => (some (.enc vst.table), h2, .error e)
      | (h2, .ok entries) => (Option.none, h2, .ok (.table entries))

/-! ## The rehydrator (`resurrect`, `_fixPrototype`, `_decode`, `_build`) -/

/-- Pass 1 on one parsed entry (`_fixPrototype`, applied when `revive` is
on): a tagged record gets the resolver's prototype for the tag's name
(failing with *UnknownConstructor* when unregistered), the tag being deleted
only under `cleanup`; arrays and untagged records keep their parsed
prototypes.  With `revive` off the entry is left as parsed — a plain record
or array on which a type tag, if present, survives as an ordinary property.
`FEntry` is the model's uniform view of the entry after this step. -/
def fixEntry (cfg : Config) : Entry → Except Err FEntry
  | .arr cells => .ok ⟨true, arrayProtoId, Option.none, cells, []⟩
  | .obj ptag pcells =>
    if cfg.revive then
      match ptag with
      | Option.none => .ok ⟨false, objectProtoId, Option.none, [], pcells⟩
      | some n =>
        match cfg.resolver.lookupScope n with
        | Option.none => .error .unknownConstructor
        | some p =>
          .ok ⟨false, p, if cfg.cleanup then Option.none else some n, [], pcells⟩
    else .ok ⟨false, objectProtoId, ptag, [], pcells⟩

/-- `_build`: invoke the named constructor on the argument list and unwrap
primitive wrappers.  The names the encoder emits resolve to the builtins
regardless of the configured scope (`"Resurrect.Node"` is special-cased by
`getConstructor`; `Date`, `RegExp` and `Number` reach the global builtins
either through the scope or through the dotted-path fallback).  Other names
would be looked up in the scope or as a dotted path on the global object and
invoke arbitrary constructor code, which is outside this model: they map to
the failure of that lookup. -/
def buildAtom : String → List String → Except Err Atom
  | "Resurrect.Node", [h] => .ok (.node h)
  | "Date", [s] => .ok (.date (dateFromISO s))
  | "RegExp", [s, f] => .ok (.regexp s f)
  | "RegExp", [s] => .ok (.regexp s "")
  | "Number", [s] => .ok (.num (jsStringToNum s))
  | _, _ => .error .unknownConstructor

/-- `_decode` of a non-atom cell against a table of `n` entries: a
back-reference indexes the table (`-1`, or any out-of-range index, reads as
the missing value, exactly as a JavaScript array does), a builder invokes
`_build`.  Atom cells are left untouched by the resolution pass. -/
def resolveCell (n : Nat) : Cell → Except Err JVal
  | .atom a => .ok (.atom a)
  | .backref i =>
    .ok (if 0 ≤ i ∧ i < (n : Int) then .ref i.toNat else .atom .undef)
  | .builder name args => (buildAtom name args).map .atom

/-- Resolve a list of element cells, left to right. -/
def resolveCells (n : Nat) : List Cell → Except Err (List JVal)
  | [] => .ok []
  | c :: cs => do
    let v ← resolveCell n c
    let vs ← resolveCells n cs
    pure (v :: vs)

/-- Resolve a list of property cells, left to right. -/
def resolvePCells (n : Nat) :
    List (String × Cell) → Except Err (List (String × JVal))
  | [] => .ok []
  | (k, c) :: cs => do
    let v ← resolveCell n c
    let vs ← resolvePCells n cs
    pure ((k, v) :: vs)

/-- Pass 2 on one entry: resolve every non-atom cell against the table,
in property order. -/
def resolveEntry (n : Nat) (f : FEntry) : Except Err DObj := do
  let elems ← resolveCells n f.cells
  let props ← resolvePCells n f.pcells
  pure ⟨f.isArr, f.protoId, f.protoProp, elems, props⟩

/-- The prototype-restoration pass over the table, kept together with the
partially processed table it leaves behind when an entry fails. -/
def pass1run (cfg : Config) : List Entry → List DecStage × Except Err (List FEntry)
  | [] => ([], .ok [])
  | e :: rest =>
    match fixEntry cfg e with
    | .error err => (.raw e :: rest.map .raw, .error err)
    | .ok f =>
      match pass1run cfg rest with
      | (stg, .error err) => (.fixed f :: stg, .error err)
      | (stg, .ok fs) => (.fixed f :: stg, .ok (f :: fs))

/-- The cell-resolution pass over the table, likewise. -/
def pass2run (n : Nat) : List FEntry → List DecStage × Except Err (List DObj)
  | [] => ([], .ok [])
  | f :: rest =>
    match resolveEntry n f with
    | .error err => (.fixed f :: rest.map .fixed, .error err)
    | .ok d =>
      match pass2run n rest with
      | (stg, .error err) => (.done d :: stg, .error err)
      | (stg, .ok ds) => (.done d :: stg, .ok (d :: ds))

/-- `resurrect(string)`.  A parsed table is installed as `this._table`, the
two passes run in order, and the result is the entry at position 0 (the
missing value for an empty table, as reading past a JavaScript array's end
gives).  A single parsed object is decoded against an empty table; plain
parsed data is returned as is.  `this._table` is nulled at the end of every
successful call; a thrown condition leaves the partial table attached. -/
def resurrect (cfg : Config) (st : ResState) (e : Encoded) :
    ResState × Except Err (List DObj × JVal) :=
  match e with
  | .single (.atom a) => (Option.none, .ok ([], .atom a))
  | .single c =>
    match resolveCell 0 c with
    | .error err => (some (.dec []), .error err)
    | .ok v => (Option.none, .ok ([], v))
  | .table es =>
    match pass1run cfg es with
    | (stg, .error err) => (some (.dec stg), .error err)
    | (_, .ok fs) =>
      match pass2run es.length fs with
      | (stg, .error err) => (some (.dec stg), .error err)
      | (_, .ok ds) =>
        (Option.none, .ok (ds, if ds.isEmpty then .atom .undef else .ref 0))

/-! ## Heap observations and well-formedness -/

/-- The marker of the object at address `a`, when the address is valid. -/
def markerOf (h : Heap) (a : Nat) : Option Marker :=
  (h.get? a).map HObj.marker

/-- The content of the object at address `a`, when the address is valid. -/
def contentOf (h : Heap) (a : Nat) : Option ObjContent :=
  (h.get? a).map HObj.content

/-- The cell values the traversal visits: the elements of an array, the own
property values of a record (mirroring the two branches of `_visit`). -/
def cellVals (c : ObjContent) : List JVal :=
  if c.isArr then c.elems else c.props.map Prod.snd

/-- Graph reachability: the addresses reachable from a value through cells. -/
inductive Reaches (h : Heap) : JVal → Nat → Prop where
  | here (a : Nat) : Reaches h (.ref a) a
  | step {a b : Nat} {c : ObjContent} {v : JVal} :
      contentOf h a = some c → v ∈ cellVals c → Reaches h v b →
      Reaches h (.ref a) b

/-- Every reference stored in a cell of the heap is a valid address. -/
def WfHeap (h : Heap) : Prop :=
  ∀ o ∈ h, ∀ v ∈ cellVals o.content, ∀ b, v = JVal.ref b → b < h.length

/-- Atoms on which `_handleAtom` succeeds: everything except functions, with
patterns restricted to genuine ones (nonempty rendered source, lowercase
flags — every real `RegExp` satisfies this). -/
def serializableAtom : Atom → Bool
  | .func => false
  | .regexp src flags =>
    decide (src ≠ "") && flags.data.all (fun c => 'a' ≤ c && c ≤ 'z')
  | _ => true

/-- A heap on which the tagging traversal cannot fail: every atom in a cell
is serializable and every record's type tag resolves (which with `revive`
off is vacuous). -/
def EncodeReady (cfg : Config) (h : Heap) : Prop :=
  ∀ o ∈ h,
    (∀ v ∈ cellVals o.content, ∀ u, v = JVal.atom u → serializableAtom u = true) ∧
    (o.content.isArr = false →
      ∃ t, tagCheck cfg o.content.ctorName o.content.protoId = .ok t)

/-! ### Basic heap lemmas -/

theorem markerOf_isSome_lt {h : Heap} {a : Nat} {m : Marker}
    (hm : markerOf h a = some m) : a < h.length := by
  unfold markerOf at hm
  cases hg : h.get? a with
  | none => rw [hg] at hm; simp at hm
  | some o =>
    by_contra hc
    rw [List.get?_eq_none.mpr (Nat.le_of_not_lt hc)] at hg
    exact Option.noConfusion hg

theorem contentOf_setMarker (h : Heap) (a b : Nat) (m : Marker) :
    contentOf (setMarker h a m) b = contentOf h b := by
  unfold contentOf setMarker
  cases hg : h.get? a with
  | none => rfl
  | some o =>
    by_cases hab : a = b
    · subst hab
      have ha : a < h.length := by
        by_contra hc
        rw [List.get?_eq_none.mpr (Nat.le_of_not_lt hc)] at hg
        exact Option.noConfusion hg
      rw [List.get?_set_eq_of_lt _ ha, hg]
      rfl
    · rw [List.get?_set_ne _ _ hab]

theorem length_setMarker (h : Heap) (a : Nat) (m : Marker) :
    (setMarker h a m).length = h.length := by
  unfold setMarker
  cases h.get? a <;> simp

theorem markerOf_setMarker_self {h : Heap} {a : Nat} (m : Marker)
    (ha : a < h.length) : markerOf (setMarker h a m) a = some m := by
  unfold markerOf setMarker
  cases hg : h.get? a with
  | none =>
    exact absurd (List.get?_eq_none.mp hg) (Nat.not_le_of_lt ha)
  | some o => rw [List.get?_set_eq_of_lt _ ha]; rfl

theorem markerOf_setMarker_ne (h : Heap) {a b : Nat} (m : Marker)
    (hab : a ≠ b) : markerOf (setMarker h a m) b = markerOf h b := by
  unfold markerOf setMarker
  cases hg : h.get? a with
  | none => rfl
  | some o => rw [List.get?_set_ne _ _ hab]

theorem countP_set_untag :
    ∀ (l : List HObj) (n : Nat) (o : HObj) (i : Nat), l.get? n = some o →
      o.marker.isTagged = false →
      (l.set n { o with marker := .tagged i }).countP
          (fun o => !o.marker.isTagged) + 1 =
        l.countP (fun o => !o.marker.isTagged)
  | [], n, o, i, hg, hunt => by simp at hg
  | x :: xs, 0, o, i, hg, hunt => by
    have hxa : x = o := by simpa using hg
    subst hxa
    simp only [List.set, List.countP_cons]
    cases hm : x.marker with
    | tagged j => rw [hm] at hunt; simp [Marker.isTagged] at hunt
    | absent => simp [Marker.isTagged, hm]
    | nullTag => simp [Marker.isTagged, hm]
  | x :: xs, n + 1, o, i, hg, hunt => by
    have hg' : xs.get? n = some o := by simpa using hg
    have := countP_set_untag xs n o i hg' hunt
    simp only [List.set, List.countP_cons]
    omega

theorem untaggedCount_setMarker_tagged {h : Heap} {a : Nat} {o : HObj}
    (hg : h.get? a = some o) (hunt : o.marker.isTagged = false) (i : Nat) :
    untaggedCount (setMarker h a (.tagged i)) + 1 = untaggedCount h := by
  unfold untaggedCount setMarker
  rw [hg]
  exact countP_set_untag h a o i hg hunt

/-! ### Codec round-trip lemmas -/

theorem charToDigit_digitChar {d : Nat} (hd : d < 10) :
    charToDigit (Nat.digitChar d) = some d := by
  interval_cases d <;> decide

theorem digitChar_isDigit {d : Nat} (hd : d < 10) :
    '0' ≤ Nat.digitChar d ∧ Nat.digitChar d ≤ '9' := by
  interval_cases d <;> exact ⟨by decide, by decide⟩

theorem natToRev_ne_nil (n : Nat) : natToRev n ≠ [] := by
  rw [natToRev]
  split <;> simp

theorem natToRev_digits (n : Nat) : ∀ c ∈ natToRev n, '0' ≤ c ∧ c ≤ '9' := by
  induction n using Nat.strong_induction_on with
  | _ n ih =>
    rw [natToRev]
    split
    next h =>
      intro c hc
      simp at hc
      subst hc
      exact digitChar_isDigit h
    next h =>
      intro c hc
      simp at hc
      rcases hc with hc | hc
      · subst hc
        exact digitChar_isDigit (Nat.mod_lt _ (by omega))
      · exact ih (n / 10) (Nat.div_lt_self (by omega) (by omega)) c hc

theorem parseRev_natToRev (n : Nat) : parseRev (natToRev n) = some n := by
  induction n using Nat.strong_induction_on with
  | _ n ih =>
    rw [natToRev]
    split
    next h =>
      simp [parseRev, charToDigit_digitChar h]
    next h =>
      have ihd := ih (n / 10) (Nat.div_lt_self (by omega) (by omega))
      simp [parseRev, charToDigit_digitChar (Nat.mod_lt n (by omega)), ihd]
      omega

theorem parseDec_natToDec (n : Nat) : parseDec (natToDec n) = some n := by
  unfold parseDec natToDec
  rw [if_neg (by simpa using natToRev_ne_nil n)]
  rw [List.reverse_reverse]
  exact parseRev_natToRev n

theorem natToDec_head_digit {n : Nat} {c : Char} {cs : List Char}
    (h : natToDec n = c :: cs) : '0' ≤ c ∧ c ≤ '9' := by
  have : c ∈ natToDec n := by rw [h]; exact List.mem_cons_self _ _
  unfold natToDec at this
  exact natToRev_digits n c (List.mem_reverse.mp this)

theorem dateFromISO_mk_cons (c : Char) (cs : List Char) :
    dateFromISO ⟨c :: cs⟩ =
      if c = '-' then -(((parseDec cs).getD 0 : Nat) : Int)
      else (((parseDec (c :: cs)).getD 0 : Nat) : Int) := rfl

theorem dateFromISO_dateToISO (ms : Int) : dateFromISO (dateToISO ms) = ms := by
  unfold dateToISO
  by_cases hms : ms < 0
  · rw [if_pos hms, dateFromISO_mk_cons, if_pos rfl, parseDec_natToDec]
    simp only [Option.getD_some]
    rw [Int.ofNat_natAbs_of_nonpos (le_of_lt hms), neg_neg]
  · rw [if_neg hms]
    cases hd : natToDec ms.natAbs with
    | nil => exact absurd hd (by simpa [natToDec] using natToRev_ne_nil ms.natAbs)
    | cons c cs =>
      have hcd := natToDec_head_digit hd
      rw [dateFromISO_mk_cons, if_neg (by
        intro hc
        subst hc
        revert hcd
        decide), ← hd, parseDec_natToDec]
      simp only [Option.getD_some]
      exact Int.natAbs_of_nonneg (not_lt.mp hms)

theorem findIdx?_acc_append {α : Type} (p : α → Bool) :
    ∀ (l₁ : List α) (x : α) (l₂ : List α) (i : Nat),
      (∀ c ∈ l₁, p c = false) → p x = true →
      List.findIdx? p (l₁ ++ x :: l₂) i = some (i + l₁.length)
  | [], x, l₂, i, _, hx => by simp [List.findIdx?, hx]
  | c :: cs, x, l₂, i, hnone, hx => by
    have hc : p c = false := hnone c (List.mem_cons_self _ _)
    have := findIdx?_acc_append p cs x l₂ (i + 1)
      (fun d hd => hnone d (List.mem_cons_of_mem _ hd)) hx
    simp only [List.cons_append, List.findIdx?, hc]
    rw [if_neg (by simp [hc])]
    rw [show cs.append (x :: l₂) = cs ++ x :: l₂ from rfl, this]
    simp
    omega

/-- A lowercase letter is not a slash. -/
theorem lower_ne_slash {c : Char} (h1 : 'a' ≤ c) (h2 : c ≤ 'z') : (c = '/') = False := by
  simp only [eq_iff_iff, iff_false]
  intro hc
  subst hc
  exact absurd h1 (by decide)

theorem lowerRun_eq_self {cs : List Char}
    (h : ∀ c ∈ cs, ('a' ≤ c ∧ c ≤ 'z')) : lowerRun cs = cs := by
  unfold lowerRun
  induction cs with
  | nil => rfl
  | cons c cs ih =>
    have hc := h c (List.mem_cons_self _ _)
    rw [List.takeWhile_cons, if_pos (by simpa using hc)]
    rw [ih (fun d hd => h d (List.mem_cons_of_mem _ hd))]

theorem string_mk_data (s : String) : String.mk s.data = s := rfl

theorem lastSlashSplit_spec (src flags : List Char)
    (hflags : ∀ c ∈ flags, 'a' ≤ c ∧ c ≤ 'z') :
    lastSlashSplit (src ++ '/' :: flags) = some (src, flags) := by
  unfold lastSlashSplit
  have hrev : (src ++ '/' :: flags).reverse = flags.reverse ++ '/' :: src.reverse := by
    simp
  rw [hrev, findIdx?_acc_append _ _ _ _ _
    (fun c hc => by
      have := hflags c (List.mem_reverse.mp hc)
      simpa using (lower_ne_slash this.1 this.2)) (by simp)]
  have hlen : (src ++ '/' :: flags).length - 1 - (0 + flags.reverse.length)
      = src.length := by
    simp
  simp only [hlen]
  have htake : (src ++ '/' :: flags).take src.length = src := List.take_left _ _
  have hdrop : (src ++ '/' :: flags).drop (src.length + 1) = flags := by
    have : src ++ '/' :: flags = (src ++ ['/']) ++ flags := by simp
    rw [this, show src.length + 1 = (src ++ ['/']).length by simp]
    exact List.drop_left _ _
  rw [htake, hdrop]

theorem matchSlashPattern_roundtrip (src flags : String)
    (hsrc : src ≠ "")
    (hflags : ∀ c ∈ flags.data, 'a' ≤ c ∧ c ≤ 'z') :
    matchSlashPattern (regexpToString src flags) = some (src, flags) := by
  have hdata : (regexpToString src flags).data
      = '/' :: (src.data ++ '/' :: flags.data) := by
    unfold regexpToString
    simp [String.data_append]
  unfold matchSlashPattern
  rw [hdata]
  show (match lastSlashSplit (src.data ++ '/' :: flags.data) with
    | some (mid, rest) =>
      if mid = [] then Option.none
      else some ((⟨mid⟩ : String), (⟨lowerRun rest⟩ : String))
    | Option.none => Option.none) = some (src, flags)
  rw [lastSlashSplit_spec src.data flags.data hflags]
  have hne : src.data ≠ [] := by
    intro hc
    exact hsrc (by cases src with | _ d => simp at hc; simp [hc])
  show (if src.data = [] then Option.none
    else some ((⟨src.data⟩ : String), (⟨lowerRun flags.data⟩ : String)))
      = some (src, flags)
  rw [if_neg hne, lowerRun_eq_self hflags]

/-- Every serializable atom is encoded by `_handleAtom` into a cell that the
rehydrator resolves back to the very same atom, regardless of table size:
the passthrough atoms trivially, the missing value through the `-1`
sentinel, and dates, patterns, non-finite numbers and rendered fragments
through their builders. -/
theorem handleAtom_resolve {a : Atom} (hser : serializableAtom a = true) :
    ∃ c, handleAtom a = .ok c ∧ ∀ n, resolveCell n c = .ok (.atom a) := by
  cases a with
  | str s => exact ⟨_, rfl, fun n => rfl⟩
  | bool b => exact ⟨_, rfl, fun n => rfl⟩
  | null => exact ⟨_, rfl, fun n => rfl⟩
  | undef =>
    refine ⟨.backref (-1), rfl, fun n => ?_⟩
    simp only [resolveCell]
    rw [if_neg (by omega)]
  | num n =>
    cases n with
    | fin i => exact ⟨_, rfl, fun n => rfl⟩
    | nan => exact ⟨.builder "Number" ["NaN"], rfl, fun n => rfl⟩
    | inf => exact ⟨.builder "Number" ["Infinity"], rfl, fun n => rfl⟩
    | negInf => exact ⟨.builder "Number" ["-Infinity"], rfl, fun n => rfl⟩
  | date ms =>
    refine ⟨.builder "Date" [dateToISO ms], rfl, fun n => ?_⟩
    simp only [resolveCell, buildAtom]
    rw [dateFromISO_dateToISO]
    rfl
  | regexp src flags =>
    unfold serializableAtom at hser
    rw [Bool.and_eq_true] at hser
    have hsrc : src ≠ "" := by
      have := hser.1
      simpa using this
    have hflags : ∀ c ∈ flags.data, 'a' ≤ c ∧ c ≤ 'z' := by
      intro c hc
      have := (List.all_eq_true.mp hser.2) c hc
      simpa using this
    refine ⟨.builder "RegExp" [src, flags], ?_, fun n => rfl⟩
    show (match matchSlashPattern (regexpToString src flags) with
      | some (a, b) => Except.ok (Cell.builder "RegExp" [a, b])
      | Option.none => Except.error Err.typeErr) = .ok (.builder "RegExp" [src, flags])
    rw [matchSlashPattern_roundtrip src flags hsrc hflags]
  | node html => exact ⟨_, rfl, fun n => rfl⟩
  | func => simp [serializableAtom] at hser

/-! ## Traversal invariants -/

/-- What one traversal step may do to the state: it never changes the heap's
length or any object's content, only writes markers (and only `tagged` ones),
preserves every existing tag, never increases the untagged count, and only
appends to or fills fresh positions of the table, leaving every position that
already existed untouched. -/
structure VStep (st st' : VSt) : Prop where
  hlen : st'.heap.length = st.heap.length
  hcontent : ∀ a, contentOf st'.heap a = contentOf st.heap a
  hmark : ∀ a i, markerOf st.heap a = some (.tagged i) →
    markerOf st'.heap a = some (.tagged i)
  hmarkval : ∀ a, markerOf st'.heap a = markerOf st.heap a ∨
    ∃ i, markerOf st'.heap a = some (.tagged i)
  huntag : untaggedCount st'.heap ≤ untaggedCount st.heap
  htlen : st.table.length ≤ st'.table.length
  hslot : ∀ i, i < st.table.length → st'.table.get? i = st.table.get? i

theorem VStep.refl (st : VSt) : VStep st st :=
  ⟨Eq.refl _, fun _ => Eq.refl _, fun _ _ h => h, fun _ => Or.inl (Eq.refl _),
    le_refl _, le_refl _, fun _ _ => Eq.refl _⟩

theorem VStep.trans {st1 st2 st3 : VSt} (h12 : VStep st1 st2)
    (h23 : VStep st2 st3) : VStep st1 st3 := by
  refine ⟨h23.hlen.trans h12.hlen, fun a => (h23.hcontent a).trans (h12.hcontent a),
    fun a i h => h23.hmark a i (h12.hmark a i h), ?_,
    le_trans h23.huntag h12.huntag, le_trans h12.htlen h23.htlen, ?_⟩
  · intro a
    rcases h23.hmarkval a with h3 | ⟨i, h3⟩
    · rw [h3]; exact h12.hmarkval a
    · exact Or.inr ⟨i, h3⟩
  · intro i hi
    rw [h23.hslot i (lt_of_lt_of_le hi h12.htlen), h12.hslot i hi]

/-- Correspondence between a live cell value and its encoded cell: an atom
whose encoding `_handleAtom` produced, or a reference turned into a
back-reference at the referent's tag. -/
def cellMatches (h : Heap) : JVal → Cell → Prop
  | .atom u => fun c => handleAtom u = .ok c
  | .ref b => fun c => ∃ i, markerOf h b = some (.tagged i) ∧ c = .backref (i : Int)

/-- Correspondence between the live object at `a` and a finished table
entry: same shape, cells matching pointwise in order, and (for records) the
type tag exactly what `_tag`'s check yields. -/
def EntryMatches (cfg : Config) (h : Heap) (a : Nat) (e : Entry) : Prop :=
  ∃ oc, contentOf h a = some oc ∧
    ((∃ cells, oc.isArr = true ∧ e = .arr cells ∧
        List.Forall₂ (cellMatches h) oc.elems cells) ∨
     (∃ ptag pcells, oc.isArr = false ∧ e = .obj ptag pcells ∧
        tagCheck cfg oc.ctorName oc.protoId = .ok ptag ∧
        List.Forall₂ (fun (p : String × JVal) (q : String × Cell) =>
          p.1 = q.1 ∧ cellMatches h p.2 q.2) oc.props pcells))

/-- The traversal's running invariant: tags point into the table, are unique
per object, and every filled slot records its original's tag, position, and a
matching entry. -/
structure WfSt (cfg : Config) (st : VSt) : Prop where
  markerLt : ∀ a i, markerOf st.heap a = some (.tagged i) → i < st.table.length
  markerInj : ∀ a b i, markerOf st.heap a = some (.tagged i) →
    markerOf st.heap b = some (.tagged i) → a = b
  slotOrig : ∀ i te, st.table.get? i = some (some te) →
    markerOf st.heap te.orig = some (.tagged i) ∧ te.refIdx = i ∧
    EntryMatches cfg st.heap te.orig te.entry

/-- What a successfully visited value guarantees: an atom leaves the state
alone and returns its `_handleAtom` encoding; a reference leaves the
referent tagged, returns a back-reference to that tag, and has filled every
table position it added. -/
def SuccCell (st : VSt) (v : JVal) (st' : VSt) (c : Cell) : Prop :=
  match v with
  | .atom u => st' = st ∧ handleAtom u = .ok c
  | .ref a =>
      (∃ i, markerOf st'.heap a = some (.tagged i) ∧ c = .backref (i : Int) ∧
        (markerOf st.heap a = some (.tagged i) ∨
          ((∀ k, markerOf st.heap a ≠ some (.tagged k)) ∧
            i = st.table.length))) ∧
      (∀ j, st.table.length ≤ j → j < st'.table.length →
        ∃ te, st'.table.get? j = some (some te))

/-- Values the traversal can be pointed at without failing: serializable
atoms and valid addresses. -/
def ValOK (h : Heap) : JVal → Prop
  | .atom u => serializableAtom u = true
  | .ref a => a < h.length

theorem cellMatches_mono {h h' : Heap}
    (hmark : ∀ a i, markerOf h a = some (.tagged i) →
      markerOf h' a = some (.tagged i))
    {v : JVal} {c : Cell} (hm : cellMatches h v c) : cellMatches h' v c := by
  cases v with
  | atom u => exact hm
  | ref b =>
    obtain ⟨i, hi, hc⟩ := hm
    exact ⟨i, hmark b i hi, hc⟩

theorem EntryMatches_mono {cfg : Config} {h h' : Heap}
    (hcontent : ∀ a, contentOf h' a = contentOf h a)
    (hmark : ∀ a i, markerOf h a = some (.tagged i) →
      markerOf h' a = some (.tagged i))
    {a : Nat} {e : Entry} (hm : EntryMatches cfg h a e) :
    EntryMatches cfg h' a e := by
  obtain ⟨oc, hoc, hrest⟩ := hm
  refine ⟨oc, (hcontent a).trans hoc, ?_⟩
  rcases hrest with ⟨cells, harr, he, hf⟩ | ⟨ptag, pcells, harr, he, htag, hf⟩
  · exact Or.inl ⟨cells, harr, he,
      hf.imp (fun _ _ hcm => cellMatches_mono hmark hcm)⟩
  · exact Or.inr ⟨ptag, pcells, harr, he, htag,
      hf.imp (fun _ _ hp => ⟨hp.1, cellMatches_mono hmark hp.2⟩)⟩

theorem Reaches_congr {h h' : Heap}
    (hcontent : ∀ a, contentOf h a = contentOf h' a) {v : JVal} {b : Nat}
    (hr : Reaches h' v b) : Reaches h v b := by
  induction hr with
  | here a => exact .here a
  | step hc hv _ ih => exact .step ((hcontent _).trans hc) hv ih

theorem WfHeap_congr {h h' : Heap} (hlen : h'.length = h.length)
    (hcontent : ∀ a, contentOf h' a = contentOf h a) (hwf : WfHeap h) :
    WfHeap h' := by
  intro o ho v hv b hb
  rw [hlen]
  obtain ⟨a, ha⟩ := List.get?_of_mem ho
  have := hcontent a
  unfold contentOf at this
  rw [ha] at this
  cases hg : h.get? a with
  | none => rw [hg] at this; simp at this
  | some o2 =>
    rw [hg] at this
    simp at this
    have ho2 : o2 ∈ h := List.get?_mem hg
    rw [this] at hv
    exact hwf o2 ho2 v hv b hb

theorem EncodeReady_congr {cfg : Config} {h h' : Heap}
    (hcontent : ∀ a, contentOf h' a = contentOf h a)
    (her : EncodeReady cfg h) : EncodeReady cfg h' := by
  intro o ho
  obtain ⟨a, ha⟩ := List.get?_of_mem ho
  have := hcontent a
  unfold contentOf at this
  rw [ha] at this
  cases hg : h.get? a with
  | none => rw [hg] at this; simp at this
  | some o2 =>
    rw [hg] at this
    simp at this
    have ho2 : o2 ∈ h := List.get?_mem hg
    rw [this]
    exact her o2 ho2

/-- Full postcondition of one `visit` call (with no replacer): a legal step,
markers changed only on addresses reachable from the visited value, no fuel
exhaustion when the fuel exceeds the untagged count, no anonymous-constructor
failure when `revive` is off, invariant preservation, the success guarantee,
and success itself on ready inputs. -/
def VPost (cfg : Config) (fuel : Nat) (st : VSt) (v : JVal)
    (out : VSt × Except Err Cell) : Prop :=
  VStep st out.1 ∧
  (∀ a, markerOf out.1.heap a ≠ markerOf st.heap a → Reaches st.heap v a) ∧
  (fuel > untaggedCount st.heap → out.2 ≠ .error .outOfFuel) ∧
  (cfg.revive = false → out.2 ≠ .error .anonymousCtor) ∧
  (WfSt cfg st → WfSt cfg out.1) ∧
  (∀ c, out.2 = .ok c → SuccCell st v out.1 c) ∧
  (WfSt cfg st → WfHeap st.heap → EncodeReady cfg st.heap →
    fuel > untaggedCount st.heap → ValOK st.heap v → ∃ c, out.2 = .ok c)

/-- Postcondition of visiting a list of elements. -/
def LPost (cfg : Config) (fuel : Nat) (st : VSt) (l : List JVal)
    (out : VSt × Except Err (List Cell)) : Prop :=
  VStep st out.1 ∧
  (∀ a, markerOf out.1.heap a ≠ markerOf st.heap a →
    ∃ v ∈ l, Reaches st.heap v a) ∧
  (fuel > untaggedCount st.heap → out.2 ≠ .error .outOfFuel) ∧
  (cfg.revive = false → out.2 ≠ .error .anonymousCtor) ∧
  (WfSt cfg st → WfSt cfg out.1) ∧
  (∀ cs, out.2 = .ok cs →
    List.Forall₂ (cellMatches out.1.heap) l cs ∧
    (∀ j, st.table.length ≤ j → j < out.1.table.length →
      ∃ te, out.1.table.get? j = some (some te))) ∧
  (WfSt cfg st → WfHeap st.heap → EncodeReady cfg st.heap →
    fuel > untaggedCount st.heap → (∀ v ∈ l, ValOK st.heap v) →
    ∃ cs, out.2 = .ok cs)

/-- Postcondition of visiting a property list (no replacer, so no key is
ever omitted). -/
def PPost (cfg : Config) (fuel : Nat) (st : VSt) (l : List (String × JVal))
    (out : VSt × Except Err (List (String × Cell))) : Prop :=
  VStep st out.1 ∧
  (∀ a, markerOf out.1.heap a ≠ markerOf st.heap a →
    ∃ p ∈ l, Reaches st.heap (Prod.snd p) a) ∧
  (fuel > untaggedCount st.heap → out.2 ≠ .error .outOfFuel) ∧
  (cfg.revive = false → out.2 ≠ .error .anonymousCtor) ∧
  (WfSt cfg st → WfSt cfg out.1) ∧
  (∀ cs, out.2 = .ok cs →
    List.Forall₂ (fun (p : String × JVal) (q : String × Cell) =>
      p.1 = q.1 ∧ cellMatches out.1.heap p.2 q.2) l cs ∧
    (∀ j, st.table.length ≤ j → j < out.1.table.length →
      ∃ te, out.1.table.get? j = some (some te))) ∧
  (WfSt cfg st → WfHeap st.heap → EncodeReady cfg st.heap →
    fuel > untaggedCount st.heap → (∀ p ∈ l, ValOK st.heap (Prod.snd p)) →
    ∃ cs, out.2 = .ok cs)

/-- Reserving a table position and tagging the original before recursing:
the step is legal, consumes one untagged object, tags exactly the visited
address with the reserved position, and preserves the invariant. -/
theorem tag_step (cfg : Config) {st st1 : VSt} {r : Nat} {o : HObj}
    (hg : st.heap.get? r = some o) (hunt : o.marker.isTagged = false)
    (hdef : st1 = ⟨setMarker st.heap r (.tagged st.table.length),
      st.table ++ [(Option.none : TSlot)]⟩) :
    VStep st st1 ∧ untaggedCount st1.heap + 1 = untaggedCount st.heap ∧
    markerOf st1.heap r = some (.tagged st.table.length) ∧
    (∀ a, markerOf st1.heap a ≠ markerOf st.heap a → a = r) ∧
    (WfSt cfg st → WfSt cfg st1) := by
  subst hdef
  have hr : r < st.heap.length := by
    by_contra hc
    rw [List.get?_eq_none.mpr (Nat.le_of_not_lt hc)] at hg
    exact Option.noConfusion hg
  have hmr : markerOf st.heap r = some o.marker := by
    unfold markerOf; rw [hg]; rfl
  have hnr : ∀ i, markerOf st.heap r ≠ some (.tagged i) := by
    intro i hc
    rw [hmr] at hc
    have hoi : o.marker = .tagged i := Option.some.inj hc
    rw [hoi] at hunt
    exact Bool.noConfusion hunt
  have huc := untaggedCount_setMarker_tagged hg hunt st.table.length
  have hself := markerOf_setMarker_self (h := st.heap)
    (Marker.tagged st.table.length) hr
  refine ⟨⟨length_setMarker _ _ _, fun a => contentOf_setMarker _ _ _ _,
      ?_, ?_, le_of_le_of_eq (Nat.le_succ _) huc, by simp, ?_⟩, huc, hself, ?_, ?_⟩
  · intro a i hi
    by_cases har : r = a
    · subst har; exact absurd hi (hnr i)
    · rw [markerOf_setMarker_ne _ _ har]; exact hi
  · intro a
    by_cases har : r = a
    · subst har; exact Or.inr ⟨_, hself⟩
    · exact Or.inl (markerOf_setMarker_ne _ _ har)
  · intro i hi
    rw [List.get?_append hi]
  · intro a ha
    by_contra har
    exact ha (markerOf_setMarker_ne _ _ (fun he => har he.symm))
  · intro hwf
    have hlt : ∀ a i, markerOf st.heap a = some (.tagged i) →
        i < st.table.length := hwf.markerLt
    refine ⟨?_, ?_, ?_⟩
    · intro a i hi
      by_cases har : r = a
      · subst har
        rw [hself] at hi
        cases hi
        simp
      · rw [markerOf_setMarker_ne _ _ har] at hi
        calc i < st.table.length := hlt a i hi
          _ ≤ (st.table ++ [(Option.none : TSlot)]).length := by simp
    · intro a b i ha hb
      by_cases har : r = a <;> by_cases hbr : r = b
      · rw [← har, ← hbr]
      · subst har
        rw [hself] at ha
        cases ha
        rw [markerOf_setMarker_ne _ _ hbr] at hb
        exact absurd (hlt b _ hb) (by omega)
      · subst hbr
        rw [hself] at hb
        cases hb
        rw [markerOf_setMarker_ne _ _ har] at ha
        exact absurd (hlt a _ ha) (by omega)
      · rw [markerOf_setMarker_ne _ _ har] at ha
        rw [markerOf_setMarker_ne _ _ hbr] at hb
        exact hwf.markerInj a b i ha hb
    · intro i te hte
      by_cases hi : i < st.table.length
      · rw [List.get?_append hi] at hte
        obtain ⟨h1, h2, h3⟩ := hwf.slotOrig i te hte
        have horig : te.orig ≠ r := by
          intro hc
          rw [hc] at h1
          exact hnr i h1
        refine ⟨?_, h2, ?_⟩
        · rw [markerOf_setMarker_ne _ _ (fun he => horig he.symm)]
          exact h1
        · refine EntryMatches_mono (fun a => contentOf_setMarker _ _ _ _) ?_ h3
          intro a j hj
          by_cases har : r = a
          · subst har; exact absurd hj (hnr j)
          · rw [markerOf_setMarker_ne _ _ har]; exact hj
      · have : i = st.table.length := by
          have := List.get?_eq_some.mp hte
          have hlen : i < (st.table ++ [(Option.none : TSlot)]).length := by
            by_contra hc
            rw [List.get?_eq_none.mpr (Nat.le_of_not_lt hc)] at hte
            exact Option.noConfusion hte
          simp at hlen
          omega
        subst this
        rw [List.get?_concat_length] at hte
        cases hte

theorem fill_vstep {st st2 : VSt} (hstep : VStep st st2) (te : TEntry)
    (hidx : st.table.length < st2.table.length) :
    VStep st ⟨st2.heap, st2.table.set st.table.length (some te)⟩ := by
  refine ⟨hstep.hlen, hstep.hcontent, hstep.hmark, hstep.hmarkval,
    hstep.huntag, ?_, ?_⟩
  · simp
    exact hstep.htlen
  · intro i hi
    show (st2.table.set st.table.length (some te)).get? i = _
    rw [List.get?_set_ne _ _ (by omega), hstep.hslot i hi]

theorem fill_wf {cfg : Config} {st2 : VSt} {idx : Nat} {te : TEntry}
    (hwf2 : WfSt cfg st2) (hidxlt : idx < st2.table.length)
    (hmark : markerOf st2.heap te.orig = some (.tagged idx))
    (hrefIdx : te.refIdx = idx)
    (hentry : EntryMatches cfg st2.heap te.orig te.entry) :
    WfSt cfg ⟨st2.heap, st2.table.set idx (some te)⟩ := by
  refine ⟨?_, hwf2.markerInj, ?_⟩
  · intro a i hi
    have := hwf2.markerLt a i hi
    simpa using this
  · intro i te' hte'
    by_cases hidk : idx = i
    · subst hidk
      rw [show (st2.table.set idx (some te)).get? idx = some (some te) from
        List.get?_set_eq_of_lt _ hidxlt] at hte'
      have : te' = te := by
        have := Option.some.inj hte'
        exact (Option.some.inj this).symm
      subst this
      exact ⟨hmark, hrefIdx, hentry⟩
    · rw [show (st2.table.set idx (some te)).get? i = st2.table.get? i from
        List.get?_set_ne _ _ hidk] at hte'
      exact hwf2.slotOrig i te' hte'

theorem visitElems_post (cfg : Config) (fuel : Nat)
    (hv : ∀ st v, VPost cfg fuel st v (visit cfg Option.none fuel st v)) :
    ∀ (l : List JVal) (st : VSt),
      LPost cfg fuel st l (visitElems cfg Option.none fuel st l)
  | [], st => by
    simp only [visitElems]
    refine ⟨VStep.refl st, ?_, ?_, ?_, fun h => h, ?_, ?_⟩
    · intro a ha; exact absurd rfl ha
    · intro _ h; exact Except.noConfusion h
    · intro _ h; exact Except.noConfusion h
    · intro cs hcs
      have : cs = [] := (Except.ok.inj hcs).symm
      subst this
      exact ⟨.nil, fun j hj1 hj2 => absurd hj1 (by dsimp only at hj2; omega)⟩
    · intro _ _ _ _ _; exact ⟨[], rfl⟩
  | v :: vs, st => by
    simp only [visitElems]
    rcases h1 : visit cfg Option.none fuel st v with ⟨st1, r1⟩
    have hp1 := hv st v
    rw [h1] at hp1
    obtain ⟨hstep1, hprov1, hooF1, hanon1, hwf1, hsucc1, hex1⟩ := hp1
    cases r1 with
    | error e =>
      dsimp only
      refine ⟨hstep1, ?_, ?_, ?_, hwf1, ?_, ?_⟩
      · intro a ha
        exact ⟨v, List.mem_cons_self _ _, hprov1 a ha⟩
      · intro hf hc
        exact hooF1 hf (by simpa using hc)
      · intro hr hc
        exact hanon1 hr (by simpa using hc)
      · intro cs hcs; exact Except.noConfusion hcs
      · intro hwf hwh her hf hval
        obtain ⟨c, hc⟩ := hex1 hwf hwh her hf (hval v (List.mem_cons_self _ _))
        exact Except.noConfusion hc
    | ok c =>
      dsimp only
      rcases h2 : visitElems cfg Option.none fuel st1 vs with ⟨st2, r2⟩
      have hp2 := visitElems_post cfg fuel hv vs st1
      rw [h2] at hp2
      obtain ⟨hstep2, hprov2, hooF2, hanon2, hwf2, hsucc2, hex2⟩ := hp2
      have hsc := hsucc1 c rfl
      have hprovc : ∀ a, markerOf st2.heap a ≠ markerOf st.heap a →
          ∃ w, w ∈ v :: vs ∧ Reaches st.heap w a := by
        intro a ha
        by_cases hm1 : markerOf st1.heap a = markerOf st.heap a
        · have : markerOf st2.heap a ≠ markerOf st1.heap a := by
            rw [hm1]; exact ha
          obtain ⟨w, hw, hr⟩ := hprov2 a this
          exact ⟨w, List.mem_cons_of_mem _ hw,
            Reaches_congr (fun b => (hstep1.hcontent b).symm) hr⟩
        · exact ⟨v, List.mem_cons_self _ _, hprov1 a hm1⟩
      cases r2 with
      | error e =>
        dsimp only
        refine ⟨hstep1.trans hstep2, hprovc, ?_, ?_, fun h => hwf2 (hwf1 h), ?_, ?_⟩
        · intro hf hc
          exact hooF2 (lt_of_le_of_lt hstep1.huntag hf) (by simpa using hc)
        · intro hr hc
          exact hanon2 hr (by simpa using hc)
        · intro cs hcs; exact Except.noConfusion hcs
        · intro hwf hwh her hf hval
          obtain ⟨cs, hcs⟩ := hex2 (hwf1 hwf)
            (WfHeap_congr hstep1.hlen hstep1.hcontent hwh)
            (EncodeReady_congr hstep1.hcontent her)
            (lt_of_le_of_lt hstep1.huntag hf)
            (fun w hw => by
              have := hval w (List.mem_cons_of_mem _ hw)
              cases w with
              | atom u => exact this
              | ref b =>
                show b < st1.heap.length
                rw [hstep1.hlen]
                exact this)
          exact Except.noConfusion hcs
      | ok cs =>
        dsimp only
        refine ⟨hstep1.trans hstep2, hprovc, ?_, ?_, fun h => hwf2 (hwf1 h), ?_, ?_⟩
        · intro _ hc; exact Except.noConfusion hc
        · intro _ hc; exact Except.noConfusion hc
        · intro cs' hcs'
          have : c :: cs = cs' := Except.ok.inj hcs'
          subst this
          obtain ⟨hfor, hfill⟩ := hsucc2 cs rfl
          constructor
          · refine .cons ?_ hfor
            cases v with
            | atom u =>
              have : st1 = st ∧ handleAtom u = .ok c := hsc
              exact this.2
            | ref b =>
              obtain ⟨⟨i, hi, hc, _⟩, _⟩ := hsc
              exact ⟨i, hstep2.hmark b i hi, hc⟩
          · intro j hj1 hj2
            by_cases hj : j < st1.table.length
            · cases v with
              | atom u =>
                have heq : st1 = st := hsc.1
                rw [heq] at hj
                exact absurd hj1 (by omega)
              | ref b =>
                obtain ⟨_, hfill1⟩ := hsc
                obtain ⟨te, hte⟩ := hfill1 j hj1 hj
                exact ⟨te, by rw [hstep2.hslot j hj]; exact hte⟩
            · exact hfill j (Nat.le_of_not_lt hj) hj2
        · intro _ _ _ _ _
          exact ⟨c :: cs, rfl⟩
termination_by l _ => l.length

theorem visitProps_post (cfg : Config) (fuel : Nat)
    (hv : ∀ st v, VPost cfg fuel st v (visit cfg Option.none fuel st v)) :
    ∀ (l : List (String × JVal)) (st : VSt),
      PPost cfg fuel st l (visitProps cfg Option.none fuel st l)
  | [], st => by
    simp only [visitProps]
    refine ⟨VStep.refl st, ?_, ?_, ?_, fun h => h, ?_, ?_⟩
    · intro a ha; exact absurd rfl ha
    · intro _ h; exact Except.noConfusion h
    · intro _ h; exact Except.noConfusion h
    · intro cs hcs
      have : cs = [] := (Except.ok.inj hcs).symm
      subst this
      exact ⟨.nil, fun j hj1 hj2 => absurd hj1 (by dsimp only at hj2; omega)⟩
    · intro _ _ _ _ _; exact ⟨[], rfl⟩
  | (k, v) :: ps, st => by
    simp only [visitProps]
    rcases h1 : visit cfg Option.none fuel st v with ⟨st1, r1⟩
    have hp1 := hv st v
    rw [h1] at hp1
    obtain ⟨hstep1, hprov1, hooF1, hanon1, hwf1, hsucc1, hex1⟩ := hp1
    cases r1 with
    | error e =>
      dsimp only
      refine ⟨hstep1, ?_, ?_, ?_, hwf1, ?_, ?_⟩
      · intro a ha
        exact ⟨(k, v), List.mem_cons_self _ _, hprov1 a ha⟩
      · intro hf hc
        exact hooF1 hf (by simpa using hc)
      · intro hr hc
        exact hanon1 hr (by simpa using hc)
      · intro cs hcs; exact Except.noConfusion hcs
      · intro hwf hwh her hf hval
        obtain ⟨c, hc⟩ := hex1 hwf hwh her hf (hval (k, v) (List.mem_cons_self _ _))
        exact Except.noConfusion hc
    | ok c =>
      dsimp only
      rcases h2 : visitProps cfg Option.none fuel st1 ps with ⟨st2, r2⟩
      have hp2 := visitProps_post cfg fuel hv ps st1
      rw [h2] at hp2
      obtain ⟨hstep2, hprov2, hooF2, hanon2, hwf2, hsucc2, hex2⟩ := hp2
      have hsc := hsucc1 c rfl
      have hprovc : ∀ a, markerOf st2.heap a ≠ markerOf st.heap a →
          ∃ p, p ∈ (k, v) :: ps ∧ Reaches st.heap (Prod.snd p) a := by
        intro a ha
        by_cases hm1 : markerOf st1.heap a = markerOf st.heap a
        · have : markerOf st2.heap a ≠ markerOf st1.heap a := by
            rw [hm1]; exact ha
          obtain ⟨w, hw, hr⟩ := hprov2 a this
          exact ⟨w, List.mem_cons_of_mem _ hw,
            Reaches_congr (fun b => (hstep1.hcontent b).symm) hr⟩
        · exact ⟨(k, v), List.mem_cons_self _ _, hprov1 a hm1⟩
      have hvalstep : ∀ (hwh : WfHeap st.heap)
          (hval : ∀ p ∈ (k, v) :: ps, ValOK st.heap (Prod.snd p)),
          ∀ p ∈ ps, ValOK st1.heap (Prod.snd p) := by
        intro hwh hval w hw
        have := hval w (List.mem_cons_of_mem _ hw)
        cases hws : Prod.snd w with
        | atom u => rw [hws] at this; exact this
        | ref b =>
          rw [hws] at this
          show b < st1.heap.length
          rw [hstep1.hlen]
          exact this
      cases r2 with
      | error e =>
        dsimp only
        refine ⟨hstep1.trans hstep2, hprovc, ?_, ?_, fun h => hwf2 (hwf1 h), ?_, ?_⟩
        · intro hf hc
          exact hooF2 (lt_of_le_of_lt hstep1.huntag hf) (by simpa using hc)
        · intro hr hc
          exact hanon2 hr (by simpa using hc)
        · intro cs hcs; exact Except.noConfusion hcs
        · intro hwf hwh her hf hval
          obtain ⟨cs, hcs⟩ := hex2 (hwf1 hwf)
            (WfHeap_congr hstep1.hlen hstep1.hcontent hwh)
            (EncodeReady_congr hstep1.hcontent her)
            (lt_of_le_of_lt hstep1.huntag hf)
            (hvalstep hwh hval)
          exact Except.noConfusion hcs
      | ok cs =>
        dsimp only
        refine ⟨hstep1.trans hstep2, hprovc, ?_, ?_, fun h => hwf2 (hwf1 h), ?_, ?_⟩
        · intro _ hc; exact Except.noConfusion hc
        · intro _ hc; exact Except.noConfusion hc
        · intro cs' hcs'
          have : (k, c) :: cs = cs' := Except.ok.inj hcs'
          subst this
          obtain ⟨hfor, hfill⟩ := hsucc2 cs rfl
          constructor
          · refine .cons ⟨rfl, ?_⟩ hfor
            cases v with
            | atom u =>
              have : st1 = st ∧ handleAtom u = .ok c := hsc
              exact this.2
            | ref b =>
              obtain ⟨⟨i, hi, hc, _⟩, _⟩ := hsc
              exact ⟨i, hstep2.hmark b i hi, hc⟩
          · intro j hj1 hj2
            by_cases hj : j < st1.table.length
            · cases v with
              | atom u =>
                have heq : st1 = st := hsc.1
                rw [heq] at hj
                exact absurd hj1 (by omega)
              | ref b =>
                obtain ⟨_, hfill1⟩ := hsc
                obtain ⟨te, hte⟩ := hfill1 j hj1 hj
                exact ⟨te, by rw [hstep2.hslot j hj]; exact hte⟩
            · exact hfill j (Nat.le_of_not_lt hj) hj2
        · intro _ _ _ _ _
          exact ⟨(k, c) :: cs, rfl⟩
termination_by l _ => l.length

theorem handleAtom_error_kind {u : Atom} {e : Err}
    (h : handleAtom u = .error e) :
    e = .unserializable ∨ e = .typeErr := by
  cases u with
  | func => exact Or.inl (Except.error.inj h).symm
  | regexp src flags =>
    simp only [handleAtom] at h
    cases hm : matchSlashPattern (regexpToString src flags) with
    | none =>
      rw [hm] at h
      exact Or.inr (Except.error.inj h).symm
    | some p =>
      rw [hm] at h
      exact Except.noConfusion h
  | num n =>
    simp only [handleAtom] at h
    by_cases hn : n.nonFinite = true
    · rw [if_pos hn] at h; exact Except.noConfusion h
    · rw [if_neg hn] at h; exact Except.noConfusion h
  | str s => exact Except.noConfusion h
  | bool b => exact Except.noConfusion h
  | null => exact Except.noConfusion h
  | undef => exact Except.noConfusion h
  | date ms => exact Except.noConfusion h
  | node html => exact Except.noConfusion h

theorem tagCheck_no_revive {cfg : Config} (h : cfg.revive = false)
    (cn : String) (p : Nat) : tagCheck cfg cn p = .ok Option.none := by
  unfold tagCheck
  rw [h]
  rfl

theorem tagCheck_error_kind {cfg : Config} {cn : String} {p : Nat} {e : Err}
    (h : tagCheck cfg cn p = .error e) :
    e = .anonymousCtor ∨ e = .unknownConstructor ∨ e = .ctorMismatch := by
  unfold tagCheck at h
  by_cases hr : cfg.revive = true
  · rw [if_pos hr] at h
    by_cases h0 : cn = ""
    · rw [if_pos h0] at h
      exact Or.inl (Except.error.inj h).symm
    · rw [if_neg h0] at h
      by_cases h1 : cn = "Object" ∨ cn = "Array"
      · rw [if_pos h1] at h; exact Except.noConfusion h
      · rw [if_neg h1] at h
        cases hl : cfg.resolver.lookupScope cn with
        | none =>
          rw [hl] at h
          exact Or.inr (Or.inl (Except.error.inj h).symm)
        | some q =>
          rw [hl] at h
          dsimp only at h
          by_cases h2 : q ≠ p
          · rw [if_pos h2] at h
            exact Or.inr (Or.inr (Except.error.inj h).symm)
          · rw [if_neg h2] at h; exact Except.noConfusion h
  · rw [if_neg hr] at h
    exact Except.noConfusion h

theorem tagCheck_ok_some {cfg : Config} {cn : String} {p : Nat} {n : String}
    (h : tagCheck cfg cn p = .ok (some n)) :
    cfg.revive = true ∧ n = cn ∧ cfg.resolver.lookupScope cn = some p := by
  unfold tagCheck at h
  by_cases hr : cfg.revive = true
  · rw [if_pos hr] at h
    by_cases h0 : cn = ""
    · rw [if_pos h0] at h; exact Except.noConfusion h
    · rw [if_neg h0] at h
      by_cases h1 : cn = "Object" ∨ cn = "Array"
      · rw [if_pos h1] at h
        exact Option.noConfusion (Except.ok.inj h)
      · rw [if_neg h1] at h
        cases hl : cfg.resolver.lookupScope cn with
        | none => rw [hl] at h; exact Except.noConfusion h
        | some q =>
          rw [hl] at h
          dsimp only at h
          by_cases h2 : q ≠ p
          · rw [if_pos h2] at h; exact Except.noConfusion h
          · rw [if_neg h2] at h
            have hq : q = p := not_ne_iff.mp h2
            have hn : some cn = some n := Except.ok.inj h
            exact ⟨hr, (Option.some.inj hn).symm, congrArg some hq⟩
  · rw [if_neg hr] at h
    exact Option.noConfusion (Except.ok.inj h)

theorem reaches_atom {h : Heap} {u : Atom} {a : Nat} :
    ¬ Reaches h (.atom u) a := by
  intro hr
  cases hr

theorem prov_compose {st st1 st2 : VSt} {r : Nat} {o : HObj}
    (hco : contentOf st.heap r = some o.content)
    (hcontent01 : ∀ b, contentOf st1.heap b = contentOf st.heap b)
    (hchg1 : ∀ a, markerOf st1.heap a ≠ markerOf st.heap a → a = r)
    (hsub : ∀ a, markerOf st2.heap a ≠ markerOf st1.heap a →
      ∃ v ∈ cellVals o.content, Reaches st1.heap v a) :
    ∀ a, markerOf st2.heap a ≠ markerOf st.heap a →
      Reaches st.heap (.ref r) a := by
  intro a ha
  by_cases hm1 : markerOf st1.heap a = markerOf st.heap a
  · obtain ⟨v, hvmem, hr⟩ := hsub a (by rw [hm1]; exact ha)
    exact Reaches.step hco hvmem
      (Reaches_congr (fun b => (hcontent01 b).symm) hr)
  · have := hchg1 a hm1
    subst this
    exact Reaches.here a

theorem vals_ok_cell {cfg : Config} {h st1heap : Heap} {o : HObj}
    (hmem : o ∈ h) (hwh : WfHeap h) (her : EncodeReady cfg h)
    (hlen : st1heap.length = h.length) :
    ∀ v ∈ cellVals o.content, ValOK st1heap v := by
  intro v hvm
  cases v with
  | atom u => exact (her o hmem).1 (.atom u) hvm u rfl
  | ref b =>
    show b < st1heap.length
    rw [hlen]
    exact hwh o hmem (.ref b) hvm b rfl

theorem visitUntagged_post (cfg : Config) (fuel : Nat) (st : VSt) (r : Nat)
    (o : HObj) (hg : st.heap.get? r = some o)
    (hunt : o.marker.isTagged = false)
    (hv : ∀ st v, VPost cfg fuel st v (visit cfg Option.none fuel st v)) :
    VPost cfg (fuel + 1) st (.ref r)
      (visitUntagged cfg Option.none fuel st r o) := by
  have hco : contentOf st.heap r = some o.content := by
    unfold contentOf; rw [hg]; rfl
  have ho_mem : o ∈ st.heap := List.get?_mem hg
  obtain ⟨hstep01, huc, hmark1, hchg1, hwf01⟩ :=
    tag_step cfg hg hunt rfl
  unfold visitUntagged
  by_cases harr : o.content.isArr = true
  · rw [if_pos harr]
    dsimp only
    rcases h2 : visitElems cfg Option.none fuel
      ⟨setMarker st.heap r (.tagged st.table.length),
        st.table ++ [(Option.none : TSlot)]⟩ o.content.elems with ⟨st2, r2⟩
    have hp2 := visitElems_post cfg fuel hv o.content.elems
      ⟨setMarker st.heap r (.tagged st.table.length),
        st.table ++ [(Option.none : TSlot)]⟩
    rw [h2] at hp2
    obtain ⟨hstep2, hprov2, hooF2, hanon2, hwf2, hsucc2, hex2⟩ := hp2
    have hfuel1 : fuel + 1 > untaggedCount st.heap →
        fuel > untaggedCount (setMarker st.heap r
          (.tagged st.table.length)) := by
      intro hf
      have : untaggedCount (setMarker st.heap r (.tagged st.table.length))
          + 1 = untaggedCount st.heap := huc
      omega
    have hcvA : cellVals o.content = o.content.elems := by
      unfold cellVals
      rw [if_pos harr]
    have hprovA := prov_compose hco hstep01.hcontent hchg1
      (fun a ha => (hprov2 a ha).imp
        (fun v hv2 => ⟨by rw [hcvA]; exact hv2.1, hv2.2⟩))
    cases r2 with
    | error e =>
      dsimp only
      refine ⟨hstep01.trans hstep2, hprovA, ?_, ?_,
        fun h => hwf2 (hwf01 h), ?_, ?_⟩
      · intro hf hc
        exact hooF2 (hfuel1 hf) (by simpa using hc)
      · intro hr hc
        exact hanon2 hr (by simpa using hc)
      · intro c hc; exact Except.noConfusion hc
      · intro hwf hwh her hf _
        obtain ⟨cs, hcs⟩ := hex2 (hwf01 hwf)
          (WfHeap_congr hstep01.hlen hstep01.hcontent hwh)
          (EncodeReady_congr hstep01.hcontent her)
          (hfuel1 hf)
          (fun v hvm => vals_ok_cell ho_mem hwh her
            (hstep01.hlen) v (by rw [hcvA]; exact hvm))
        exact Except.noConfusion hcs
    | ok cells =>
      dsimp only
      obtain ⟨hfor, hfill⟩ := hsucc2 cells rfl
      have hidxlt : st.table.length < st2.table.length := by
        have h1 : st.table.length + 1 =
            (st.table ++ [(Option.none : TSlot)]).length := by simp
        have h2l := hstep2.htlen
        dsimp only at h2l
        omega
      have hmark2 : markerOf st2.heap r = some (.tagged st.table.length) :=
        hstep2.hmark r _ hmark1
      refine ⟨fill_vstep (hstep01.trans hstep2) _ hidxlt, hprovA, ?_, ?_,
        ?_, ?_, ?_⟩
      · intro _ hc; exact Except.noConfusion hc
      · intro _ hc; exact Except.noConfusion hc
      · intro hwf
        refine fill_wf (hwf2 (hwf01 hwf)) hidxlt hmark2 rfl ?_
        refine ⟨o.content, ?_, Or.inl ⟨cells, harr, rfl, hfor⟩⟩
        rw [hstep2.hcontent r, hstep01.hcontent r]
        exact hco
      · intro c hc
        have hcb : Cell.backref (st.table.length : Int) = c :=
          Except.ok.inj hc
        subst hcb
        refine ⟨⟨st.table.length, hmark2, rfl, Or.inr ⟨?_, rfl⟩⟩, ?_⟩
        · intro k hk
          unfold markerOf at hk
          rw [hg] at hk
          have hok : o.marker = .tagged k := Option.some.inj hk
          rw [hok] at hunt
          exact Bool.noConfusion hunt
        intro j hj1 hj2
        dsimp only at hj2
        rw [List.length_set] at hj2
        by_cases hje : j = st.table.length
        · subst hje
          exact ⟨_, List.get?_set_eq_of_lt _ hidxlt⟩
        · have hj1' : (st.table ++ [(Option.none : TSlot)]).length ≤ j := by
            simp
            omega
          obtain ⟨te, hte⟩ := hfill j hj1' hj2
          refine ⟨te, ?_⟩
          show (st2.table.set st.table.length (some _)).get? j = _
          rw [List.get?_set_ne _ _ (fun he => hje he.symm)]
          exact hte
      · intro _ _ _ _ _
        exact ⟨_, rfl⟩
  · rw [if_neg harr]
    have harr' : o.content.isArr = false := by
      cases hb : o.content.isArr
      · rfl
      · exact absurd hb harr
    cases htc : tagCheck cfg o.content.ctorName o.content.protoId with
    | error e =>
      dsimp only
      refine ⟨VStep.refl st, ?_, ?_, ?_, fun h => h, ?_, ?_⟩
      · intro a ha; exact absurd rfl ha
      · intro _ hc
        have he : e = Err.outOfFuel := by simpa using hc
        subst he
        rcases tagCheck_error_kind htc with h | h | h <;> exact Err.noConfusion h
      · intro hr hc
        rw [tagCheck_no_revive hr] at htc
        exact Except.noConfusion htc
      · intro c hc; exact Except.noConfusion hc
      · intro hwf hwh her hf _
        obtain ⟨t, ht⟩ := (her o ho_mem).2 harr'
        rw [htc] at ht
        exact Except.noConfusion ht
    | ok ptag =>
      dsimp only
      rcases h2 : visitProps cfg Option.none fuel
        ⟨setMarker st.heap r (.tagged st.table.length),
          st.table ++ [(Option.none : TSlot)]⟩ o.content.props with ⟨st2, r2⟩
      have hp2 := visitProps_post cfg fuel hv o.content.props
        ⟨setMarker st.heap r (.tagged st.table.length),
          st.table ++ [(Option.none : TSlot)]⟩
      rw [h2] at hp2
      obtain ⟨hstep2, hprov2, hooF2, hanon2, hwf2, hsucc2, hex2⟩ := hp2
      have hfuel1 : fuel + 1 > untaggedCount st.heap →
          fuel > untaggedCount (setMarker st.heap r
            (.tagged st.table.length)) := by
        intro hf
        have : untaggedCount (setMarker st.heap r (.tagged st.table.length))
            + 1 = untaggedCount st.heap := huc
        omega
      have hcvB : cellVals o.content = o.content.props.map Prod.snd := by
        unfold cellVals
        rw [if_neg (by rw [harr']; exact Bool.false_ne_true)]
      have hprovB := prov_compose hco hstep01.hcontent hchg1
        (fun a ha => by
          obtain ⟨p, hpm, hr⟩ := hprov2 a ha
          exact ⟨p.2, by rw [hcvB]; exact List.mem_map_of_mem Prod.snd hpm, hr⟩)
      cases r2 with
      | error e =>
        dsimp only
        refine ⟨hstep01.trans hstep2, hprovB, ?_, ?_,
          fun h => hwf2 (hwf01 h), ?_, ?_⟩
        · intro hf hc
          exact hooF2 (hfuel1 hf) (by simpa using hc)
        · intro hr hc
          exact hanon2 hr (by simpa using hc)
        · intro c hc; exact Except.noConfusion hc
        · intro hwf hwh her hf _
          obtain ⟨cs, hcs⟩ := hex2 (hwf01 hwf)
            (WfHeap_congr hstep01.hlen hstep01.hcontent hwh)
            (EncodeReady_congr hstep01.hcontent her)
            (hfuel1 hf)
            (fun p hpm => vals_ok_cell ho_mem hwh her
              (hstep01.hlen) p.2 (by
                rw [hcvB]
                exact List.mem_map_of_mem Prod.snd hpm))
          exact Except.noConfusion hcs
      | ok pcells =>
        dsimp only
        rcases h3 : visit cfg Option.none fuel st2
          (.atom (.num (.fin (st.table.length : Int)))) with ⟨st3, r3⟩
        have hp3 := hv st2 (.atom (.num (.fin (st.table.length : Int))))
        rw [h3] at hp3
        obtain ⟨hstep3, hprov3, hooF3, hanon3, hwf3, hsucc3, hex3⟩ := hp3
        have hfuel2 : fuel + 1 > untaggedCount st.heap →
            fuel > untaggedCount st2.heap := by
          intro hf
          have h1 : untaggedCount (setMarker st.heap r
              (.tagged st.table.length)) + 1 = untaggedCount st.heap := huc
          have h2b := hstep2.huntag
          dsimp only at h2b
          omega
        have hprov3' : ∀ a, markerOf st3.heap a = markerOf st2.heap a := by
          intro a
          by_contra hc
          exact reaches_atom (hprov3 a hc)
        cases r3 with
        | error e =>
          dsimp only
          refine ⟨(hstep01.trans hstep2).trans hstep3, ?_, ?_, ?_,
            fun h => hwf3 (hwf2 (hwf01 h)), ?_, ?_⟩
          · intro a ha
            refine hprovB a ?_
            rw [← hprov3' a]
            exact ha
          · intro hf hc
            exact hooF3 (hfuel2 hf) (by simpa using hc)
          · intro hr hc
            exact hanon3 hr (by simpa using hc)
          · intro c hc; exact Except.noConfusion hc
          · intro hwf hwh her hf _
            obtain ⟨c, hc⟩ := hex3 (hwf2 (hwf01 hwf))
              (WfHeap_congr (hstep01.trans hstep2).hlen
                (hstep01.trans hstep2).hcontent hwh)
              (EncodeReady_congr (hstep01.trans hstep2).hcontent her)
              (hfuel2 hf) rfl
            exact Except.noConfusion hc
        | ok c3 =>
          dsimp only
          have hst32 : st3 = st2 := hsucc3 c3 rfl |>.1
          subst hst32
          obtain ⟨hfor, hfill⟩ := hsucc2 pcells rfl
          have hidxlt : st.table.length < st3.table.length := by
            have h1 : st.table.length + 1 =
                (st.table ++ [(Option.none : TSlot)]).length := by simp
            have h2l := hstep2.htlen
            dsimp only at h2l
            omega
          have hmark2 : markerOf st3.heap r =
              some (.tagged st.table.length) :=
            hstep2.hmark r _ hmark1
          refine ⟨fill_vstep (hstep01.trans hstep2) _ hidxlt, hprovB, ?_, ?_,
            ?_, ?_, ?_⟩
          · intro _ hc; exact Except.noConfusion hc
          · intro _ hc; exact Except.noConfusion hc
          · intro hwf
            refine fill_wf (hwf2 (hwf01 hwf)) hidxlt hmark2 rfl ?_
            refine ⟨o.content, ?_, Or.inr ⟨ptag, pcells, harr', rfl, htc, hfor⟩⟩
            rw [hstep2.hcontent r, hstep01.hcontent r]
            exact hco
          · intro c hc
            have hcb : Cell.backref (st.table.length : Int) = c :=
              Except.ok.inj hc
            subst hcb
            refine ⟨⟨st.table.length, hmark2, rfl, Or.inr ⟨?_, rfl⟩⟩, ?_⟩
            · intro k hk
              unfold markerOf at hk
              rw [hg] at hk
              have hok : o.marker = .tagged k := Option.some.inj hk
              rw [hok] at hunt
              exact Bool.noConfusion hunt
            intro j hj1 hj2
            dsimp only at hj2
            rw [List.length_set] at hj2
            by_cases hje : j = st.table.length
            · subst hje
              exact ⟨_, List.get?_set_eq_of_lt _ hidxlt⟩
            · have hj1' : (st.table ++ [(Option.none : TSlot)]).length ≤ j := by
                simp
                omega
              obtain ⟨te, hte⟩ := hfill j hj1' hj2
              refine ⟨te, ?_⟩
              show (st3.table.set st.table.length (some _)).get? j = _
              rw [List.get?_set_ne _ _ (fun he => hje he.symm)]
              exact hte
          · intro _ _ _ _ _
            exact ⟨_, rfl⟩

/-- The master theorem about `_visit` (with no replacer): every call satisfies
the full postcondition `VPost`. -/
theorem visit_post : ∀ (fuel : Nat) (cfg : Config) (st : VSt) (v : JVal),
    VPost cfg fuel st v (visit cfg Option.none fuel st v)
  | 0, cfg, st, v => by
    simp only [visit]
    refine ⟨VStep.refl st, ?_, ?_, ?_, fun h => h, ?_, ?_⟩
    · intro a ha; exact absurd rfl ha
    · intro hf _
      exact absurd hf (by omega)
    · intro _ hc
      exact Err.noConfusion (Except.error.inj hc)
    · intro c hc; exact Except.noConfusion hc
    · intro _ _ _ hf _
      exact absurd hf (by omega)
  | fuel + 1, cfg, st, .atom a => by
    simp only [visit]
    refine ⟨VStep.refl st, ?_, ?_, ?_, fun h => h, ?_, ?_⟩
    · intro x hx; exact absurd rfl hx
    · intro _ hc
      rcases handleAtom_error_kind hc with h | h <;> exact Err.noConfusion h
    · intro _ hc
      rcases handleAtom_error_kind hc with h | h <;> exact Err.noConfusion h
    · intro c hc; exact ⟨rfl, hc⟩
    · intro _ _ _ _ hval
      obtain ⟨c, hc, _⟩ := handleAtom_resolve hval
      exact ⟨c, hc⟩
  | fuel + 1, cfg, st, .ref r => by
    have hv : ∀ st v, VPost cfg fuel st v (visit cfg Option.none fuel st v) :=
      fun st v => visit_post fuel cfg st v
    simp only [visit]
    cases hg : st.heap.get? r with
    | none =>
      dsimp only
      refine ⟨VStep.refl st, ?_, ?_, ?_, fun h => h, ?_, ?_⟩
      · intro a ha; exact absurd rfl ha
      · intro _ hc
        exact Err.noConfusion (Except.error.inj hc)
      · intro _ hc
        exact Err.noConfusion (Except.error.inj hc)
      · intro c hc; exact Except.noConfusion hc
      · intro _ _ _ _ hval
        have : r < st.heap.length := hval
        exact absurd (List.get?_eq_none.mp hg) (by omega)
    | some o =>
      cases hm : o.marker with
      | tagged i =>
        dsimp only
        rw [hm]
        dsimp only
        refine ⟨VStep.refl st, ?_, ?_, ?_, fun h => h, ?_, ?_⟩
        · intro a ha; exact absurd rfl ha
        · intro _ hc; exact Except.noConfusion hc
        · intro _ hc; exact Except.noConfusion hc
        · intro c hc
          have hcb : Cell.backref (i : Int) = c := Except.ok.inj hc
          subst hcb
          have hmr : markerOf st.heap r = some (.tagged i) := by
            unfold markerOf
            rw [hg]
            dsimp only [Option.map]
            rw [hm]
          refine ⟨⟨i, hmr, rfl, Or.inl hmr⟩, ?_⟩
          · intro j hj1 hj2
            dsimp only at hj2
            exact absurd hj1 (by omega)
        · intro _ _ _ _ _
          exact ⟨_, rfl⟩
      | absent =>
        dsimp only
        rw [hm]
        exact visitUntagged_post cfg fuel st r o hg (by rw [hm]; rfl) hv
      | nullTag =>
        dsimp only
        rw [hm]
        exact visitUntagged_post cfg fuel st r o hg (by rw [hm]; rfl) hv
termination_by fuel _ _ _ => fuel

/-! ## From the traversal to `stringify` -/

theorem forall2_get? {α β : Type} {R : α → β → Prop} :
    ∀ {l1 : List α} {l2 : List β}, List.Forall₂ R l1 l2 →
      l1.length = l2.length ∧
      ∀ i a, l1.get? i = some a → ∃ b, l2.get? i = some b ∧ R a b := by
  intro l1 l2 hf
  induction hf with
  | nil => exact ⟨rfl, fun i a ha => by simp at ha⟩
  | cons hR htail ih =>
    rename_i x y l1t l2t
    refine ⟨by simp [ih.1], ?_⟩
    intro i a ha
    cases i with
    | zero =>
      have hxa : x = a := by simpa using ha
      subst hxa
      exact ⟨y, rfl, hR⟩
    | succ j =>
      have ha' : l1t.get? j = some a := by simpa using ha
      obtain ⟨b, hb, hab⟩ := ih.2 j a ha'
      exact ⟨b, by simpa using hb, hab⟩

theorem forall2_mem_left {α β : Type} {R : α → β → Prop}
    {l1 : List α} {l2 : List β} (hf : List.Forall₂ R l1 l2) {a : α}
    (ha : a ∈ l1) : ∃ b ∈ l2, R a b := by
  induction hf with
  | nil => simp at ha
  | cons hR htail ih =>
    rcases List.mem_cons.mp ha with h | h
    · subst h
      exact ⟨_, List.mem_cons_self _ _, hR⟩
    · obtain ⟨b, hb, hab⟩ := ih h
      exact ⟨b, List.mem_cons_of_mem _ hb, hab⟩

theorem markerOf_setMarker_map (h : Heap) (a : Nat) (m : Marker) :
    markerOf (setMarker h a m) a = (markerOf h a).map (fun _ => m) := by
  cases hg : h.get? a with
  | none =>
    unfold markerOf setMarker
    rw [hg]
    dsimp only
    rw [hg]
    rfl
  | some o =>
    have ha : a < h.length := by
      by_contra hc
      rw [List.get?_eq_none.mpr (Nat.le_of_not_lt hc)] at hg
      exact Option.noConfusion hg
    rw [markerOf_setMarker_self m ha]
    unfold markerOf
    rw [hg]
    rfl

/-- The addresses whose entries sit in the table (the originals the cleanup
loop will touch). -/
def origsOf (slots : List TSlot) : List Nat :=
  slots.filterMap (fun s => Option.map TEntry.orig s)

theorem finishTable_heap (cfg : Config) : ∀ (slots : List TSlot) (h : Heap),
    (∀ s ∈ slots, s ≠ (Option.none : TSlot)) →
    (finishTable cfg h slots).1.length = h.length ∧
    (∀ a, contentOf (finishTable cfg h slots).1 a = contentOf h a) ∧
    (∀ a, a ∈ origsOf slots →
      markerOf (finishTable cfg h slots).1 a = (markerOf h a).map
        (fun _ => if cfg.cleanup then Marker.absent else Marker.nullTag)) ∧
    (∀ a, a ∉ origsOf slots →
      markerOf (finishTable cfg h slots).1 a = markerOf h a)
  | [], h, _ => by
    refine ⟨rfl, fun a => rfl, ?_, fun a _ => rfl⟩
    intro a ha
    simp [origsOf] at ha
  | (Option.none : TSlot) :: rest, h, hall => by
    exact absurd rfl (hall _ (List.mem_cons_self _ _))
  | some te :: rest, h, hall => by
    have hrec := finishTable_heap cfg rest
      (setMarker h te.orig (if cfg.cleanup then .absent else .nullTag))
      (fun s hs => hall s (List.mem_cons_of_mem _ hs))
    simp only [finishTable]
    rcases hft : finishTable cfg
      (setMarker h te.orig (if cfg.cleanup then .absent else .nullTag)) rest
      with ⟨h2, res⟩
    rw [hft] at hrec
    have horigs : origsOf (some te :: rest) = te.orig :: origsOf rest := by
      simp [origsOf]
    have hgoal : ∀ (x : Heap × Except Err (List Entry)),
        x.1 = h2 →
        x.1.length = h.length ∧ (∀ a, contentOf x.1 a = contentOf h a) ∧
        (∀ a, a ∈ origsOf (some te :: rest) →
          markerOf x.1 a = (markerOf h a).map
            (fun _ => if cfg.cleanup then Marker.absent else Marker.nullTag)) ∧
        (∀ a, a ∉ origsOf (some te :: rest) →
          markerOf x.1 a = markerOf h a) := by
      intro x hx
      rw [hx]
      obtain ⟨hl, hc, hin, hout⟩ := hrec
      dsimp only at hl hc hin hout
      refine ⟨hl.trans (length_setMarker _ _ _), ?_, ?_, ?_⟩
      · intro a
        rw [hc a, contentOf_setMarker]
      · intro a ha
        rw [horigs] at ha
        rcases List.mem_cons.mp ha with hae | hae
        · subst hae
          by_cases hmem : te.orig ∈ origsOf rest
          · rw [hin te.orig hmem, markerOf_setMarker_map]
            cases markerOf h te.orig <;> rfl
          · rw [hout te.orig hmem, markerOf_setMarker_map]
        · by_cases hmem : a ∈ origsOf rest
          · rw [hin a hmem]
            by_cases hae2 : te.orig = a
            · rw [← hae2, markerOf_setMarker_map]
              cases markerOf h te.orig <;> rfl
            · rw [markerOf_setMarker_ne _ _ hae2]
          · exact absurd hae hmem
      · intro a ha
        rw [horigs] at ha
        have h1 : te.orig ≠ a := fun he => ha (he ▸ List.mem_cons_self _ _)
        have h2m : a ∉ origsOf rest := fun hm => ha (List.mem_cons_of_mem _ hm)
        rw [hout a h2m, markerOf_setMarker_ne _ _ h1]
    cases res with
    | error e => exact hgoal (h2, .error e) rfl
    | ok es => exact hgoal (h2, .ok es) rfl

theorem finishTable_ok (cfg : Config) : ∀ (slots : List TSlot) (h : Heap),
    (∀ s ∈ slots, s ≠ (Option.none : TSlot)) →
    ∃ h' es, finishTable cfg h slots = (h', .ok es) ∧
      List.Forall₂ (fun (s : TSlot) (e : Entry) =>
        ∃ te, s = some te ∧ e = te.entry) slots es
  | [], h, _ => ⟨h, [], rfl, .nil⟩
  | (Option.none : TSlot) :: rest, h, hall =>
    absurd rfl (hall _ (List.mem_cons_self _ _))
  | some te :: rest, h, hall => by
    obtain ⟨h', es, hft, hfor⟩ := finishTable_ok cfg rest
      (setMarker h te.orig (if cfg.cleanup then .absent else .nullTag))
      (fun s hs => hall s (List.mem_cons_of_mem _ hs))
    refine ⟨h', te.entry :: es, ?_, .cons ⟨te, rfl, rfl⟩ hfor⟩
    simp only [finishTable]
    rw [hft]

/-- A heap none of whose objects carries a marker. -/
def FreshHeap (h : Heap) : Prop := ∀ o ∈ h, o.marker = .absent

theorem fresh_no_tags {h : Heap} (hf : FreshHeap h) :
    ∀ a i, markerOf h a ≠ some (.tagged i) := by
  intro a i hc
  unfold markerOf at hc
  cases hg : h.get? a with
  | none => rw [hg] at hc; exact Option.noConfusion hc
  | some o =>
    rw [hg] at hc
    have := hf o (List.get?_mem hg)
    have hoi : o.marker = .tagged i := Option.some.inj hc
    rw [this] at hoi
    exact Marker.noConfusion hoi

theorem wfst_init {cfg : Config} {h : Heap} (hf : FreshHeap h) :
    WfSt cfg ⟨h, []⟩ := by
  refine ⟨?_, ?_, ?_⟩
  · intro a i hi
    exact absurd hi (fresh_no_tags hf a i)
  · intro a b i ha _
    exact absurd ha (fresh_no_tags hf a i)
  · intro i te hte
    simp at hte

theorem stringify_ok_inv {cfg : Config} {st0 : ResState} {h h' : Heap}
    {r : Nat} {st' : ResState} {out : Encoded}
    (hs : stringify cfg .none st0 h (.ref r) = (st', h', .ok out)) :
    ∃ vst c es,
      visit cfg Option.none (encodeFuel h) ⟨h, []⟩ (.ref r) = (vst, .ok c) ∧
      finishTable cfg vst.heap vst.table = (h', .ok es) ∧
      out = .table es ∧ st' = Option.none := by
  simp only [stringify] at hs
  rcases hvis : visit cfg Option.none (encodeFuel h) ⟨h, []⟩ (.ref r)
    with ⟨vst, res⟩
  rw [show normalizeRepl cfg .none = Option.none from rfl] at hs
  rw [hvis] at hs
  cases res with
  | error e =>
    dsimp only at hs
    exact absurd (congrArg (fun p => p.2.2) hs) (by simp)
  | ok c =>
    dsimp only at hs
    rcases hft : finishTable cfg vst.heap vst.table with ⟨h2, fres⟩
    rw [hft] at hs
    cases fres with
    | error e =>
      dsimp only at hs
      exact absurd (congrArg (fun p => p.2.2) hs) (by simp)
    | ok es =>
      dsimp only at hs
      have h1 : st' = Option.none := (congrArg (fun p => p.1) hs).symm
      have h2e : h' = h2 := (congrArg (fun p => p.2.1) hs).symm
      have h3 : out = .table es := by
        have := congrArg (fun p => p.2.2) hs
        simpa using this.symm
      subst h2e
      exact ⟨vst, c, es, rfl, hft, h3, h1⟩

/-! ## Decoding lemmas -/

theorem resolveCell_of_handleAtom {u : Atom} {c : Cell}
    (h : handleAtom u = .ok c) (n : Nat) :
    ∃ w, resolveCell n c = .ok w := by
  cases u with
  | func => exact Except.noConfusion h
  | node html =>
    have : Cell.builder "Resurrect.Node" [html] = c := Except.ok.inj h
    subst this
    exact ⟨_, rfl⟩
  | date ms =>
    have : Cell.builder "Date" [dateToISO ms] = c := Except.ok.inj h
    subst this
    exact ⟨_, rfl⟩
  | regexp src flags =>
    simp only [handleAtom] at h
    cases hm : matchSlashPattern (regexpToString src flags) with
    | none => rw [hm] at h; exact Except.noConfusion h
    | some p =>
      rw [hm] at h
      rcases p with ⟨a, b⟩
      dsimp only at h
      have : Cell.builder "RegExp" [a, b] = c := Except.ok.inj h
      subst this
      exact ⟨_, rfl⟩
  | undef =>
    have : Cell.backref (-1) = c := Except.ok.inj h
    subst this
    exact ⟨_, rfl⟩
  | num m =>
    simp only [handleAtom] at h
    by_cases hn : m.nonFinite = true
    · rw [if_pos hn] at h
      have : Cell.builder "Number" [m.toJSString] = c := Except.ok.inj h
      subst this
      exact ⟨_, rfl⟩
    · rw [if_neg hn] at h
      have : Cell.atom (.num m) = c := Except.ok.inj h
      subst this
      exact ⟨_, rfl⟩
  | str sv =>
    have : Cell.atom (.str sv) = c := Except.ok.inj h
    subst this
    exact ⟨_, rfl⟩
  | bool b =>
    have : Cell.atom (.bool b) = c := Except.ok.inj h
    subst this
    exact ⟨_, rfl⟩
  | null =>
    have : Cell.atom .null = c := Except.ok.inj h
    subst this
    exact ⟨_, rfl⟩

theorem resolveCells_ok {n : Nat} :
    ∀ {cs : List Cell}, (∀ c ∈ cs, ∃ w, resolveCell n c = .ok w) →
    ∃ ws, resolveCells n cs = .ok ws ∧
      List.Forall₂ (fun c w => resolveCell n c = .ok w) cs ws
  | [], _ => ⟨[], rfl, .nil⟩
  | c :: cs, hall => by
    obtain ⟨w, hw⟩ := hall c (List.mem_cons_self _ _)
    obtain ⟨ws, hws, hfor⟩ := resolveCells_ok
      (fun c2 hc2 => hall c2 (List.mem_cons_of_mem _ hc2))
    refine ⟨w :: ws, ?_, .cons hw hfor⟩
    simp only [resolveCells, hw, hws]
    rfl

theorem resolvePCells_ok {n : Nat} :
    ∀ {cs : List (String × Cell)},
    (∀ kc ∈ cs, ∃ w, resolveCell n (Prod.snd kc) = .ok w) →
    ∃ ws, resolvePCells n cs = .ok ws ∧
      List.Forall₂ (fun (kc : String × Cell) (kw : String × JVal) =>
        kc.1 = kw.1 ∧ resolveCell n kc.2 = .ok kw.2) cs ws
  | [], _ => ⟨[], rfl, .nil⟩
  | (k, c) :: cs, hall => by
    obtain ⟨w, hw⟩ := hall (k, c) (List.mem_cons_self _ _)
    obtain ⟨ws, hws, hfor⟩ := resolvePCells_ok
      (fun kc2 hc2 => hall kc2 (List.mem_cons_of_mem _ hc2))
    refine ⟨(k, w) :: ws, ?_, .cons ⟨rfl, hw⟩ hfor⟩
    simp only [resolvePCells, hw, hws]
    rfl

theorem resolveEntry_ok {n : Nat} {f : FEntry}
    (h1 : ∀ c ∈ f.cells, ∃ w, resolveCell n c = .ok w)
    (h2 : ∀ kc ∈ f.pcells, ∃ w, resolveCell n (Prod.snd kc) = .ok w) :
    ∃ d, resolveEntry n f = .ok d ∧ d.isArr = f.isArr ∧
      d.protoId = f.protoId ∧ d.protoProp = f.protoProp ∧
      List.Forall₂ (fun c w => resolveCell n c = .ok w) f.cells d.elems ∧
      List.Forall₂ (fun (kc : String × Cell) (kw : String × JVal) =>
        kc.1 = kw.1 ∧ resolveCell n kc.2 = .ok kw.2) f.pcells d.props := by
  obtain ⟨ws, hws, hfor⟩ := resolveCells_ok h1
  obtain ⟨pws, hpws, hpfor⟩ := resolvePCells_ok h2
  refine ⟨⟨f.isArr, f.protoId, f.protoProp, ws, pws⟩, ?_, rfl, rfl, rfl,
    hfor, hpfor⟩
  simp only [resolveEntry, hws, hpws]
  rfl

theorem pass1run_ok (cfg : Config) :
    ∀ {es : List Entry} {fs : List FEntry},
    List.Forall₂ (fun e f => fixEntry cfg e = .ok f) es fs →
    ∃ stg, pass1run cfg es = (stg, .ok fs) := by
  intro es fs hfor
  induction hfor with
  | nil => exact ⟨[], rfl⟩
  | cons hef htail ih =>
    rename_i e f est fst
    obtain ⟨stg, hstg⟩ := ih
    exact ⟨.fixed f :: stg, by simp only [pass1run, hef, hstg]⟩

theorem pass2run_ok (n : Nat) :
    ∀ {fs : List FEntry} {ds : List DObj},
    List.Forall₂ (fun f d => resolveEntry n f = .ok d) fs ds →
    ∃ stg, pass2run n fs = (stg, .ok ds) := by
  intro fs ds hfor
  induction hfor with
  | nil => exact ⟨[], rfl⟩
  | cons hfd htail ih =>
    rename_i f d fst dst
    obtain ⟨stg, hstg⟩ := ih
    exact ⟨.done d :: stg, by simp only [pass2run, hfd, hstg]⟩

theorem resurrect_table_ok {cfg : Config} {st : ResState} {es : List Entry}
    {fs : List FEntry} {ds : List DObj}
    (h1 : List.Forall₂ (fun e f => fixEntry cfg e = .ok f) es fs)
    (h2 : List.Forall₂ (fun f d => resolveEntry es.length f = .ok d) fs ds) :
    resurrect cfg st (.table es) =
      (Option.none, .ok (ds, if ds.isEmpty then .atom .undef else .ref 0)) := by
  obtain ⟨stg1, hp1⟩ := pass1run_ok cfg h1
  obtain ⟨stg2, hp2⟩ := pass2run_ok es.length h2
  simp only [resurrect, hp1, hp2]

/-! ## Claim theorems -/

/-- C4: the atom codec applies its rules with the stated outcomes, one rule
per disjoint value class (the classes are mutually exclusive, so first-match
order reduces to one clause per class): callables fail with
*UnserializableValue*; tree fragments become a `"Resurrect.Node"` builder
carrying the rendered text; dates a `"Date"` builder with the ISO string;
patterns a `"RegExp"` builder with `[source, flags]`; the missing value the
back-reference sentinel `-1`; non-finite numbers a `"Number"` builder with
their string form; every other atom passes through unchanged. -/
theorem claim_C4 :
    handleAtom .func = .error .unserializable ∧
    (∀ html, handleAtom (.node html) =
      .ok (.builder "Resurrect.Node" [html])) ∧
    (∀ ms, handleAtom (.date ms) = .ok (.builder "Date" [dateToISO ms])) ∧
    (∀ src flags, src ≠ "" → (∀ ch ∈ flags.data, 'a' ≤ ch ∧ ch ≤ 'z') →
      handleAtom (.regexp src flags) = .ok (.builder "RegExp" [src, flags])) ∧
    handleAtom .undef = .ok (.backref (-1)) ∧
    (∀ nv : JNum, nv.nonFinite = true →
      handleAtom (.num nv) = .ok (.builder "Number" [nv.toJSString])) ∧
    (∀ s, handleAtom (.str s) = .ok (.atom (.str s))) ∧
    (∀ b, handleAtom (.bool b) = .ok (.atom (.bool b))) ∧
    handleAtom .null = .ok (.atom .null) ∧
    (∀ i : Int, handleAtom (.num (.fin i)) = .ok (.atom (.num (.fin i)))) := by
  refine ⟨rfl, fun html => rfl, fun ms => rfl, ?_, rfl, ?_, fun s => rfl,
    fun b => rfl, rfl, fun i => rfl⟩
  · intro src flags hsrc hflags
    simp only [handleAtom]
    rw [matchSlashPattern_roundtrip src flags hsrc hflags]
  · intro nv hnv
    simp only [handleAtom]
    rw [if_pos hnv]

/-- Witness for C4 at concrete inputs. -/
theorem claim_C4_witness :
    handleAtom (.regexp "ab+" "gi") = .ok (.builder "RegExp" ["ab+", "gi"]) ∧
    handleAtom (.num .nan) = .ok (.builder "Number" ["NaN"]) ∧
    handleAtom (.date 0) = .ok (.builder "Date" [dateToISO 0]) ∧
    handleAtom (.node "<a/>") = .ok (.builder "Resurrect.Node" ["<a/>"]) ∧
    handleAtom (.str "x") = .ok (.atom (.str "x")) :=
  ⟨claim_C4.2.2.2.1 "ab+" "gi" (by decide) (by decide),
   claim_C4.2.2.2.2.2.1 .nan rfl,
   claim_C4.2.2.1 0,
   claim_C4.2.1 "<a/>",
   claim_C4.2.2.2.2.2.2.1 "x"⟩

/-- C5: with type restoration on, tagging a record whose resolver name is
registered to a different prototype than the value's own fails with
*ConstructorMismatch* — in particular a second type sharing a first type's
registered name cannot be encoded. -/
theorem claim_C5 (cfg : Config) (st0 : ResState) (h : Heap) (r : Nat)
    (o : HObj) (p : Nat)
    (hrev : cfg.revive = true)
    (hg : h.get? r = some o)
    (hunt : o.marker.isTagged = false)
    (harr : o.content.isArr = false)
    (hcn0 : o.content.ctorName ≠ "")
    (hcn1 : ¬(o.content.ctorName = "Object" ∨ o.content.ctorName = "Array"))
    (hl : cfg.resolver.lookupScope o.content.ctorName = some p)
    (hne : p ≠ o.content.protoId) :
    (stringify cfg .none st0 h (.ref r)).2.2 = .error .ctorMismatch := by
  have htc : tagCheck cfg o.content.ctorName o.content.protoId =
      .error .ctorMismatch := by
    unfold tagCheck
    rw [if_pos hrev, if_neg hcn0, if_neg hcn1, hl]
    dsimp only
    rw [if_pos hne]
  have hbody : visitUntagged cfg Option.none (untaggedCount h) ⟨h, []⟩ r o =
      (⟨h, []⟩, .error .ctorMismatch) := by
    unfold visitUntagged
    rw [if_neg (by rw [harr]; exact Bool.false_ne_true), htc]
  have hvis : visit cfg Option.none (encodeFuel h) ⟨h, []⟩ (.ref r) =
      (⟨h, []⟩, .error .ctorMismatch) := by
    show visit cfg Option.none (untaggedCount h + 1) ⟨h, []⟩ (.ref r) = _
    simp only [visit]
    rw [show ((⟨h, []⟩ : VSt).heap : List HObj).get? r = some o from hg]
    dsimp only
    cases hm : o.marker with
    | tagged i =>
      rw [hm] at hunt
      exact absurd hunt (by simp [Marker.isTagged])
    | absent => exact hbody
    | nullTag => exact hbody
  simp only [stringify]
  rw [show normalizeRepl cfg .none = Option.none from rfl, hvis]

/-- Witness for C5: two distinct types labelled `"Dog"`; the one whose live
prototype differs from the registered one fails. -/
theorem claim_C5_witness :
    (stringify ⟨"#", false, true, ⟨[("Dog", 5)]⟩⟩ .none Option.none
      [⟨⟨false, "Dog", 7, [], []⟩, .absent⟩] (.ref 0)).2.2 =
      .error .ctorMismatch :=
  claim_C5 ⟨"#", false, true, ⟨[("Dog", 5)]⟩⟩ Option.none
    [⟨⟨false, "Dog", 7, [], []⟩, .absent⟩] 0
    ⟨⟨false, "Dog", 7, [], []⟩, .absent⟩ 5
    rfl rfl rfl rfl (by decide) (by decide) rfl (by decide)

/-- C2: every serializable atom — strings, finite numbers, booleans, `null`,
the missing value, the non-finite numbers, dates, genuine patterns and
rendered fragments — round-trips through `stringify`/`resurrect` to a value
equal to the original (model equality identifies the NaN atom with itself,
matching the is-NaN check; dates round-trip to the exact timestamp, hence to
ISO-second precision; patterns keep source and flags). -/
theorem claim_C2 (cfg : Config) (st0 sd : ResState) (h : Heap) (a : Atom)
    (hser : serializableAtom a = true) :
    ∃ enc, (stringify cfg .none st0 h (.atom a)).2.2 = .ok enc ∧
      (resurrect cfg sd enc).2 = .ok ([], .atom a) := by
  obtain ⟨c, hc, hres⟩ := handleAtom_resolve hser
  refine ⟨.single c, ?_, ?_⟩
  · simp only [stringify]
    rw [hc]
    rfl
  · cases c with
    | atom u =>
      have he : (Except.ok (JVal.atom u) : Except Err JVal)
          = .ok (.atom a) := by
        rw [← hres 0]
        rfl
      have hu : u = a := JVal.atom.inj (Except.ok.inj he)
      subst hu
      rfl
    | backref i =>
      simp only [resurrect]
      rw [hres 0]
    | builder name args =>
      simp only [resurrect]
      rw [hres 0]

/-- Witness for C2 at a pattern atom with source `"ab+"` and flags `"gi"`. -/
theorem claim_C2_witness :
    serializableAtom (.regexp "ab+" "gi") = true ∧
    ∃ enc,
      (stringify ⟨"#", false, true, ⟨[]⟩⟩ .none Option.none []
        (.atom (.regexp "ab+" "gi"))).2.2 = .ok enc ∧
      (resurrect ⟨"#", false, true, ⟨[]⟩⟩ Option.none enc).2 =
        .ok ([], .atom (.regexp "ab+" "gi")) :=
  ⟨by decide,
   claim_C2 ⟨"#", false, true, ⟨[]⟩⟩ Option.none Option.none []
     (.regexp "ab+" "gi") (by decide)⟩

/-- C6 counterexample: the original claim says the table is detached on
*every* exit path; but a `stringify` that throws (here: a function-valued
property raising *UnserializableValue*) returns with the partial encoder
table still attached to the instance — there is no try/finally in the
source. -/
theorem claim_C6_counterexample :
    (stringify ⟨"#", false, true, ⟨[]⟩⟩ .none Option.none
      [⟨⟨false, "Object", 0, [], [("f", .atom .func)]⟩, .absent⟩]
      (.ref 0)).1 ≠ (Option.none : ResState) := by
  have hvp : visitProps ⟨"#", false, true, ⟨[]⟩⟩ Option.none
      (untaggedCount [⟨⟨false, "Object", 0, [], [("f", .atom .func)]⟩,
        .absent⟩])
      ⟨setMarker [⟨⟨false, "Object", 0, [], [("f", .atom .func)]⟩, .absent⟩]
        0 (.tagged 0), [(Option.none : TSlot)]⟩
      [("f", .atom .func)] =
      (⟨setMarker [⟨⟨false, "Object", 0, [], [("f", .atom .func)]⟩, .absent⟩]
        0 (.tagged 0), [(Option.none : TSlot)]⟩,
       .error .unserializable) := by
    rw [show untaggedCount [(⟨⟨false, "Object", 0, [], [("f", .atom .func)]⟩,
      .absent⟩ : HObj)] = 0 + 1 from rfl]
    simp only [visitProps]
    rw [show (visit ⟨"#", false, true, ⟨[]⟩⟩ Option.none (0 + 1)
      ⟨setMarker [⟨⟨false, "Object", 0, [], [("f", .atom .func)]⟩, .absent⟩]
        0 (.tagged 0), [(Option.none : TSlot)]⟩ (.atom .func)) =
      (⟨setMarker [⟨⟨false, "Object", 0, [], [("f", .atom .func)]⟩, .absent⟩]
        0 (.tagged 0), [(Option.none : TSlot)]⟩, handleAtom .func)
      from by simp only [visit]]
    rfl
  have h1 : visit ⟨"#", false, true, ⟨[]⟩⟩ Option.none
      (untaggedCount [⟨⟨false, "Object", 0, [], [("f", .atom .func)]⟩,
        .absent⟩] + 1)
      ⟨[⟨⟨false, "Object", 0, [], [("f", .atom .func)]⟩, .absent⟩], []⟩
      (.ref 0) =
      (⟨setMarker [⟨⟨false, "Object", 0, [], [("f", .atom .func)]⟩, .absent⟩]
        0 (.tagged 0), [(Option.none : TSlot)]⟩,
       .error .unserializable) := by
    simp only [visit]
    show visitUntagged ⟨"#", false, true, ⟨[]⟩⟩ Option.none _ _ 0 _ = _
    unfold visitUntagged
    rw [if_neg (by decide)]
    rw [show tagCheck ⟨"#", false, true, ⟨[]⟩⟩ "Object" 0 =
      .ok Option.none from rfl]
    dsimp only [List.nil_append, List.length_nil]
    rw [hvp]
  simp only [stringify, encodeFuel, normalizeRepl]
  rw [h1]
  intro hc
  exact Option.noConfusion hc

/-- C6 amended: the table is re-initialized before any use, so no call ever
observes another call's table (outputs are independent of the incoming table
state); it is detached at the end of every *successful* compound `stringify`
and of every successful `resurrect`; error exits may leave it attached. -/
theorem claim_C6_amended :
    (∀ (cfg : Config) (ra : ReplArg) (st0 st0' : ResState) (h : Heap)
      (v : JVal),
      (stringify cfg ra st0 h v).2 = (stringify cfg ra st0' h v).2) ∧
    (∀ (cfg : Config) (st0 st0' : ResState) (e : Encoded),
      resurrect cfg st0 e = resurrect cfg st0' e) ∧
    (∀ (cfg : Config) (ra : ReplArg) (st0 : ResState) (h h' : Heap) (r : Nat)
      (st' : ResState) (out : Encoded),
      stringify cfg ra st0 h (.ref r) = (st', h', .ok out) →
      st' = Option.none) ∧
    (∀ (cfg : Config) (st0 : ResState) (e : Encoded) (st' : ResState)
      (res : Except Err (List DObj × JVal)) (x : List DObj × JVal),
      resurrect cfg st0 e = (st', res) → res = .ok x → st' = Option.none) := by
  refine ⟨?_, ?_, ?_, ?_⟩
  · intro cfg ra st0 st0' h v
    cases v with
    | atom a => rfl
    | ref r => rfl
  · intro cfg st0 st0' e
    cases e with
    | single c =>
      cases c with
      | atom a => rfl
      | backref i => rfl
      | builder n args => rfl
    | table es => rfl
  · intro cfg ra st0 h h' r st' out hs
    simp only [stringify] at hs
    rcases hv : visit cfg (normalizeRepl cfg ra) (encodeFuel h) ⟨h, []⟩
      (.ref r) with ⟨vst, res⟩
    rw [hv] at hs
    cases res with
    | error e =>
      dsimp only at hs
      have := congrArg (fun p => p.2.2) hs
      simp at this
    | ok c =>
      dsimp only at hs
      rcases hft : finishTable cfg vst.heap vst.table with ⟨h2, fres⟩
      rw [hft] at hs
      cases fres with
      | error e =>
        dsimp only at hs
        have := congrArg (fun p => p.2.2) hs
        simp at this
      | ok es =>
        dsimp only at hs
        exact (congrArg (fun p => p.1) hs).symm
  · intro cfg st0 e st' res x hr hx
    subst hx
    cases e with
    | single c =>
      cases c with
      | atom a => exact (congrArg (fun p => p.1) hr).symm
      | backref i =>
        simp only [resurrect] at hr
        rcases hc : resolveCell 0 (Cell.backref i) with v | v
        · rw [hc] at hr
          dsimp only at hr
          have := congrArg (fun p => p.2) hr
          simp at this
        · rw [hc] at hr
          dsimp only at hr
          exact (congrArg (fun p => p.1) hr).symm
      | builder n args =>
        simp only [resurrect] at hr
        rcases hc : resolveCell 0 (Cell.builder n args) with v | v
        · rw [hc] at hr
          dsimp only at hr
          have := congrArg (fun p => p.2) hr
          simp at this
        · rw [hc] at hr
          dsimp only at hr
          exact (congrArg (fun p => p.1) hr).symm
    | table es =>
      simp only [resurrect] at hr
      rcases hp1 : pass1run cfg es with ⟨stg1, r1⟩
      rw [hp1] at hr
      cases r1 with
      | error e1 =>
        dsimp only at hr
        have := congrArg (fun p => p.2) hr
        simp at this
      | ok fs =>
        dsimp only at hr
        rcases hp2 : pass2run es.length fs with ⟨stg2, r2⟩
        rw [hp2] at hr
        cases r2 with
        | error e2 =>
          dsimp only at hr
          have := congrArg (fun p => p.2) hr
          simp at this
        | ok ds =>
          dsimp only at hr
          exact (congrArg (fun p => p.1) hr).symm

theorem finishTable_error_kind {cfg : Config} {e : Err} :
    ∀ {slots : List TSlot} {h : Heap},
    (finishTable cfg h slots).2 = .error e → e = .typeErr
  | [], h, hc => by simp only [finishTable] at hc; exact Except.noConfusion hc
  | (Option.none : TSlot) :: rest, h, hc => by
    simp only [finishTable] at hc
    exact (Except.error.inj hc).symm
  | some te :: rest, h, hc => by
    simp only [finishTable] at hc
    rcases hft : finishTable cfg
      (setMarker h te.orig (if cfg.cleanup then .absent else .nullTag)) rest
      with ⟨h2, res⟩
    rw [hft] at hc
    cases res with
    | error e2 =>
      dsimp only at hc
      have he : e2 = e := Except.error.inj hc
      subst he
      exact finishTable_error_kind (by rw [hft])
    | ok es => dsimp only at hc; exact Except.noConfusion hc

/-- On a fresh, well-formed, encode-ready heap, `stringify` of a compound
root succeeds, detaching the table and producing the reference table. -/
theorem encode_ok {cfg : Config} (st0 : ResState) {h : Heap} {r : Nat}
    (hfresh : FreshHeap h) (hwf : WfHeap h) (hready : EncodeReady cfg h)
    (hr : r < h.length) :
    ∃ vst c h' es,
      visit cfg Option.none (encodeFuel h) ⟨h, []⟩ (.ref r) = (vst, .ok c) ∧
      finishTable cfg vst.heap vst.table = (h', .ok es) ∧
      stringify cfg .none st0 h (.ref r) =
        (Option.none, h', .ok (.table es)) := by
  have hpost := visit_post (encodeFuel h) cfg ⟨h, []⟩ (.ref r)
  rcases hvis : visit cfg Option.none (encodeFuel h) ⟨h, []⟩ (.ref r)
    with ⟨vst, res⟩
  rw [hvis] at hpost
  obtain ⟨hstep, hprov, hooF, hanon, hwfp, hsucc, hex⟩ := hpost
  obtain ⟨c, hc⟩ := hex (wfst_init hfresh) hwf hready
    (by show untaggedCount h + 1 > untaggedCount h; omega) hr
  have hres : res = .ok c := hc
  subst hres
  obtain ⟨⟨i, hi, hcell, hro⟩, hfill⟩ := hsucc c rfl
  have hall : ∀ s ∈ vst.table, s ≠ (Option.none : TSlot) := by
    intro s hs hcontra
    obtain ⟨j, hj⟩ := List.get?_of_mem hs
    have hjlt : j < vst.table.length := by
      by_contra hc2
      rw [List.get?_eq_none.mpr (Nat.le_of_not_lt hc2)] at hj
      exact Option.noConfusion hj
    obtain ⟨te, hte⟩ := hfill j (by simp) hjlt
    rw [hj, hcontra] at hte
    exact Option.noConfusion (Option.some.inj hte)
  obtain ⟨h', es, hft, hfor⟩ := finishTable_ok cfg vst.table vst.heap hall
  refine ⟨vst, c, h', es, rfl, hft, ?_⟩
  simp only [stringify]
  rw [show normalizeRepl cfg .none = Option.none from rfl, hvis]
  dsimp only
  rw [hft]

/-! Executable checkers for the heap hypotheses, used by concrete
instantiations. -/

def freshHeapB (h : Heap) : Bool :=
  h.all (fun o => o.marker = .absent)

theorem freshHeap_of_B {h : Heap} (hb : freshHeapB h = true) : FreshHeap h := by
  intro o ho
  have := (List.all_eq_true.mp hb) o ho
  exact of_decide_eq_true this

def cellOKB (n : Nat) : JVal → Bool
  | .ref b => decide (b < n)
  | .atom _ => true

def wfHeapB (h : Heap) : Bool :=
  h.all (fun o => (cellVals o.content).all (cellOKB h.length))

theorem wfHeap_of_B {h : Heap} (hb : wfHeapB h = true) : WfHeap h := by
  intro o ho v hv b hbv
  have h1 := (List.all_eq_true.mp hb) o ho
  have h2 := (List.all_eq_true.mp h1) v hv
  rw [hbv] at h2
  exact of_decide_eq_true h2

def atomsOKB (h : Heap) : Bool :=
  h.all (fun o => (cellVals o.content).all (fun v => match v with
    | .atom u => serializableAtom u
    | .ref _ => true))

theorem atomsOK_of_B {h : Heap} (hb : atomsOKB h = true) :
    ∀ o ∈ h, ∀ v ∈ cellVals o.content, ∀ u, v = JVal.atom u →
      serializableAtom u = true := by
  intro o ho v hv u hu
  have h1 := (List.all_eq_true.mp hb) o ho
  have h2 := (List.all_eq_true.mp h1) v hv
  rw [hu] at h2
  exact h2

/-- C9: with `revive` off the resolver is never consulted — no call can fail
with the anonymous-constructor condition, and a graph of objects with
arbitrary (even anonymous) constructor names encodes successfully as long as
its atoms are serializable. -/
theorem claim_C9 :
    (∀ (cfg : Config) (st0 : ResState) (h : Heap) (v : JVal),
      cfg.revive = false →
      (stringify cfg .none st0 h v).2.2 ≠ .error .anonymousCtor) ∧
    (∀ (cfg : Config) (st0 : ResState) (h : Heap) (r : Nat),
      cfg.revive = false → FreshHeap h → WfHeap h →
      (∀ o ∈ h, ∀ v ∈ cellVals o.content, ∀ u, v = JVal.atom u →
        serializableAtom u = true) →
      r < h.length →
      ∃ h' es, stringify cfg .none st0 h (.ref r) =
        (Option.none, h', .ok (.table es))) := by
  constructor
  · intro cfg st0 h v hrev
    cases v with
    | atom a =>
      intro hc
      have : (handleAtom a).map Encoded.single = .error .anonymousCtor := hc
      cases hh : handleAtom a with
      | error e =>
        rw [hh] at this
        have he : e = .anonymousCtor := by
          have := Except.error.inj this
          exact this
        subst he
        rcases handleAtom_error_kind hh with h2 | h2 <;> exact Err.noConfusion h2
      | ok c =>
        rw [hh] at this
        exact Except.noConfusion this
    | ref r =>
      have hpost := visit_post (encodeFuel h) cfg ⟨h, []⟩ (.ref r)
      rcases hvis : visit cfg Option.none (encodeFuel h) ⟨h, []⟩ (.ref r)
        with ⟨vst, res⟩
      rw [hvis] at hpost
      simp only [stringify]
      rw [show normalizeRepl cfg .none = Option.none from rfl, hvis]
      cases res with
      | error e =>
        dsimp only
        intro hc
        exact hpost.2.2.2.1 hrev (by rw [show e = Err.anonymousCtor from
          Except.error.inj hc])
      | ok c =>
        dsimp only
        rcases hft : finishTable cfg vst.heap vst.table with ⟨h2, fres⟩
        cases fres with
        | error e =>
          dsimp only
          intro hc
          have he : e = .anonymousCtor := Except.error.inj hc
          have : e = .typeErr := finishTable_error_kind (by rw [hft])
          rw [he] at this
          exact Err.noConfusion this
        | ok es =>
          dsimp only
          intro hc
          exact Except.noConfusion hc
  · intro cfg st0 h r hrev hfresh hwf hatoms hr
    have hready : EncodeReady cfg h := by
      intro o ho
      exact ⟨hatoms o ho, fun _ => ⟨Option.none, tagCheck_no_revive hrev _ _⟩⟩
    obtain ⟨vst, c, h', es, _, _, hs⟩ := encode_ok st0 hfresh hwf hready hr
    exact ⟨h', es, hs⟩

/-- Witness for C9, applying it to an object with an anonymous constructor
with `revive` off. -/
theorem claim_C9_witness :
    ∃ h' es, stringify ⟨"#", false, false, ⟨[]⟩⟩ .none Option.none
      [⟨⟨false, "", 9, [], [("foo", .atom (.num (.fin 1)))]⟩, .absent⟩]
      (.ref 0) = (Option.none, h', .ok (.table es)) :=
  claim_C9.2 ⟨"#", false, false, ⟨[]⟩⟩ Option.none
    [⟨⟨false, "", 9, [], [("foo", .atom (.num (.fin 1)))]⟩, .absent⟩] 0
    rfl (freshHeap_of_B (by decide)) (wfHeap_of_B (by decide))
    (atomsOK_of_B (by decide)) (by decide)


/-- After a traversal maintaining the invariant, with every table position
filled, every address reachable from a tagged value is itself tagged: the
table closure covers the reachable graph. -/
theorem tagged_of_reach {cfg : Config} {hp : Heap} {vst : VSt}
    (hwfst : WfSt cfg vst)
    (hcontent : ∀ a, contentOf vst.heap a = contentOf hp a)
    (hfill : ∀ j, j < vst.table.length →
      ∃ te, vst.table.get? j = some (some te)) :
    ∀ (v : JVal) (b : Nat), Reaches hp v b →
      (∀ x, v = .ref x → ∃ i, markerOf vst.heap x = some (.tagged i)) →
      ∃ i, markerOf vst.heap b = some (.tagged i) := by
  intro v b hreach
  induction hreach with
  | here a =>
    intro hx
    exact hx a rfl
  | step hco hvm hsub ih =>
    rename_i a b2 c0 v0
    intro hx
    obtain ⟨i, hi⟩ := hx a rfl
    have hilt := hwfst.markerLt a i hi
    obtain ⟨te, hte⟩ := hfill i hilt
    obtain ⟨hom, _, hem⟩ := hwfst.slotOrig i te hte
    have horig : te.orig = a := hwfst.markerInj _ _ _ hom hi
    rw [horig] at hem
    obtain ⟨oc, hoc, hrest⟩ := hem
    have hocc : c0 = oc := by
      rw [hcontent a] at hoc
      rw [hco] at hoc
      exact Option.some.inj hoc
    subst hocc
    have hcell : ∃ cell, cellMatches vst.heap v0 cell := by
      rcases hrest with ⟨cells, harr, _, hf⟩ | ⟨ptag, pcells, harr, _, _, hf⟩
      · rw [show cellVals c0 = c0.elems from by
          unfold cellVals; rw [if_pos harr]] at hvm
        obtain ⟨cell, _, hcm⟩ := forall2_mem_left hf hvm
        exact ⟨cell, hcm⟩
      · rw [show cellVals c0 = c0.props.map Prod.snd from by
          unfold cellVals
          rw [if_neg (by rw [harr]; exact Bool.false_ne_true)]] at hvm
        obtain ⟨p, hp, hpv⟩ := List.mem_map.mp hvm
        obtain ⟨q, _, hq⟩ := forall2_mem_left hf hp
        rw [hpv] at hq
        exact ⟨q.2, hq.2⟩
    obtain ⟨cell, hcm⟩ := hcell
    refine ih ?_
    intro x hveq
    subst hveq
    obtain ⟨j, hj, _⟩ := hcm
    exact ⟨j, hj⟩

theorem slots_filled_ne_none {t : List TSlot}
    (hfill : ∀ j, j < t.length → ∃ te, t.get? j = some (some te)) :
    ∀ s ∈ t, s ≠ (Option.none : TSlot) := by
  intro s hs hcontra
  obtain ⟨j, hj⟩ := List.get?_of_mem hs
  have hjlt : j < t.length := by
    by_contra hc2
    rw [List.get?_eq_none.mpr (Nat.le_of_not_lt hc2)] at hj
    exact Option.noConfusion hj
  obtain ⟨te, hte⟩ := hfill j hjlt
  rw [hj, hcontra] at hte
  exact Option.noConfusion (Option.some.inj hte)

/-- C8: after a successful `stringify` of a graph with no reserved keys, the
input graph's contents are untouched and its length unchanged; under
`cleanup` every identity marker is fully removed (all objects end up with no
marker); without `cleanup` the marker of every object the traversal reached
is left as a `null`-valued residual key and unreached objects are untouched. -/
theorem claim_C8 (cfg : Config) (st0 : ResState) (h h' : Heap) (r : Nat)
    (st' : ResState) (out : Encoded)
    (hfresh : FreshHeap h) (hwf : WfHeap h)
    (hs : stringify cfg .none st0 h (.ref r) = (st', h', .ok out)) :
    h'.length = h.length ∧
    (∀ a, contentOf h' a = contentOf h a) ∧
    (cfg.cleanup = true → ∀ o ∈ h', o.marker = .absent) ∧
    (cfg.cleanup = false → ∀ a,
      (Reaches h (.ref r) a → markerOf h' a = some .nullTag) ∧
      (¬ Reaches h (.ref r) a → markerOf h' a = markerOf h a)) := by
  obtain ⟨vst, c, es, hvis, hft, hout, hstn⟩ := stringify_ok_inv hs
  have hpost := visit_post (encodeFuel h) cfg ⟨h, []⟩ (.ref r)
  rw [hvis] at hpost
  obtain ⟨hstep, hprov, _, _, hwfp, hsucc, _⟩ := hpost
  have hwfst : WfSt cfg vst := hwfp (wfst_init hfresh)
  obtain ⟨⟨i0, hi0, _, hro0⟩, hfill0⟩ := hsucc c rfl
  have hfill : ∀ j, j < vst.table.length →
      ∃ te, vst.table.get? j = some (some te) :=
    fun j hj => hfill0 j (by simp) hj
  have htag_reach : ∀ a, (∃ i, markerOf vst.heap a = some (.tagged i)) ↔
      Reaches h (.ref r) a := by
    intro a
    constructor
    · rintro ⟨i, hi⟩
      refine hprov a ?_
      intro heq
      rw [heq] at hi
      exact fresh_no_tags hfresh a i hi
    · intro hre
      exact tagged_of_reach hwfst (fun b => hstep.hcontent b) hfill (.ref r) a
        hre (fun x hx => by cases hx; exact ⟨i0, hi0⟩)
  have horig_tag : ∀ a, a ∈ origsOf vst.table ↔
      ∃ i, markerOf vst.heap a = some (.tagged i) := by
    intro a
    constructor
    · intro hmem
      obtain ⟨s, hsmem, hmap⟩ := List.mem_filterMap.mp hmem
      cases s with
      | none => simp at hmap
      | some te =>
        have hta : te.orig = a := by simpa using hmap
        obtain ⟨j, hj⟩ := List.get?_of_mem hsmem
        obtain ⟨hom, _, _⟩ := hwfst.slotOrig j te hj
        exact ⟨j, by rw [← hta]; exact hom⟩
    · rintro ⟨i, hi⟩
      obtain ⟨te, hte⟩ := hfill i (hwfst.markerLt a i hi)
      obtain ⟨hom, _, _⟩ := hwfst.slotOrig i te hte
      have hta : te.orig = a := hwfst.markerInj _ _ _ hom hi
      refine List.mem_filterMap.mpr ⟨some te, List.get?_mem hte, ?_⟩
      simp [hta]
  obtain ⟨hften, hftc, hftin, hftout⟩ :=
    finishTable_heap cfg vst.table vst.heap
      (slots_filled_ne_none hfill)
  rw [hft] at hften hftc hftin hftout
  dsimp only at hften hftc hftin hftout
  have hmh : ∀ a, a < h.length → ∃ m, markerOf h a = some m := by
    intro a ha
    unfold markerOf
    cases hg : h.get? a with
    | none => exact absurd (List.get?_eq_none.mp hg) (by omega)
    | some o => exact ⟨o.marker, rfl⟩
  refine ⟨hften.trans hstep.hlen, fun a => (hftc a).trans (hstep.hcontent a),
    ?_, ?_⟩
  · intro hcl o ho
    obtain ⟨a, ha⟩ := List.get?_of_mem ho
    have hom : markerOf h' a = some o.marker := by
      unfold markerOf
      rw [ha]
      rfl
    by_cases hmem : a ∈ origsOf vst.table
    · have := hftin a hmem
      rw [hcl] at this
      rw [hom] at this
      obtain ⟨i, hi⟩ := (horig_tag a).mp hmem
      rw [hi] at this
      exact (Option.some.inj this)
    · have h1 := hftout a hmem
      have hnt : ∀ i, markerOf vst.heap a ≠ some (.tagged i) := by
        intro i hc2
        exact hmem ((horig_tag a).mpr ⟨i, hc2⟩)
      have h2 : markerOf vst.heap a = markerOf h a := by
        rcases hstep.hmarkval a with hv | ⟨i, hv⟩
        · exact hv
        · exact absurd hv (hnt i)
      rw [hom, h2] at h1
      have halen : a < h.length := by
        have hlt : a < h'.length := by
          by_contra hc2
          rw [List.get?_eq_none.mpr (Nat.le_of_not_lt hc2)] at ha
          exact Option.noConfusion ha
        have h3 : h'.length = h.length := by rw [hften, hstep.hlen]
        omega
      unfold markerOf at h1
      cases hg : h.get? a with
      | none => rw [hg] at h1; exact Option.noConfusion h1
      | some o2 =>
        rw [hg] at h1
        have := hfresh o2 (List.get?_mem hg)
        have ho2 : o.marker = o2.marker := Option.some.inj h1
        rw [ho2, this]
  · intro hcl a
    constructor
    · intro hre
      obtain ⟨i, hi⟩ := (htag_reach a).mpr hre
      have hmem := (horig_tag a).mpr ⟨i, hi⟩
      have := hftin a hmem
      rw [hcl] at this
      rw [hi] at this
      simpa using this
    · intro hnre
      have hnt : ∀ i, markerOf vst.heap a ≠ some (.tagged i) := by
        intro i hc2
        exact hnre ((htag_reach a).mp ⟨i, hc2⟩)
      have hmem : a ∉ origsOf vst.table := by
        intro hm
        obtain ⟨i, hi⟩ := (horig_tag a).mp hm
        exact hnt i hi
      have h1 := hftout a hmem
      have h2 : markerOf vst.heap a = markerOf h a := by
        rcases hstep.hmarkval a with hv | ⟨i, hv⟩
        · exact hv
        · exact absurd hv (hnt i)
      rw [h1, h2]

/-- Witness for C8: a single record with one serializable atom property,
`cleanup` off — the successful encode leaves the length and contents alone
and the root's marker nulled. -/
theorem claim_C8_witness :
    ∃ st' h' out,
      stringify ⟨"#", false, true, ⟨[]⟩⟩ .none Option.none
        [⟨⟨false, "Object", 0, [], [("a", .atom (.num (.fin 1)))]⟩, .absent⟩]
        (.ref 0) = (st', h', .ok out) ∧
      h'.length = 1 ∧
      (∀ a, contentOf h' a =
        contentOf [⟨⟨false, "Object", 0, [], [("a", .atom (.num (.fin 1)))]⟩,
          .absent⟩] a) ∧
      markerOf h' 0 = some .nullTag := by
  obtain ⟨vst, c, h', es, _, _, hs⟩ :=
    @encode_ok ⟨"#", false, true, ⟨[]⟩⟩ Option.none
      [⟨⟨false, "Object", 0, [], [("a", .atom (.num (.fin 1)))]⟩,
        .absent⟩] 0
      (freshHeap_of_B (by decide)) (wfHeap_of_B (by decide))
      (fun o ho => ⟨atomsOK_of_B (by decide) o ho, by
        rcases List.mem_singleton.mp ho with rfl
        exact fun _ => ⟨Option.none, rfl⟩⟩)
      (by decide)
  obtain ⟨hlen, hcont, _, hncl⟩ :=
    claim_C8 ⟨"#", false, true, ⟨[]⟩⟩ Option.none
      [⟨⟨false, "Object", 0, [], [("a", .atom (.num (.fin 1)))]⟩, .absent⟩]
      h' 0 Option.none (.table es)
      (freshHeap_of_B (by decide)) (wfHeap_of_B (by decide)) hs
  exact ⟨Option.none, h', .table es, hs, hlen, hcont,
    (hncl rfl 0).1 (.here 0)⟩

/-- With more fuel than there are untagged objects the fuel device never
fires: the bounded model runs exactly as the unbounded source recursion. -/
theorem visit_no_fuel_error (cfg : Config) (fuel : Nat) (st : VSt)
    (v : JVal) (hf : fuel > untaggedCount st.heap) :
    (visit cfg Option.none fuel st v).2 ≠ .error .outOfFuel :=
  (visit_post fuel cfg st v).2.2.1 hf

/-- C3: with the fuel `stringify` supplies the traversal terminates on every
graph (the fuel device never fires); a first visit reserves the next table
position for the value before its children are visited; a revisit of a tagged
value emits a back-reference and leaves the state untouched; and a
successful traversal of a fresh, well-formed, ready graph gives the root
position `0`, gives every address reachable from the root exactly one table
position, and tags nothing unreachable. -/
theorem claim_C3 (cfg : Config) (h : Heap) (r : Nat)
    (hfresh : FreshHeap h) (hwf : WfHeap h) (hready : EncodeReady cfg h)
    (hr : r < h.length) :
    (∀ (st : VSt) (v : JVal) (fuel : Nat), fuel > untaggedCount st.heap →
      (visit cfg Option.none fuel st v).2 ≠ .error .outOfFuel) ∧
    (∀ (repl : Option Replacer) (fuel : Nat) (st : VSt) (b i : Nat)
      (o : HObj), st.heap.get? b = some o → o.marker = .tagged i →
      visit cfg repl (fuel + 1) st (.ref b) =
        (st, .ok (.backref (i : Int)))) ∧
    (∀ (fuel : Nat) (st : VSt) (b : Nat) (vst : VSt) (c : Cell),
      (∀ k, markerOf st.heap b ≠ some (.tagged k)) →
      visit cfg Option.none fuel st (.ref b) = (vst, .ok c) →
      c = .backref (st.table.length : Int) ∧
      markerOf vst.heap b = some (.tagged st.table.length)) ∧
    (∃ vst c,
      visit cfg Option.none (encodeFuel h) ⟨h, []⟩ (.ref r) = (vst, .ok c) ∧
      c = .backref (0 : Int) ∧
      markerOf vst.heap r = some (.tagged 0) ∧
      (∀ a, Reaches h (.ref r) a →
        ∃! i, ∃ te, vst.table.get? i = some (some te) ∧ te.orig = a) ∧
      (∀ a i, markerOf vst.heap a = some (.tagged i) →
        Reaches h (.ref r) a)) := by
  refine ⟨fun st v fuel hf => visit_no_fuel_error cfg fuel st v hf,
    ?_, ?_, ?_⟩
  · intro repl fuel st b i o hg hm
    simp only [visit]
    rw [hg]
    dsimp only
    rw [hm]
  · intro fuel st b vst c hnt hvis
    have hpost := visit_post fuel cfg st (.ref b)
    rw [hvis] at hpost
    obtain ⟨⟨i, hi, hc, hro⟩, _⟩ := hpost.2.2.2.2.2.1 c rfl
    rcases hro with hro | ⟨_, hlen⟩
    · exact absurd hro (hnt i)
    · subst hlen
      exact ⟨hc, hi⟩
  · obtain ⟨vst, c, h', es, hvis, _, _⟩ :=
      encode_ok Option.none hfresh hwf hready hr
    have hpost := visit_post (encodeFuel h) cfg ⟨h, []⟩ (.ref r)
    rw [hvis] at hpost
    obtain ⟨hstep, hprov, _, _, hwfp, hsucc, _⟩ := hpost
    have hwfst := hwfp (wfst_init hfresh)
    obtain ⟨⟨i0, hi0, hc0, hro0⟩, hfill0⟩ := hsucc c rfl
    have hfill : ∀ j, j < vst.table.length →
        ∃ te, vst.table.get? j = some (some te) :=
      fun j hj => hfill0 j (by simp) hj
    have hi00 : i0 = 0 := by
      rcases hro0 with hro | ⟨_, h0⟩
      · exact absurd hro (fresh_no_tags hfresh r i0)
      · simpa using h0
    subst hi00
    have hreach_tag : ∀ a i, markerOf vst.heap a = some (.tagged i) →
        Reaches h (.ref r) a := by
      intro a i hi
      refine hprov a ?_
      intro heq
      rw [heq] at hi
      exact fresh_no_tags hfresh a i hi
    refine ⟨vst, c, hvis, hc0, hi0, ?_, hreach_tag⟩
    intro a hre
    obtain ⟨i, hi⟩ :=
      tagged_of_reach hwfst (fun b => hstep.hcontent b) hfill (.ref r) a hre
        (fun x hx => by cases hx; exact ⟨0, hi0⟩)
    obtain ⟨te, hte⟩ := hfill i (hwfst.markerLt a i hi)
    obtain ⟨hom, _, _⟩ := hwfst.slotOrig i te hte
    have hta : te.orig = a := hwfst.markerInj _ _ _ hom hi
    refine ⟨i, ⟨te, hte, hta⟩, ?_⟩
    intro j ⟨te2, hte2, hta2⟩
    obtain ⟨hom2, _, _⟩ := hwfst.slotOrig j te2 hte2
    rw [hta2] at hom2
    rw [hom2] at hi
    exact Marker.tagged.inj (Option.some.inj hi)

/-- Witness for C3: an array sharing its single element twice ([s, s]). -/
theorem claim_C3_witness :
    ∃ vst c,
      visit ⟨"#", false, true, ⟨[]⟩⟩ Option.none
        (encodeFuel [⟨⟨true, "Array", 1, [.ref 1, .ref 1], []⟩, .absent⟩,
          ⟨⟨false, "Object", 0, [], [("a", .atom (.num (.fin 1)))]⟩,
            .absent⟩])
        ⟨[⟨⟨true, "Array", 1, [.ref 1, .ref 1], []⟩, .absent⟩,
          ⟨⟨false, "Object", 0, [], [("a", .atom (.num (.fin 1)))]⟩,
            .absent⟩], []⟩ (.ref 0) = (vst, .ok c) ∧
      c = .backref (0 : Int) ∧
      markerOf vst.heap 0 = some (.tagged 0) ∧
      (∀ a, Reaches [⟨⟨true, "Array", 1, [.ref 1, .ref 1], []⟩, .absent⟩,
          ⟨⟨false, "Object", 0, [], [("a", .atom (.num (.fin 1)))]⟩,
            .absent⟩] (.ref 0) a →
        ∃! i, ∃ te, vst.table.get? i = some (some te) ∧ te.orig = a) ∧
      (∀ a i, markerOf vst.heap a = some (.tagged i) →
        Reaches [⟨⟨true, "Array", 1, [.ref 1, .ref 1], []⟩, .absent⟩,
          ⟨⟨false, "Object", 0, [], [("a", .atom (.num (.fin 1)))]⟩,
            .absent⟩] (.ref 0) a) :=
  (claim_C3 ⟨"#", false, true, ⟨[]⟩⟩
    [⟨⟨true, "Array", 1, [.ref 1, .ref 1], []⟩, .absent⟩,
     ⟨⟨false, "Object", 0, [], [("a", .atom (.num (.fin 1)))]⟩, .absent⟩] 0
    (freshHeap_of_B (by decide)) (wfHeap_of_B (by decide))
    (fun o ho => ⟨atomsOK_of_B (by decide) o ho, by
      rcases List.mem_cons.mp ho with rfl | ho
      · exact fun hfalse => absurd hfalse (by decide)
      · rcases List.mem_singleton.mp ho with rfl
        exact fun _ => ⟨Option.none, rfl⟩⟩)
    (by decide)).2.2.2

/-- A cell position inside a compound value: an array index or a property
position (in enumeration order). -/
inductive CellLoc where
  | elem (i : Nat)
  | prop (i : Nat)
deriving DecidableEq, Repr

/-- The cell of the live object at address `a` at a given position (array
positions only on arrays, property positions only on records, mirroring
which cells `_visit` traverses). -/
def cellAt (h : Heap) (a : Nat) : CellLoc → Option JVal
  | .elem i =>
    match contentOf h a with
    | some oc => if oc.isArr then oc.elems.get? i else Option.none
    | Option.none => Option.none
  | .prop i =>
    match contentOf h a with
    | some oc =>
      if oc.isArr then Option.none else (oc.props.get? i).map Prod.snd
    | Option.none => Option.none

/-- The same observation on the decoded table (whose addresses are table
positions). -/
def dcellAt (ds : List DObj) (a : Nat) : CellLoc → Option JVal
  | .elem i =>
    match ds.get? a with
    | some d => if d.isArr then d.elems.get? i else Option.none
    | Option.none => Option.none
  | .prop i =>
    match ds.get? a with
    | some d =>
      if d.isArr then Option.none else (d.props.get? i).map Prod.snd
    | Option.none => Option.none

theorem forall2_mem_right {α β : Type} {R : α → β → Prop}
    {l1 : List α} {l2 : List β} (hf : List.Forall₂ R l1 l2) {b : β}
    (hb : b ∈ l2) : ∃ a ∈ l1, R a b := by
  induction hf with
  | nil => simp at hb
  | cons hR htail ih =>
    rcases List.mem_cons.mp hb with h | h
    · subst h
      exact ⟨_, List.mem_cons_self _ _, hR⟩
    · obtain ⟨a, ha, hab⟩ := ih h
      exact ⟨a, List.mem_cons_of_mem _ ha, hab⟩

theorem forall2_exists_of_forall {α β : Type} {P : α → β → Prop} :
    ∀ {l : List α}, (∀ a ∈ l, ∃ b, P a b) → ∃ l2, List.Forall₂ P l l2
  | [], _ => ⟨[], .nil⟩
  | a :: l, hall => by
    obtain ⟨b, hb⟩ := hall a (List.mem_cons_self _ _)
    obtain ⟨l2, hl2⟩ := forall2_exists_of_forall
      (fun x hx => hall x (List.mem_cons_of_mem _ hx))
    exact ⟨b :: l2, .cons hb hl2⟩

theorem Reaches_trans {h : Heap} : ∀ {v : JVal} {a b : Nat},
    Reaches h v a → Reaches h (.ref a) b → Reaches h v b := by
  intro v a b h1
  induction h1 with
  | here x => exact fun h2 => h2
  | step hco hvm _ ih => exact fun h2 => .step hco hvm (ih h2)

theorem cellAt_content {h : Heap} {a : Nat} {loc : CellLoc} {v : JVal}
    (hc : cellAt h a loc = some v) :
    ∃ oc, contentOf h a = some oc ∧ v ∈ cellVals oc := by
  cases loc with
  | elem i =>
    unfold cellAt at hc
    cases hco : contentOf h a with
    | none => rw [hco] at hc; exact Option.noConfusion hc
    | some oc =>
      rw [hco] at hc
      dsimp only at hc
      by_cases harr : oc.isArr = true
      · rw [if_pos harr] at hc
        refine ⟨oc, rfl, ?_⟩
        unfold cellVals
        rw [if_pos harr]
        exact List.get?_mem hc
      · rw [if_neg harr] at hc
        exact Option.noConfusion hc
  | prop i =>
    unfold cellAt at hc
    cases hco : contentOf h a with
    | none => rw [hco] at hc; exact Option.noConfusion hc
    | some oc =>
      rw [hco] at hc
      dsimp only at hc
      by_cases harr : oc.isArr = true
      · rw [if_pos harr] at hc
        exact Option.noConfusion hc
      · rw [if_neg harr] at hc
        refine ⟨oc, rfl, ?_⟩
        unfold cellVals
        rw [if_neg harr]
        cases hp : oc.props.get? i with
        | none => rw [hp] at hc; exact Option.noConfusion hc
        | some p =>
          rw [hp] at hc
          have hpv : p.2 = v := Option.some.inj hc
          exact List.mem_map.mpr ⟨p, List.get?_mem hp, hpv⟩

theorem fixEntry_ok_of_matches {cfg : Config} {h : Heap} {a : Nat}
    {e : Entry} (hm : EntryMatches cfg h a e) :
    ∃ f, fixEntry cfg e = .ok f := by
  obtain ⟨oc, _, hrest⟩ := hm
  rcases hrest with ⟨cells, _, he, _⟩ | ⟨ptag, pcells, _, he, htag, _⟩
  · subst he
    exact ⟨_, rfl⟩
  · subst he
    by_cases hr : cfg.revive = true
    · cases ptag with
      | none =>
        refine ⟨⟨false, objectProtoId, Option.none, [], pcells⟩, ?_⟩
        simp only [fixEntry]
        rw [if_pos hr]
      | some n =>
        obtain ⟨_, hn, hl⟩ := tagCheck_ok_some htag
        have hl2 : cfg.resolver.lookupScope n = some oc.protoId := by
          rw [hn]; exact hl
        refine ⟨⟨false, oc.protoId,
          if cfg.cleanup then Option.none else some n, [], pcells⟩, ?_⟩
        simp only [fixEntry, hr, if_true, hl2]
    · refine ⟨⟨false, objectProtoId, ptag, [], pcells⟩, ?_⟩
      simp only [fixEntry]
      rw [if_neg hr]

theorem fixEntry_cells {cfg : Config} {e : Entry} {f : FEntry}
    (h : fixEntry cfg e = .ok f) :
    (∃ cells, e = .arr cells ∧
      f.isArr = true ∧ f.cells = cells ∧ f.pcells = []) ∨
    (∃ ptag pcells, e = .obj ptag pcells ∧
      f.isArr = false ∧ f.cells = [] ∧ f.pcells = pcells) := by
  cases e with
  | arr cells =>
    have hfe : FEntry.mk true arrayProtoId Option.none cells [] = f :=
      Except.ok.inj h
    subst hfe
    exact Or.inl ⟨cells, rfl, rfl, rfl, rfl⟩
  | obj ptag pcells =>
    refine Or.inr ⟨ptag, pcells, rfl, ?_⟩
    simp only [fixEntry] at h
    by_cases hr : cfg.revive = true
    · rw [if_pos hr] at h
      cases ptag with
      | none =>
        have hfe : FEntry.mk false objectProtoId Option.none [] pcells = f :=
          Except.ok.inj h
        subst hfe
        exact ⟨rfl, rfl, rfl⟩
      | some n =>
        dsimp only at h
        cases hl : cfg.resolver.lookupScope n with
        | none => rw [hl] at h; exact Except.noConfusion h
        | some p =>
          rw [hl] at h
          dsimp only at h
          have hfe : FEntry.mk false p
              (if cfg.cleanup then Option.none else some n) [] pcells = f :=
            Except.ok.inj h
          subst hfe
          exact ⟨rfl, rfl, rfl⟩
    · rw [if_neg hr] at h
      have hfe : FEntry.mk false objectProtoId ptag [] pcells = f :=
        Except.ok.inj h
      subst hfe
      exact ⟨rfl, rfl, rfl⟩

theorem resolveCells_inv {n : Nat} :
    ∀ {cs : List Cell} {ws : List JVal}, resolveCells n cs = .ok ws →
    List.Forall₂ (fun c w => resolveCell n c = .ok w) cs ws
  | [], ws, h => by
    have hn : ([] : List JVal) = ws := Except.ok.inj h
    subst hn
    exact .nil
  | c :: cs, ws, h => by
    cases hc : resolveCell n c with
    | error e =>
      rw [show resolveCells n (c :: cs) = .error e from by
        simp only [resolveCells, hc]; rfl] at h
      exact Except.noConfusion h
    | ok v =>
      cases hcs : resolveCells n cs with
      | error e =>
        rw [show resolveCells n (c :: cs) = .error e from by
          simp only [resolveCells, hc, hcs]; rfl] at h
        exact Except.noConfusion h
      | ok vs =>
        rw [show resolveCells n (c :: cs) = .ok (v :: vs) from by
          simp only [resolveCells, hc, hcs]; rfl] at h
        have hv : v :: vs = ws := Except.ok.inj h
        subst hv
        exact .cons hc (resolveCells_inv hcs)

theorem resolvePCells_inv {n : Nat} :
    ∀ {cs : List (String × Cell)} {ws : List (String × JVal)},
    resolvePCells n cs = .ok ws →
    List.Forall₂ (fun (kc : String × Cell) (kw : String × JVal) =>
      kc.1 = kw.1 ∧ resolveCell n kc.2 = .ok kw.2) cs ws
  | [], ws, h => by
    have hn : ([] : List (String × JVal)) = ws := Except.ok.inj h
    subst hn
    exact .nil
  | (k, c) :: cs, ws, h => by
    cases hc : resolveCell n c with
    | error e =>
      rw [show resolvePCells n ((k, c) :: cs) = .error e from by
        simp only [resolvePCells, hc]; rfl] at h
      exact Except.noConfusion h
    | ok v =>
      cases hcs : resolvePCells n cs with
      | error e =>
        rw [show resolvePCells n ((k, c) :: cs) = .error e from by
          simp only [resolvePCells, hc, hcs]; rfl] at h
        exact Except.noConfusion h
      | ok vs =>
        rw [show resolvePCells n ((k, c) :: cs) = .ok ((k, v) :: vs) from by
          simp only [resolvePCells, hc, hcs]; rfl] at h
        have hv : (k, v) :: vs = ws := Except.ok.inj h
        subst hv
        exact .cons ⟨rfl, hc⟩ (resolvePCells_inv hcs)

theorem resolveEntry_inv {n : Nat} {f : FEntry} {d : DObj}
    (h : resolveEntry n f = .ok d) :
    d.isArr = f.isArr ∧ d.protoId = f.protoId ∧ d.protoProp = f.protoProp ∧
    List.Forall₂ (fun c w => resolveCell n c = .ok w) f.cells d.elems ∧
    List.Forall₂ (fun (kc : String × Cell) (kw : String × JVal) =>
      kc.1 = kw.1 ∧ resolveCell n kc.2 = .ok kw.2) f.pcells d.props := by
  cases hcs : resolveCells n f.cells with
  | error e =>
    rw [show resolveEntry n f = .error e from by
      simp only [resolveEntry, hcs]; rfl] at h
    exact Except.noConfusion h
  | ok ws =>
    cases hps : resolvePCells n f.pcells with
    | error e =>
      rw [show resolveEntry n f = .error e from by
        simp only [resolveEntry, hcs, hps]; rfl] at h
      exact Except.noConfusion h
    | ok pws =>
      rw [show resolveEntry n f =
          .ok ⟨f.isArr, f.protoId, f.protoProp, ws, pws⟩ from by
        simp only [resolveEntry, hcs, hps]; rfl] at h
      have hd : (⟨f.isArr, f.protoId, f.protoProp, ws, pws⟩ : DObj) = d :=
        Except.ok.inj h
      subst hd
      exact ⟨rfl, rfl, rfl, resolveCells_inv hcs, resolvePCells_inv hps⟩

theorem resolveCell_of_cellMatches {hh : Heap} {v : JVal} {c : Cell}
    (hm : cellMatches hh v c) (n : Nat) : ∃ w, resolveCell n c = .ok w := by
  cases v with
  | atom u => exact resolveCell_of_handleAtom hm n
  | ref b =>
    obtain ⟨i, _, hc⟩ := hm
    subst hc
    exact ⟨_, rfl⟩

theorem resolveCell_backref_lt {n i : Nat} (h : i < n) :
    resolveCell n (.backref (i : Int)) = .ok (.ref i) := by
  simp only [resolveCell]
  rw [if_pos ⟨Int.ofNat_nonneg i, by exact_mod_cast h⟩]
  simp

/-- A cell of the live graph holding a reference decodes, at the holder's
table position, to a reference to the referent's table position. -/
theorem decode_cell_at {cfg : Config} {hp : Heap} {vst : VSt}
    {es : List Entry} {fs : List FEntry} {ds : List DObj}
    (hwfst : WfSt cfg vst)
    (hcontent : ∀ a, contentOf vst.heap a = contentOf hp a)
    (hfor : List.Forall₂ (fun (s : TSlot) (e : Entry) =>
      ∃ te, s = some te ∧ e = te.entry) vst.table es)
    (hf1 : List.Forall₂ (fun e f => fixEntry cfg e = .ok f) es fs)
    (hf2 : List.Forall₂ (fun f d => resolveEntry es.length f = .ok d) fs ds)
    {a cAddr i j : Nat} {loc : CellLoc}
    (hi : markerOf vst.heap a = some (.tagged i))
    (hj : markerOf vst.heap cAddr = some (.tagged j))
    (hc : cellAt hp a loc = some (.ref cAddr)) :
    dcellAt ds i loc = some (.ref j) := by
  have hilt := hwfst.markerLt a i hi
  have hjlt := hwfst.markerLt cAddr j hj
  have hlen1 := (forall2_get? hfor).1
  cases hsi : vst.table.get? i with
  | none =>
    exact absurd (List.get?_eq_none.mp hsi) (by omega)
  | some s =>
    obtain ⟨e, hei, te, hste, hete⟩ := (forall2_get? hfor).2 i s hsi
    subst hste
    obtain ⟨hom, _, hem⟩ := hwfst.slotOrig i te hsi
    have horig : te.orig = a := hwfst.markerInj _ _ _ hom hi
    rw [horig] at hem
    obtain ⟨oc', hoc', hrest⟩ := hem
    obtain ⟨f, hfi, hfix⟩ := (forall2_get? hf1).2 i e hei
    obtain ⟨d, hdi, hres⟩ := (forall2_get? hf2).2 i f hfi
    obtain ⟨hdisArr, _, _, hdelems, hdprops⟩ := resolveEntry_inv hres
    cases loc with
    | elem k =>
      unfold cellAt at hc
      cases hco : contentOf hp a with
      | none => rw [hco] at hc; exact Option.noConfusion hc
      | some oc =>
        rw [hco] at hc
        dsimp only at hc
        by_cases harr : oc.isArr = true
        swap
        · rw [if_neg harr] at hc; exact Option.noConfusion hc
        rw [if_pos harr] at hc
        have hoco : oc' = oc := by
          rw [hcontent a, hco] at hoc'
          exact (Option.some.inj hoc').symm
        subst hoco
        rcases hrest with ⟨cells, _, hearr, hcm⟩ | ⟨ptag, pcells, hoarr, _, _, _⟩
        swap
        · rw [harr] at hoarr; exact Bool.noConfusion hoarr
        obtain ⟨cell, hck, hcm2⟩ := (forall2_get? hcm).2 k (.ref cAddr) hc
        obtain ⟨j', hj', hcell⟩ := hcm2
        have hjj : j' = j :=
          Marker.tagged.inj (Option.some.inj (hj'.symm.trans hj))
        subst hjj
        subst hcell
        rw [hete, hearr] at hfix
        have hfe : FEntry.mk true arrayProtoId Option.none cells [] = f :=
          Except.ok.inj hfix
        subst hfe
        obtain ⟨w, hwk, hwres⟩ := (forall2_get? hdelems).2 k _ hck
        have hw : w = .ref j' := by
          rw [resolveCell_backref_lt (show j' < es.length by omega)] at hwres
          exact (Except.ok.inj hwres).symm
        subst hw
        unfold dcellAt
        rw [hdi]
        dsimp only
        rw [if_pos (show d.isArr = true from hdisArr.trans rfl)]
        exact hwk
    | prop k =>
      unfold cellAt at hc
      cases hco : contentOf hp a with
      | none => rw [hco] at hc; exact Option.noConfusion hc
      | some oc =>
        rw [hco] at hc
        dsimp only at hc
        by_cases harr : oc.isArr = true
        · rw [if_pos harr] at hc; exact Option.noConfusion hc
        rw [if_neg harr] at hc
        cases hpk : oc.props.get? k with
        | none => rw [hpk] at hc; exact Option.noConfusion hc
        | some p =>
        rw [hpk] at hc
        have hp2 : p.2 = .ref cAddr := Option.some.inj hc
        have hoco : oc' = oc := by
          rw [hcontent a, hco] at hoc'
          exact (Option.some.inj hoc').symm
        subst hoco
        rcases hrest with ⟨cells, hcarr, _, _⟩ |
          ⟨ptag, pcells, _, heobj, _, hpm⟩
        · rw [hcarr] at harr; exact absurd rfl harr
        obtain ⟨q, hqk, hkey, hcmq⟩ := (forall2_get? hpm).2 k p hpk
        rw [hp2] at hcmq
        obtain ⟨j', hj', hcell⟩ := hcmq
        have hjj : j' = j :=
          Marker.tagged.inj (Option.some.inj (hj'.symm.trans hj))
        subst hjj
        rw [hete, heobj] at hfix
        rcases fixEntry_cells hfix with ⟨cells2, heq, _, _, _⟩ |
          ⟨ptag2, pcells2, heq, hfarr, _, hfpcells⟩
        · exact Entry.noConfusion heq
        have hpc : pcells2 = pcells := ((Entry.obj.inj heq).2).symm
        subst hpc
        obtain ⟨kw, hkwk, hkeyw, hresw⟩ :=
          (forall2_get? hdprops).2 k q (by rw [hfpcells]; exact hqk)
        have hw : kw.2 = .ref j' := by
          rw [hcell] at hresw
          rw [resolveCell_backref_lt (show j' < es.length by omega)] at hresw
          exact (Except.ok.inj hresw).symm
        unfold dcellAt
        rw [hdi]
        dsimp only
        rw [if_neg (show ¬ d.isArr = true from by
          rw [hdisArr, hfarr]; exact Bool.false_ne_true)]
        rw [hkwk]
        dsimp only [Option.map]
        rw [hw]

/-- C1: reference identity survives the round trip.  If two cells of the
input graph (both reachable from the root) hold the *same* reference, then
in `resurrect (stringify g)` the corresponding decoded cells hold the same
decoded address — one instance, not two copies; a self-reference
(`a = cAddr`) decodes to a cell pointing back at its own holder, and at the
root the holder is the result itself (position `0`). -/
theorem claim_C1 (cfg : Config) (st0 sd : ResState) (h : Heap)
    (r a₁ a₂ cAddr : Nat) (l₁ l₂ : CellLoc)
    (st' : ResState) (h' : Heap) (out : Encoded)
    (hfresh : FreshHeap h)
    (hc₁ : cellAt h a₁ l₁ = some (.ref cAddr))
    (hc₂ : cellAt h a₂ l₂ = some (.ref cAddr))
    (hr₁ : Reaches h (.ref r) a₁) (hr₂ : Reaches h (.ref r) a₂)
    (hs : stringify cfg .none st0 h (.ref r) = (st', h', .ok out)) :
    ∃ es ds i₁ i₂ j,
      out = .table es ∧
      resurrect cfg sd out = (Option.none, .ok (ds, .ref 0)) ∧
      j < ds.length ∧
      dcellAt ds i₁ l₁ = some (.ref j) ∧
      dcellAt ds i₂ l₂ = some (.ref j) ∧
      (a₁ = a₂ → i₁ = i₂) ∧
      (a₁ = cAddr → i₁ = j) ∧ (a₂ = cAddr → i₂ = j) ∧
      (a₁ = r → i₁ = 0) ∧ (a₂ = r → i₂ = 0) := by
  obtain ⟨vst, c, es, hvis, hft, hout, _⟩ := stringify_ok_inv hs
  have hpost := visit_post (encodeFuel h) cfg ⟨h, []⟩ (.ref r)
  rw [hvis] at hpost
  obtain ⟨hstep, _, _, _, hwfp, hsucc, _⟩ := hpost
  have hwfst := hwfp (wfst_init hfresh)
  obtain ⟨⟨i0, hi0, _, hro0⟩, hfill0⟩ := hsucc c rfl
  have hfill : ∀ j, j < vst.table.length →
      ∃ te, vst.table.get? j = some (some te) :=
    fun j hj => hfill0 j (by simp) hj
  have hi00 : i0 = 0 := by
    rcases hro0 with hro | ⟨_, h0⟩
    · exact absurd hro (fresh_no_tags hfresh r i0)
    · simpa using h0
  subst hi00
  obtain ⟨h2, es0, hft0, hfor⟩ :=
    finishTable_ok cfg vst.table vst.heap (slots_filled_ne_none hfill)
  rw [hft] at hft0
  have hes : es = es0 := Except.ok.inj (congrArg Prod.snd hft0)
  subst hes
  have hlen1 := (forall2_get? hfor).1
  have htag : ∀ x, Reaches h (.ref r) x →
      ∃ i, markerOf vst.heap x = some (.tagged i) :=
    fun x hre => tagged_of_reach hwfst (fun b => hstep.hcontent b) hfill
      (.ref r) x hre (fun y hy => by cases hy; exact ⟨0, hi0⟩)
  obtain ⟨oc1, hoc1, hmem1⟩ := cellAt_content hc₁
  have hrc : Reaches h (.ref r) cAddr :=
    Reaches_trans hr₁ (.step hoc1 hmem1 (.here cAddr))
  obtain ⟨j, hj⟩ := htag cAddr hrc
  obtain ⟨i₁, hi₁⟩ := htag a₁ hr₁
  obtain ⟨i₂, hi₂⟩ := htag a₂ hr₂
  have hfix_all : ∀ e ∈ es, ∃ f, fixEntry cfg e = .ok f := by
    intro e he
    obtain ⟨s, hsmem, te, hste, hete⟩ := forall2_mem_right hfor he
    obtain ⟨k, hk⟩ := List.get?_of_mem hsmem
    obtain ⟨_, _, hem⟩ := hwfst.slotOrig k te (by rw [hk, hste])
    rw [hete]
    exact fixEntry_ok_of_matches hem
  obtain ⟨fs, hf1⟩ := forall2_exists_of_forall hfix_all
  have hres_all : ∀ f ∈ fs, ∃ d, resolveEntry es.length f = .ok d := by
    intro f hfm
    obtain ⟨e, hemem, hfix⟩ := forall2_mem_right hf1 hfm
    obtain ⟨s, hsmem, te, hste, hete⟩ := forall2_mem_right hfor hemem
    obtain ⟨k, hk⟩ := List.get?_of_mem hsmem
    obtain ⟨_, _, hem⟩ := hwfst.slotOrig k te (by rw [hk, hste])
    obtain ⟨oc, _, hrest⟩ := hem
    rw [hete] at hfix
    rcases hrest with ⟨cells, _, hearr, hcm⟩ |
      ⟨ptag, pcells, _, heobj, _, hpm⟩
    · rw [hearr] at hfix
      have hfe : FEntry.mk true arrayProtoId Option.none cells [] = f :=
        Except.ok.inj hfix
      subst hfe
      obtain ⟨d, hd, _⟩ := resolveEntry_ok (n := es.length)
        (f := ⟨true, arrayProtoId, Option.none, cells, []⟩)
        (fun c0 hc0 => by
          obtain ⟨v, _, hcmv⟩ := forall2_mem_right hcm hc0
          exact resolveCell_of_cellMatches hcmv es.length)
        (fun kc hkc => absurd hkc (List.not_mem_nil kc))
      exact ⟨d, hd⟩
    · rw [heobj] at hfix
      rcases fixEntry_cells hfix with ⟨cells2, heq, _, _, _⟩ |
        ⟨ptag2, pcells2, heq, _, hfc, hfp⟩
      · exact Entry.noConfusion heq
      have hpc : pcells2 = pcells := ((Entry.obj.inj heq).2).symm
      subst hpc
      obtain ⟨d, hd, _⟩ := resolveEntry_ok (n := es.length) (f := f)
        (fun c0 hc0 => absurd (hfc ▸ hc0) (List.not_mem_nil c0))
        (fun kc hkc => by
          obtain ⟨p, _, _, hcmp⟩ := forall2_mem_right hpm (hfp ▸ hkc)
          exact resolveCell_of_cellMatches hcmp es.length)
      exact ⟨d, hd⟩
  obtain ⟨ds, hf2⟩ := forall2_exists_of_forall hres_all
  have hlen2 := (forall2_get? hf1).1
  have hlen3 := (forall2_get? hf2).1
  have hresur := @resurrect_table_ok _ sd _ _ _ hf1 hf2
  have h0lt : (0 : Nat) < vst.table.length := by
    have := hwfst.markerLt r 0 hi0
    dsimp only at this
    exact this
  have hd0 : ds.isEmpty = false := by
    cases hds : ds with
    | nil =>
      exfalso
      rw [hds] at hlen3
      simp only [List.length_nil] at hlen3
      omega
    | cons x xs => rfl
  rw [if_neg (show ¬ (ds.isEmpty = true) from by
    rw [hd0]; exact Bool.false_ne_true)] at hresur
  have hdc₁ := decode_cell_at hwfst (fun b => hstep.hcontent b) hfor hf1 hf2
    hi₁ hj hc₁
  have hdc₂ := decode_cell_at hwfst (fun b => hstep.hcontent b) hfor hf1 hf2
    hi₂ hj hc₂
  have hjlt : j < vst.table.length := by
    have := hwfst.markerLt cAddr j hj
    dsimp only at this
    exact this
  refine ⟨es, ds, i₁, i₂, j, hout, by rw [hout]; exact hresur,
    by omega, hdc₁, hdc₂, ?_, ?_, ?_, ?_, ?_⟩
  · intro h12
    subst h12
    exact Marker.tagged.inj (Option.some.inj (hi₁.symm.trans hi₂))
  · intro h1c
    subst h1c
    exact Marker.tagged.inj (Option.some.inj (hi₁.symm.trans hj))
  · intro h2c
    subst h2c
    exact Marker.tagged.inj (Option.some.inj (hi₂.symm.trans hj))
  · intro h1r
    subst h1r
    exact Marker.tagged.inj (Option.some.inj (hi₁.symm.trans hi0))
  · intro h2r
    subst h2r
    exact Marker.tagged.inj (Option.some.inj (hi₂.symm.trans hi0))

/-- Witness for C1: `obj.self = obj` — the decoded root's `self` cell points
back at table position 0, i.e. at the decoded result itself. -/
theorem claim_C1_witness :
    ∃ h' es ds i₁ j,
      stringify ⟨"#", false, true, ⟨[]⟩⟩ .none Option.none
        [⟨⟨false, "Object", 0, [], [("self", .ref 0)]⟩, .absent⟩]
        (.ref 0) = (Option.none, h', .ok (.table es)) ∧
      resurrect ⟨"#", false, true, ⟨[]⟩⟩ Option.none (.table es) =
        (Option.none, .ok (ds, .ref 0)) ∧
      j < ds.length ∧
      dcellAt ds i₁ (.prop 0) = some (.ref j) ∧
      i₁ = 0 ∧ j = 0 := by
  obtain ⟨vst, c, h', es, _, _, hs⟩ :=
    @encode_ok ⟨"#", false, true, ⟨[]⟩⟩ Option.none
      [⟨⟨false, "Object", 0, [], [("self", .ref 0)]⟩, .absent⟩] 0
      (freshHeap_of_B (by decide)) (wfHeap_of_B (by decide))
      (fun o ho => ⟨atomsOK_of_B (by decide) o ho, by
        rcases List.mem_singleton.mp ho with rfl
        exact fun _ => ⟨Option.none, rfl⟩⟩)
      (by decide)
  obtain ⟨es2, ds, i₁, i₂, j, hout, hresur, hjlt, hd1, _, _, h1c, _, h1r, _⟩ :=
    claim_C1 ⟨"#", false, true, ⟨[]⟩⟩ Option.none Option.none
      [⟨⟨false, "Object", 0, [], [("self", .ref 0)]⟩, .absent⟩]
      0 0 0 0 (.prop 0) (.prop 0) Option.none h' (.table es)
      (freshHeap_of_B (by decide)) rfl rfl (.here 0) (.here 0) hs
  have hes : es = es2 := Encoded.table.inj hout
  subst hes
  have hi10 := h1r rfl
  have hij := h1c rfl
  exact ⟨h', es, ds, i₁, j, hs, hresur, hjlt, hd1, hi10, by omega⟩

/-- The table never outgrows the heap: every filled slot names a distinct
tagged original. -/
theorem table_le_heap {cfg : Config} {vst : VSt} (hwfst : WfSt cfg vst)
    (hfill : ∀ j, j < vst.table.length →
      ∃ te, vst.table.get? j = some (some te)) :
    vst.table.length ≤ vst.heap.length := by
  have hf : ∀ i : Fin vst.table.length,
      ∃ a : Fin vst.heap.length,
        markerOf vst.heap (a : Nat) = some (.tagged (i : Nat)) := by
    intro i
    obtain ⟨te, hte⟩ := hfill i i.2
    obtain ⟨hom, _, _⟩ := hwfst.slotOrig i te hte
    exact ⟨⟨te.orig, markerOf_isSome_lt hom⟩, hom⟩
  choose f hfm using hf
  have hinj : Function.Injective f := by
    intro i j hij
    have hi := hfm i
    have hj := hfm j
    rw [hij] at hi
    rw [hi] at hj
    have := Marker.tagged.inj (Option.some.inj hj)
    exact Fin.ext this
  have := Fintype.card_le_of_injective f hinj
  simpa using this

/-- Composing two pointwise correspondences that cancel yields equality. -/
theorem forall2_comp_eq {α β : Type} {R : α → β → Prop} {S : β → α → Prop} :
    ∀ {l1 : List α} {l2 : List β} {l3 : List α},
    List.Forall₂ R l1 l2 → List.Forall₂ S l2 l3 →
    (∀ a ∈ l1, ∀ b c, R a b → S b c → a = c) → l1 = l3 := by
  intro l1 l2 l3 h12
  induction h12 generalizing l3 with
  | nil =>
    intro h23 _
    cases h23
    rfl
  | cons hR htail ih =>
    intro h23 hcomp
    cases h23 with
    | cons hS htail2 =>
      rename_i a b l1t l2t c l3t
      have hac : a = c := hcomp a (List.mem_cons_self _ _) b c hR hS
      rw [hac, ih htail2
        (fun x hx => hcomp x (List.mem_cons_of_mem _ hx))]

theorem pass1run_inv (cfg : Config) :
    ∀ {es : List Entry} {stg : List DecStage} {fs : List FEntry},
    pass1run cfg es = (stg, .ok fs) →
    List.Forall₂ (fun e f => fixEntry cfg e = .ok f) es fs
  | [], stg, fs, h => by
    have hfs : Except.ok ([] : List FEntry) = .ok fs :=
      congrArg Prod.snd h
    rw [← Except.ok.inj hfs]
    exact .nil
  | e :: rest, stg, fs, h => by
    simp only [pass1run] at h
    cases hfe : fixEntry cfg e with
    | error err =>
      rw [hfe] at h
      exact Except.noConfusion (congrArg Prod.snd h)
    | ok f =>
      rw [hfe] at h
      dsimp only at h
      rcases hrest : pass1run cfg rest with ⟨stg2, res2⟩
      rw [hrest] at h
      cases res2 with
      | error err =>
        exact Except.noConfusion (congrArg Prod.snd h)
      | ok fs2 =>
        dsimp only at h
        have hfs : f :: fs2 = fs := Except.ok.inj (congrArg Prod.snd h)
        rw [← hfs]
        exact .cons hfe (pass1run_inv cfg hrest)

theorem pass2run_inv (n : Nat) :
    ∀ {fs : List FEntry} {stg : List DecStage} {ds : List DObj},
    pass2run n fs = (stg, .ok ds) →
    List.Forall₂ (fun f d => resolveEntry n f = .ok d) fs ds
  | [], stg, ds, h => by
    have hds : Except.ok ([] : List DObj) = .ok ds :=
      congrArg Prod.snd h
    rw [← Except.ok.inj hds]
    exact .nil
  | f :: rest, stg, ds, h => by
    simp only [pass2run] at h
    cases hfd : resolveEntry n f with
    | error err =>
      rw [hfd] at h
      exact Except.noConfusion (congrArg Prod.snd h)
    | ok d =>
      rw [hfd] at h
      dsimp only at h
      rcases hrest : pass2run n rest with ⟨stg2, res2⟩
      rw [hrest] at h
      cases res2 with
      | error err =>
        exact Except.noConfusion (congrArg Prod.snd h)
      | ok ds2 =>
        dsimp only at h
        have hds : d :: ds2 = ds := Except.ok.inj (congrArg Prod.snd h)
        rw [← hds]
        exact .cons hfd (pass2run_inv n hrest)

theorem resurrect_table_inv {cfg : Config} {st sd' : ResState}
    {es : List Entry} {ds : List DObj} {v : JVal}
    (h : resurrect cfg st (.table es) = (sd', .ok (ds, v))) :
    ∃ fs, List.Forall₂ (fun e f => fixEntry cfg e = .ok f) es fs ∧
      List.Forall₂ (fun f d => resolveEntry es.length f = .ok d) fs ds := by
  simp only [resurrect] at h
  rcases hp1 : pass1run cfg es with ⟨stg1, res1⟩
  rw [hp1] at h
  cases res1 with
  | error err =>
    exact Except.noConfusion (congrArg (fun p => Prod.snd p) h)
  | ok fs =>
    dsimp only at h
    rcases hp2 : pass2run es.length fs with ⟨stg2, res2⟩
    rw [hp2] at h
    cases res2 with
    | error err =>
      exact Except.noConfusion (congrArg (fun p => Prod.snd p) h)
    | ok ds2 =>
      dsimp only at h
      have hds : ds2 = ds :=
        congrArg Prod.fst (Except.ok.inj (congrArg Prod.snd h))
      subst hds
      exact ⟨fs, pass1run_inv cfg hp1, pass2run_inv es.length hp2⟩

/-- Every table a successful traversal leaves behind decodes: both decoder
passes succeed on its finished entries. -/
theorem decode_tables_exist {cfg : Config} {vst : VSt} {es : List Entry}
    (hwfst : WfSt cfg vst)
    (hfor : List.Forall₂ (fun (s : TSlot) (e : Entry) =>
      ∃ te, s = some te ∧ e = te.entry) vst.table es) :
    ∃ fs ds, List.Forall₂ (fun e f => fixEntry cfg e = .ok f) es fs ∧
      List.Forall₂ (fun f d => resolveEntry es.length f = .ok d) fs ds := by
  have hfix_all : ∀ e ∈ es, ∃ f, fixEntry cfg e = .ok f := by
    intro e he
    obtain ⟨s, hsmem, te, hste, hete⟩ := forall2_mem_right hfor he
    obtain ⟨k, hk⟩ := List.get?_of_mem hsmem
    obtain ⟨_, _, hem⟩ := hwfst.slotOrig k te (by rw [hk, hste])
    rw [hete]
    exact fixEntry_ok_of_matches hem
  obtain ⟨fs, hf1⟩ := forall2_exists_of_forall hfix_all
  have hres_all : ∀ f ∈ fs, ∃ d, resolveEntry es.length f = .ok d := by
    intro f hfm
    obtain ⟨e, hemem, hfix⟩ := forall2_mem_right hf1 hfm
    obtain ⟨s, hsmem, te, hste, hete⟩ := forall2_mem_right hfor hemem
    obtain ⟨k, hk⟩ := List.get?_of_mem hsmem
    obtain ⟨_, _, hem⟩ := hwfst.slotOrig k te (by rw [hk, hste])
    obtain ⟨oc, _, hrest⟩ := hem
    rw [hete] at hfix
    rcases hrest with ⟨cells, _, hearr, hcm⟩ |
      ⟨ptag, pcells, _, heobj, _, hpm⟩
    · rw [hearr] at hfix
      have hfe : FEntry.mk true arrayProtoId Option.none cells [] = f :=
        Except.ok.inj hfix
      subst hfe
      obtain ⟨d, hd, _⟩ := resolveEntry_ok (n := es.length)
        (f := ⟨true, arrayProtoId, Option.none, cells, []⟩)
        (fun c0 hc0 => by
          obtain ⟨v, _, hcmv⟩ := forall2_mem_right hcm hc0
          exact resolveCell_of_cellMatches hcmv es.length)
        (fun kc hkc => absurd hkc (List.not_mem_nil kc))
      exact ⟨d, hd⟩
    · rw [heobj] at hfix
      rcases fixEntry_cells hfix with ⟨cells2, heq, _, _, _⟩ |
        ⟨ptag2, pcells2, heq, _, hfc, hfp⟩
      · exact Entry.noConfusion heq
      have hpc : pcells2 = pcells := ((Entry.obj.inj heq).2).symm
      subst hpc
      obtain ⟨d, hd, _⟩ := resolveEntry_ok (n := es.length) (f := f)
        (fun c0 hc0 => absurd (hfc ▸ hc0) (List.not_mem_nil c0))
        (fun kc hkc => by
          obtain ⟨p, _, _, hcmp⟩ := forall2_mem_right hpm (hfp ▸ hkc)
          exact resolveCell_of_cellMatches hcmp es.length)
      exact ⟨d, hd⟩
  obtain ⟨ds, hf2⟩ := forall2_exists_of_forall hres_all
  exact ⟨fs, ds, hf1, hf2⟩

/-- C7: with `revive` off, no type tag is emitted by the encoder (every
record entry of every successful encode is untagged) and no behavioral type
is restored by the decoder (every decoded record keeps the plain-record
prototype); and a typed instance whose fields are serializable atoms
round-trips to a plain record with exactly the same fields and no residue of
its type (no prototype, no tag property). -/
theorem claim_C7 (cfg : Config) (st0 sd : ResState)
    (hrev : cfg.revive = false) :
    (∀ (h : Heap) (r : Nat) (st' : ResState) (h' : Heap) (es : List Entry),
      FreshHeap h →
      stringify cfg .none st0 h (.ref r) = (st', h', .ok (.table es)) →
      ∀ e ∈ es, ∀ ptag pcells, e = .obj ptag pcells →
        ptag = Option.none) ∧
    (∀ (es : List Entry) (sd' : ResState) (ds : List DObj) (v : JVal),
      resurrect cfg sd (.table es) = (sd', .ok (ds, v)) →
      ∀ d ∈ ds, d.isArr = false → d.protoId = objectProtoId) ∧
    (∀ (cn : String) (p : Nat) (props : List (String × JVal)),
      (∀ q ∈ props, ∃ u, Prod.snd q = JVal.atom u ∧
        serializableAtom u = true) →
      ∃ h' es d,
        stringify cfg .none st0
          [⟨⟨false, cn, p, [], props⟩, .absent⟩] (.ref 0) =
          (Option.none, h', .ok (.table es)) ∧
        resurrect cfg sd (.table es) = (Option.none, .ok ([d], .ref 0)) ∧
        d.isArr = false ∧ d.protoId = objectProtoId ∧
        d.protoProp = Option.none ∧ d.elems = [] ∧ d.props = props) := by
  refine ⟨?_, ?_, ?_⟩
  · intro h r st' h' es hfresh hs e he ptag pcells heq
    obtain ⟨vst, c, es2, hvis, hft, hout, _⟩ := stringify_ok_inv hs
    have hes : es = es2 := Encoded.table.inj hout
    subst hes
    have hpost := visit_post (encodeFuel h) cfg ⟨h, []⟩ (.ref r)
    rw [hvis] at hpost
    obtain ⟨hstep, _, _, _, hwfp, hsucc, _⟩ := hpost
    have hwfst := hwfp (wfst_init hfresh)
    obtain ⟨_, hfill0⟩ := hsucc c rfl
    have hfill : ∀ j, j < vst.table.length →
        ∃ te, vst.table.get? j = some (some te) :=
      fun j hj => hfill0 j (by simp) hj
    obtain ⟨h2, es0, hft0, hfor⟩ :=
      finishTable_ok cfg vst.table vst.heap (slots_filled_ne_none hfill)
    rw [hft] at hft0
    have hes : es = es0 := Except.ok.inj (congrArg Prod.snd hft0)
    subst hes
    obtain ⟨s, hsmem, te, hste, hete⟩ := forall2_mem_right hfor he
    obtain ⟨k, hk⟩ := List.get?_of_mem hsmem
    obtain ⟨_, _, hem⟩ := hwfst.slotOrig k te (by rw [hk, hste])
    obtain ⟨oc, _, hrest⟩ := hem
    rcases hrest with ⟨cells, _, hearr, _⟩ |
      ⟨ptag2, pcells2, _, heobj, htagc, _⟩
    · rw [hete, hearr] at heq
      exact Entry.noConfusion heq
    · rw [hete, heobj] at heq
      have hpt : ptag2 = ptag := (Entry.obj.inj heq).1
      rw [tagCheck_no_revive hrev _ _] at htagc
      rw [← hpt, ← Except.ok.inj htagc]
  · intro es sd' ds v hres d hd hdarr
    obtain ⟨fs, hf1, hf2⟩ := resurrect_table_inv hres
    obtain ⟨f, hfmem, hrd⟩ := forall2_mem_right hf2 hd
    obtain ⟨hdisArr, hdpid, _, _, _⟩ := resolveEntry_inv hrd
    obtain ⟨e, _, hfix⟩ := forall2_mem_right hf1 hfmem
    cases e with
    | arr cells =>
      have hfe : FEntry.mk true arrayProtoId Option.none cells [] = f :=
        Except.ok.inj hfix
      rw [hdisArr, ← hfe] at hdarr
      exact Bool.noConfusion hdarr
    | obj ptag pcells =>
      simp only [fixEntry] at hfix
      rw [if_neg (show ¬(cfg.revive = true) from by
        rw [hrev]; exact Bool.false_ne_true)] at hfix
      have hfe : FEntry.mk false objectProtoId ptag [] pcells = f :=
        Except.ok.inj hfix
      rw [hdpid, ← hfe]
  · intro cn p props hatoms
    have hfresh : FreshHeap [⟨⟨false, cn, p, [], props⟩, .absent⟩] := by
      intro o ho
      rcases List.mem_singleton.mp ho with rfl
      rfl
    have hvals : cellVals (⟨false, cn, p, [], props⟩ : ObjContent) =
        props.map Prod.snd := by
      unfold cellVals
      rfl
    have hwf : WfHeap [⟨⟨false, cn, p, [], props⟩, .absent⟩] := by
      intro o ho v hv b hbv
      rcases List.mem_singleton.mp ho with rfl
      rw [hvals] at hv
      obtain ⟨q, hq, hqv⟩ := List.mem_map.mp hv
      obtain ⟨u, hu, _⟩ := hatoms q hq
      rw [← hqv, hu] at hbv
      exact JVal.noConfusion hbv
    have hready : EncodeReady cfg [⟨⟨false, cn, p, [], props⟩, .absent⟩] := by
      intro o ho
      rcases List.mem_singleton.mp ho with rfl
      refine ⟨?_, fun _ => ⟨Option.none, tagCheck_no_revive hrev _ _⟩⟩
      intro v hv u hu
      rw [hvals] at hv
      obtain ⟨q, hq, hqv⟩ := List.mem_map.mp hv
      obtain ⟨u2, hu2, hser⟩ := hatoms q hq
      rw [← hqv, hu2] at hu
      rw [← JVal.atom.inj hu]
      exact hser
    obtain ⟨vst, c, h', es, hvis, hft, hs⟩ :=
      encode_ok (r := 0) st0 hfresh hwf hready (by simp)
    have hpost := visit_post
      (encodeFuel [⟨⟨false, cn, p, [], props⟩, .absent⟩]) cfg
      ⟨[⟨⟨false, cn, p, [], props⟩, .absent⟩], []⟩ (.ref 0)
    rw [hvis] at hpost
    obtain ⟨hstep, _, _, _, hwfp, hsucc, _⟩ := hpost
    have hwfst := hwfp (wfst_init hfresh)
    obtain ⟨⟨i0, hi0, _, hro0⟩, hfill0⟩ := hsucc c rfl
    have hfill : ∀ j, j < vst.table.length →
        ∃ te, vst.table.get? j = some (some te) :=
      fun j hj => hfill0 j (by simp) hj
    have hi00 : i0 = 0 := by
      rcases hro0 with hro | ⟨_, h0⟩
      · exact absurd hro (fresh_no_tags hfresh 0 i0)
      · simpa using h0
    subst hi00
    have htgt : 0 < vst.table.length := by
      have := hwfst.markerLt 0 0 hi0
      dsimp only at this
      exact this
    have htlen : vst.table.length = 1 := by
      have hle := table_le_heap hwfst hfill
      have hlen : vst.heap.length = 1 := by
        have := hstep.hlen
        dsimp only at this
        simpa using this
      dsimp only at hle
      omega
    obtain ⟨h2, es0, hft0, hfor⟩ :=
      finishTable_ok cfg vst.table vst.heap (slots_filled_ne_none hfill)
    rw [hft] at hft0
    have hes : es = es0 := Except.ok.inj (congrArg Prod.snd hft0)
    subst hes
    have heslen : vst.table.length = es.length := (forall2_get? hfor).1
    obtain ⟨te, hte⟩ := hfill 0 (by omega)
    obtain ⟨hom, _, hem⟩ := hwfst.slotOrig 0 te hte
    have horig : te.orig = 0 := hwfst.markerInj _ _ _ hom hi0
    rw [horig] at hem
    obtain ⟨oc, hoc, hrest⟩ := hem
    rw [hstep.hcontent 0] at hoc
    have hoceq : oc = ⟨false, cn, p, [], props⟩ := by
      have hlit : contentOf [⟨⟨false, cn, p, [], props⟩, .absent⟩] 0 =
          some ⟨false, cn, p, [], props⟩ := rfl
      exact (Option.some.inj (hlit.symm.trans hoc)).symm
    subst hoceq
    rcases hrest with ⟨cells, hcarr, _, _⟩ |
      ⟨ptag, pcells, _, heobj, htagc, hpm⟩
    · exact Bool.noConfusion hcarr
    · rw [tagCheck_no_revive hrev _ _] at htagc
      have hpt : Option.none = ptag := Except.ok.inj htagc
      obtain ⟨e0, he0, te2, hste2, hete2⟩ := (forall2_get? hfor).2 0
        (some te) hte
      have hte2 : te = te2 := Option.some.inj hste2
      subst hte2
      obtain ⟨fs, ds, hf1, hf2⟩ := decode_tables_exist hwfst hfor
      have hresur := @resurrect_table_ok _ sd _ _ _ hf1 hf2
      have hfslen := (forall2_get? hf1).1
      have hdslen := (forall2_get? hf2).1
      obtain ⟨d, hds⟩ : ∃ d, ds = [d] := by
        cases hds : ds with
        | nil =>
          exfalso
          rw [hds] at hdslen
          simp only [List.length_nil] at hdslen
          omega
        | cons d tail =>
          cases htl : tail with
          | nil => exact ⟨d, rfl⟩
          | cons x xs =>
            exfalso
            rw [hds, htl] at hdslen
            simp only [List.length_cons] at hdslen
            omega
      subst hds
      rw [if_neg (show ¬(([d] : List DObj).isEmpty = true) from by
        simp)] at hresur
      obtain ⟨f, hf0, hfix⟩ := (forall2_get? hf1).2 0 e0 he0
      obtain ⟨d2, hd0, hrd⟩ := (forall2_get? hf2).2 0 f hf0
      have hd2 : d = d2 := by
        have : some d = some d2 := by
          rw [← hd0]
          rfl
        exact Option.some.inj this
      subst hd2
      rw [hete2, heobj, ← hpt] at hfix
      simp only [fixEntry] at hfix
      rw [if_neg (show ¬(cfg.revive = true) from by
        rw [hrev]; exact Bool.false_ne_true)] at hfix
      have hfe : FEntry.mk false objectProtoId Option.none [] pcells = f :=
        Except.ok.inj hfix
      subst hfe
      obtain ⟨hdisArr, hdpid, hdpp, hdelems, hdprops⟩ := resolveEntry_inv hrd
      have helems : d.elems = [] :=
        List.forall₂_nil_left_iff.mp hdelems
      have hprops : props = d.props := by
        refine forall2_comp_eq hpm hdprops ?_
        intro q hq b c hRb hSc
        obtain ⟨hk1, hcm⟩ := hRb
        obtain ⟨hk2, hresw⟩ := hSc
        obtain ⟨u, hu, hser⟩ := hatoms q hq
        rw [hu] at hcm
        obtain ⟨c0, hok, hresall⟩ := handleAtom_resolve hser
        have hc0 : c0 = b.2 := Except.ok.inj (hok.symm.trans hcm)
        rw [hc0] at hresall
        rw [hresall es.length] at hresw
        have hval : JVal.atom u = c.2 := Except.ok.inj hresw
        refine Prod.ext_iff.mpr ⟨hk1.trans hk2, ?_⟩
        rw [hu, hval]
      exact ⟨h', es, d, hs, hresur, hdisArr, hdpid, hdpp, helems,
        hprops.symm⟩

/-- Witness for C7: a typed `Dog` instance with one string field, `revive`
off. -/
theorem claim_C7_witness :
    ∃ h' es d,
      stringify ⟨"#", false, false, ⟨[("Dog", 7)]⟩⟩ .none Option.none
        [⟨⟨false, "Dog", 7, [], [("name", .atom (.str "Rex"))]⟩, .absent⟩]
        (.ref 0) = (Option.none, h', .ok (.table es)) ∧
      resurrect ⟨"#", false, false, ⟨[("Dog", 7)]⟩⟩ Option.none (.table es) =
        (Option.none, .ok ([d], .ref 0)) ∧
      d.isArr = false ∧ d.protoId = objectProtoId ∧
      d.protoProp = Option.none ∧ d.elems = [] ∧
      d.props = [("name", .atom (.str "Rex"))] :=
  (claim_C7 ⟨"#", false, false, ⟨[("Dog", 7)]⟩⟩ Option.none Option.none
    rfl).2.2 "Dog" 7 [("name", .atom (.str "Rex"))]
    (fun q hq => by
      rcases List.mem_singleton.mp hq with rfl
      exact ⟨.str "Rex", rfl, rfl⟩)

/-- Two heaps the traversal cannot tell apart: same length, same contents,
and the same addresses carry the same tags — non-tagged markers (absent, or
the `null` residue a previous non-`cleanup` call left) are interchangeable,
which is exactly what `_isTagged` observes. -/
abbrev HeapSim (h1 h2 : Heap) : Prop :=
  h1.length = h2.length ∧
  (∀ a, contentOf h1 a = contentOf h2 a) ∧
  (∀ a i, markerOf h1 a = some (.tagged i) ↔
    markerOf h2 a = some (.tagged i))

/-- Indistinguishable traversal states: equal tables over similar heaps. -/
abbrev SimSt (s1 s2 : VSt) : Prop :=
  s1.table = s2.table ∧ HeapSim s1.heap s2.heap

/-- Indistinguishable traversal outcomes. -/
abbrev SimOut {α : Type} (p q : VSt × α) : Prop :=
  p.2 = q.2 ∧ SimSt p.1 q.1

theorem HeapSim_setMarker {h1 h2 : Heap} (hsim : HeapSim h1 h2)
    (r : Nat) (m : Marker) :
    HeapSim (setMarker h1 r m) (setMarker h2 r m) := by
  obtain ⟨hlen, hcont, hmark⟩ := hsim
  refine ⟨by rw [length_setMarker, length_setMarker, hlen],
    fun a => by rw [contentOf_setMarker, contentOf_setMarker]; exact hcont a,
    ?_⟩
  intro a i
  by_cases har : r = a
  · subst har
    rw [markerOf_setMarker_map, markerOf_setMarker_map]
    cases hg1 : markerOf h1 r with
    | none =>
      have hr : h1.length ≤ r := by
        unfold markerOf at hg1
        cases hg : h1.get? r with
        | none => exact List.get?_eq_none.mp hg
        | some o => rw [hg] at hg1; exact Option.noConfusion hg1
      have hg2 : markerOf h2 r = Option.none := by
        unfold markerOf
        rw [List.get?_eq_none.mpr (by omega)]
        rfl
      rw [hg2]
    | some m0 =>
      have hr : r < h1.length := markerOf_isSome_lt hg1
      obtain ⟨m2, hg2⟩ : ∃ m2, markerOf h2 r = some m2 := by
        unfold markerOf
        cases hg : h2.get? r with
        | none => exact absurd (List.get?_eq_none.mp hg) (by omega)
        | some o => exact ⟨o.marker, rfl⟩
      rw [hg2]
      simp
  · rw [markerOf_setMarker_ne _ _ har, markerOf_setMarker_ne _ _ har]
    exact hmark a i

theorem visitElems_sim (cfg : Config) (fuel : Nat)
    (hv : ∀ (s1 s2 : VSt) (v : JVal), SimSt s1 s2 →
      SimOut (visit cfg Option.none fuel s1 v)
             (visit cfg Option.none fuel s2 v)) :
    ∀ (l : List JVal) (s1 s2 : VSt), SimSt s1 s2 →
      SimOut (visitElems cfg Option.none fuel s1 l)
             (visitElems cfg Option.none fuel s2 l)
  | [], s1, s2, hsim => by
    simp only [visitElems]
    exact ⟨rfl, hsim⟩
  | v :: vs, s1, s2, hsim => by
    simp only [visitElems]
    rcases hv1 : visit cfg Option.none fuel s1 v with ⟨u1, res1⟩
    rcases hv2 : visit cfg Option.none fuel s2 v with ⟨u2, res2⟩
    have hout := hv s1 s2 v hsim
    rw [hv1, hv2] at hout
    obtain ⟨hres, hsim1⟩ := hout
    dsimp only at hres
    subst hres
    cases res1 with
    | error e =>
      dsimp only
      exact ⟨rfl, hsim1⟩
    | ok c =>
      dsimp only
      rcases ht1 : visitElems cfg Option.none fuel u1 vs with ⟨w1, tres1⟩
      rcases ht2 : visitElems cfg Option.none fuel u2 vs with ⟨w2, tres2⟩
      have hout2 := visitElems_sim cfg fuel hv vs u1 u2 hsim1
      rw [ht1, ht2] at hout2
      obtain ⟨hres2, hsim2⟩ := hout2
      dsimp only at hres2
      subst hres2
      cases tres1 with
      | error e =>
        dsimp only
        exact ⟨rfl, hsim2⟩
      | ok cs =>
        dsimp only
        exact ⟨rfl, hsim2⟩

theorem visitProps_sim (cfg : Config) (fuel : Nat)
    (hv : ∀ (s1 s2 : VSt) (v : JVal), SimSt s1 s2 →
      SimOut (visit cfg Option.none fuel s1 v)
             (visit cfg Option.none fuel s2 v)) :
    ∀ (l : List (String × JVal)) (s1 s2 : VSt), SimSt s1 s2 →
      SimOut (visitProps cfg Option.none fuel s1 l)
             (visitProps cfg Option.none fuel s2 l)
  | [], s1, s2, hsim => by
    simp only [visitProps]
    exact ⟨rfl, hsim⟩
  | (k, v) :: ps, s1, s2, hsim => by
    simp only [visitProps]
    rcases hv1 : visit cfg Option.none fuel s1 v with ⟨u1, res1⟩
    rcases hv2 : visit cfg Option.none fuel s2 v with ⟨u2, res2⟩
    have hout := hv s1 s2 v hsim
    rw [hv1, hv2] at hout
    obtain ⟨hres, hsim1⟩ := hout
    dsimp only at hres
    subst hres
    cases res1 with
    | error e =>
      dsimp only
      exact ⟨rfl, hsim1⟩
    | ok c =>
      dsimp only
      rcases ht1 : visitProps cfg Option.none fuel u1 ps with ⟨w1, tres1⟩
      rcases ht2 : visitProps cfg Option.none fuel u2 ps with ⟨w2, tres2⟩
      have hout2 := visitProps_sim cfg fuel hv ps u1 u2 hsim1
      rw [ht1, ht2] at hout2
      obtain ⟨hres2, hsim2⟩ := hout2
      dsimp only at hres2
      subst hres2
      cases tres1 with
      | error e =>
        dsimp only
        exact ⟨rfl, hsim2⟩
      | ok pcs =>
        dsimp only
        exact ⟨rfl, hsim2⟩

theorem visitUntagged_sim (cfg : Config) (fuel : Nat)
    (hv : ∀ (s1 s2 : VSt) (v : JVal), SimSt s1 s2 →
      SimOut (visit cfg Option.none fuel s1 v)
             (visit cfg Option.none fuel s2 v))
    (s1 s2 : VSt) (r : Nat) (o1 o2 : HObj)
    (hsim : SimSt s1 s2) (hoc : o1.content = o2.content) :
    SimOut (visitUntagged cfg Option.none fuel s1 r o1)
           (visitUntagged cfg Option.none fuel s2 r o2) := by
  obtain ⟨htab, hhs⟩ := hsim
  unfold visitUntagged
  rw [← hoc, ← htab]
  by_cases harr : o1.content.isArr = true
  · rw [if_pos harr, if_pos harr]
    dsimp only
    rcases he1 : visitElems cfg Option.none fuel
      ⟨setMarker s1.heap r (.tagged s1.table.length),
        s1.table ++ [(Option.none : TSlot)]⟩ o1.content.elems
      with ⟨u1, res1⟩
    rcases he2 : visitElems cfg Option.none fuel
      ⟨setMarker s2.heap r (.tagged s1.table.length),
        s1.table ++ [(Option.none : TSlot)]⟩ o1.content.elems
      with ⟨u2, res2⟩
    have hout := visitElems_sim cfg fuel hv o1.content.elems _ _
      (show SimSt ⟨setMarker s1.heap r (.tagged s1.table.length),
          s1.table ++ [(Option.none : TSlot)]⟩
        ⟨setMarker s2.heap r (.tagged s1.table.length),
          s1.table ++ [(Option.none : TSlot)]⟩ from
        ⟨rfl, HeapSim_setMarker hhs r _⟩)
    rw [he1, he2] at hout
    obtain ⟨hres, htab2, hhs2⟩ := hout
    dsimp only at hres
    subst hres
    cases res1 with
    | error e =>
      dsimp only
      exact ⟨rfl, htab2, hhs2⟩
    | ok cells =>
      dsimp only
      refine ⟨rfl, ?_, hhs2⟩
      dsimp only at htab2 ⊢
      rw [htab2]
  · rw [if_neg harr, if_neg harr]
    dsimp only
    rcases htc : tagCheck cfg o1.content.ctorName o1.content.protoId with
      e | ptag
    · dsimp only
      exact ⟨rfl, htab, hhs⟩
    · dsimp only
      rcases hp1 : visitProps cfg Option.none fuel
        ⟨setMarker s1.heap r (.tagged s1.table.length),
          s1.table ++ [(Option.none : TSlot)]⟩ o1.content.props
        with ⟨u1, res1⟩
      rcases hp2 : visitProps cfg Option.none fuel
        ⟨setMarker s2.heap r (.tagged s1.table.length),
          s1.table ++ [(Option.none : TSlot)]⟩ o1.content.props
        with ⟨u2, res2⟩
      have hout := visitProps_sim cfg fuel hv o1.content.props _ _
        (show SimSt ⟨setMarker s1.heap r (.tagged s1.table.length),
            s1.table ++ [(Option.none : TSlot)]⟩
          ⟨setMarker s2.heap r (.tagged s1.table.length),
            s1.table ++ [(Option.none : TSlot)]⟩ from
          ⟨rfl, HeapSim_setMarker hhs r _⟩)
      rw [hp1, hp2] at hout
      obtain ⟨hres, htab2, hhs2⟩ := hout
      dsimp only at hres
      subst hres
      cases res1 with
      | error e =>
        dsimp only
        exact ⟨rfl, htab2, hhs2⟩
      | ok pcells =>
        dsimp only
        rcases hm1 : visit cfg Option.none fuel u1
          (.atom (.num (.fin (s1.table.length : Int)))) with ⟨w1, mres1⟩
        rcases hm2 : visit cfg Option.none fuel u2
          (.atom (.num (.fin (s1.table.length : Int)))) with ⟨w2, mres2⟩
        have hout2 := hv u1 u2 (.atom (.num (.fin (s1.table.length : Int))))
          ⟨htab2, hhs2⟩
        rw [hm1, hm2] at hout2
        obtain ⟨hres2, htab3, hhs3⟩ := hout2
        dsimp only at hres2
        subst hres2
        cases mres1 with
        | error e =>
          dsimp only
          exact ⟨rfl, htab3, hhs3⟩
        | ok c0 =>
          dsimp only
          refine ⟨rfl, ?_, hhs3⟩
          dsimp only at htab3 ⊢
          rw [htab3]

/-- The traversal cannot distinguish similar states: same results, same
tables, still-similar heaps.  In particular the `null` markers a previous
non-`cleanup` call left behind are invisible to it. -/
theorem visit_sim : ∀ (fuel : Nat) (cfg : Config) (s1 s2 : VSt) (v : JVal),
    SimSt s1 s2 →
    SimOut (visit cfg Option.none fuel s1 v)
           (visit cfg Option.none fuel s2 v)
  | 0, cfg, s1, s2, v, hsim => by
    simp only [visit]
    exact ⟨rfl, hsim⟩
  | fuel + 1, cfg, s1, s2, .atom a, hsim => by
    simp only [visit]
    exact ⟨rfl, hsim⟩
  | fuel + 1, cfg, s1, s2, .ref r, hsim => by
    have hv : ∀ (t1 t2 : VSt) (w : JVal), SimSt t1 t2 →
        SimOut (visit cfg Option.none fuel t1 w)
               (visit cfg Option.none fuel t2 w) :=
      fun t1 t2 w hs => visit_sim fuel cfg t1 t2 w hs
    obtain ⟨htab, hlen, hcont, hmark⟩ := hsim
    simp only [visit]
    cases hg1 : s1.heap.get? r with
    | none =>
      have hg2 : s2.heap.get? r = Option.none :=
        List.get?_eq_none.mpr (by
          rw [← hlen]
          exact List.get?_eq_none.mp hg1)
      rw [hg2]
      dsimp only
      exact ⟨rfl, htab, hlen, hcont, hmark⟩
    | some o1 =>
      obtain ⟨o2, hg2⟩ : ∃ o2, s2.heap.get? r = some o2 := by
        cases hg2 : s2.heap.get? r with
        | none =>
          have h2n := List.get?_eq_none.mp hg2
          have hr : r < s1.heap.length := by
            by_contra hc
            rw [List.get?_eq_none.mpr (Nat.le_of_not_lt hc)] at hg1
            exact Option.noConfusion hg1
          omega
        | some o2 => exact ⟨o2, rfl⟩
      rw [hg2]
      dsimp only
      have hocs : o1.content = o2.content := by
        have hcr := hcont r
        unfold contentOf at hcr
        rw [hg1, hg2] at hcr
        exact Option.some.inj hcr
      have hm1 : markerOf s1.heap r = some o1.marker := by
        unfold markerOf
        rw [hg1]
        rfl
      have hm2 : markerOf s2.heap r = some o2.marker := by
        unfold markerOf
        rw [hg2]
        rfl
      cases hmo1 : o1.marker with
      | tagged i =>
        have ho2t : o2.marker = .tagged i := by
          have h1 := (hmark r i).mp (by rw [hm1, hmo1])
          rw [hm2] at h1
          exact Option.some.inj h1
        rw [ho2t]
        dsimp only
        exact ⟨rfl, htab, hlen, hcont, hmark⟩
      | absent =>
        cases hmo2 : o2.marker with
        | tagged j =>
          have h1 := (hmark r j).mpr (by rw [hm2, hmo2])
          rw [hm1, hmo1] at h1
          exact absurd (Option.some.inj h1) (by intro hc; cases hc)
        | absent =>
          dsimp only
          exact visitUntagged_sim cfg fuel hv s1 s2 r o1 o2
            ⟨htab, hlen, hcont, hmark⟩ hocs
        | nullTag =>
          dsimp only
          exact visitUntagged_sim cfg fuel hv s1 s2 r o1 o2
            ⟨htab, hlen, hcont, hmark⟩ hocs
      | nullTag =>
        cases hmo2 : o2.marker with
        | tagged j =>
          have h1 := (hmark r j).mpr (by rw [hm2, hmo2])
          rw [hm1, hmo1] at h1
          exact absurd (Option.some.inj h1) (by intro hc; cases hc)
        | absent =>
          dsimp only
          exact visitUntagged_sim cfg fuel hv s1 s2 r o1 o2
            ⟨htab, hlen, hcont, hmark⟩ hocs
        | nullTag =>
          dsimp only
          exact visitUntagged_sim cfg fuel hv s1 s2 r o1 o2
            ⟨htab, hlen, hcont, hmark⟩ hocs
termination_by fuel _ _ _ _ _ => fuel

theorem untaggedCount_eq_length {h : Heap}
    (hnt : ∀ a i, markerOf h a ≠ some (.tagged i)) :
    untaggedCount h = h.length := by
  unfold untaggedCount
  apply List.countP_eq_length.mpr
  intro o ho
  obtain ⟨a, ha⟩ := List.get?_of_mem ho
  have hmo : markerOf h a = some o.marker := by
    unfold markerOf
    rw [ha]
    rfl
  cases hm : o.marker with
  | tagged i => exact absurd (by rw [hmo, hm]) (hnt a i)
  | absent => rfl
  | nullTag => rfl

theorem forall2_right_eq {α β : Type} {R : α → β → Prop}
    (hfun : ∀ a b b2, R a b → R a b2 → b = b2) :
    ∀ {l : List α} {l1 l2 : List β},
    List.Forall₂ R l l1 → List.Forall₂ R l l2 → l1 = l2 := by
  intro l l1 l2 h1
  induction h1 generalizing l2 with
  | nil =>
    intro h2
    cases h2
    rfl
  | cons hR htail ih =>
    intro h2
    cases h2 with
    | cons hR2 htail2 =>
      rw [hfun _ _ _ hR hR2, ih htail2]

/-- C10: with `cleanup` off, a successful `stringify` leaves the visited
markers as `null`-valued residue; `_isTagged` reads a `null` marker as not
tagged; and a second `stringify` of the same graph on the same instance,
right after the first, succeeds and returns the very same text. -/
theorem claim_C10 (cfg : Config) (st0 : ResState) (h : Heap) (r : Nat)
    (st1 : ResState) (h1 : Heap) (out1 : Encoded)
    (hclean : cfg.cleanup = false) (hfresh : FreshHeap h)
    (hs1 : stringify cfg .none st0 h (.ref r) = (st1, h1, .ok out1)) :
    Marker.isTagged .nullTag = false ∧
    (∀ a, Reaches h (.ref r) a → markerOf h1 a = some .nullTag) ∧
    ∃ h2, stringify cfg .none st1 h1 (.ref r) =
      (Option.none, h2, .ok out1) := by
  obtain ⟨vst, c, es, hvis, hft, hout, hst1⟩ := stringify_ok_inv hs1
  have hpost := visit_post (encodeFuel h) cfg ⟨h, []⟩ (.ref r)
  rw [hvis] at hpost
  obtain ⟨hstep, hprov, _, _, hwfp, hsucc, _⟩ := hpost
  have hwfst := hwfp (wfst_init hfresh)
  obtain ⟨⟨i0, hi0, _, _⟩, hfill0⟩ := hsucc c rfl
  have hfill : ∀ j, j < vst.table.length →
      ∃ te, vst.table.get? j = some (some te) :=
    fun j hj => hfill0 j (by simp) hj
  have hall := slots_filled_ne_none hfill
  obtain ⟨hften, hftc, hftin, hftout⟩ :=
    finishTable_heap cfg vst.table vst.heap hall
  rw [hft] at hften hftc hftin hftout
  dsimp only at hften hftc hftin hftout
  -- tagged in the traversal state exactly when listed in the table
  have horig_tag : ∀ a, a ∈ origsOf vst.table ↔
      ∃ i, markerOf vst.heap a = some (.tagged i) := by
    intro a
    constructor
    · intro hmem
      obtain ⟨s, hsmem, hmap⟩ := List.mem_filterMap.mp hmem
      cases s with
      | none => simp at hmap
      | some te =>
        have hta : te.orig = a := by simpa using hmap
        obtain ⟨j, hj⟩ := List.get?_of_mem hsmem
        obtain ⟨hom, _, _⟩ := hwfst.slotOrig j te hj
        exact ⟨j, by rw [← hta]; exact hom⟩
    · rintro ⟨i, hi⟩
      obtain ⟨te, hte⟩ := hfill i (hwfst.markerLt a i hi)
      obtain ⟨hom, _, _⟩ := hwfst.slotOrig i te hte
      have hta : te.orig = a := hwfst.markerInj _ _ _ hom hi
      refine List.mem_filterMap.mpr ⟨some te, List.get?_mem hte, ?_⟩
      simp [hta]
  -- the final heap carries no tags
  have hnt1 : ∀ a i, markerOf h1 a ≠ some (.tagged i) := by
    intro a i hmt
    by_cases hmem : a ∈ origsOf vst.table
    · have hin := hftin a hmem
      rw [hclean] at hin
      rw [hmt] at hin
      cases hg : markerOf vst.heap a with
      | none => rw [hg] at hin; exact Option.noConfusion hin
      | some m =>
        rw [hg] at hin
        have := Option.some.inj hin
        exact Marker.noConfusion this
    · have hout2 := hftout a hmem
      rw [hmt] at hout2
      have : a ∈ origsOf vst.table :=
        (horig_tag a).mpr ⟨i, hout2.symm⟩
      exact hmem this
  have hnt0 := fresh_no_tags hfresh
  -- the final heap and the input heap are indistinguishable
  have hlen1 : h1.length = h.length := hften.trans (by
    have := hstep.hlen
    dsimp only at this
    exact this)
  have hcont1 : ∀ a, contentOf h1 a = contentOf h a :=
    fun a => (hftc a).trans (hstep.hcontent a)
  have hsimh : HeapSim h1 h := by
    refine ⟨hlen1, hcont1, ?_⟩
    intro a i
    constructor
    · intro hx; exact absurd hx (hnt1 a i)
    · intro hx; exact absurd hx (hnt0 a i)
  -- markers of the reached addresses are nulled
  have htag : ∀ x, Reaches h (.ref r) x →
      ∃ i, markerOf vst.heap x = some (.tagged i) :=
    fun x hre => tagged_of_reach hwfst (fun b => hstep.hcontent b) hfill
      (.ref r) x hre (fun y hy => by cases hy; exact ⟨i0, hi0⟩)
  refine ⟨rfl, ?_, ?_⟩
  · intro a hre
    obtain ⟨i, hi⟩ := htag a hre
    have hmem := (horig_tag a).mpr ⟨i, hi⟩
    have hin := hftin a hmem
    rw [hclean, hi] at hin
    exact hin
  · -- the second call
    have hfeq : encodeFuel h1 = encodeFuel h := by
      unfold encodeFuel
      rw [untaggedCount_eq_length hnt1, untaggedCount_eq_length hnt0, hlen1]
    subst hst1
    simp only [stringify]
    rw [show normalizeRepl cfg .none = Option.none from rfl]
    rw [hfeq]
    have hsim := visit_sim (encodeFuel h) cfg ⟨h1, []⟩ ⟨h, []⟩ (.ref r)
      ⟨rfl, hsimh⟩
    rcases hv2 : visit cfg Option.none (encodeFuel h) ⟨h1, []⟩ (.ref r)
      with ⟨vst2, res2⟩
    rw [hv2, hvis] at hsim
    obtain ⟨hres, htb, hh⟩ := hsim
    dsimp only at hres htb
    subst hres
    dsimp only
    obtain ⟨h2, es2, hft2, hfor2⟩ :=
      finishTable_ok cfg vst.table vst2.heap hall
    rw [htb, hft2]
    have hes2 : es = es2 := by
      obtain ⟨h3, es3, hft3, hfor3⟩ :=
        finishTable_ok cfg vst.table vst.heap hall
      rw [hft] at hft3
      have : es = es3 := Except.ok.inj (congrArg Prod.snd hft3)
      rw [this]
      exact forall2_right_eq (fun s e e2 he he2 => by
        obtain ⟨te, hs1x, he⟩ := he
        obtain ⟨te2, hs2x, he2⟩ := he2
        rw [hs1x] at hs2x
        rw [he, he2, Option.some.inj hs2x]) hfor3 hfor2
    rw [hout, hes2]
    exact ⟨h2, rfl⟩

/-- Witness for C10: encoding the same one-object record twice in a row with
`cleanup` off gives the same text, with the root's marker nulled between the
calls. -/
theorem claim_C10_witness :
    ∃ h1 out1 h2,
      stringify ⟨"#", false, true, ⟨[]⟩⟩ .none Option.none
        [⟨⟨false, "Object", 0, [], [("a", .atom (.num (.fin 1)))]⟩, .absent⟩]
        (.ref 0) = (Option.none, h1, .ok out1) ∧
      markerOf h1 0 = some .nullTag ∧
      stringify ⟨"#", false, true, ⟨[]⟩⟩ .none Option.none h1 (.ref 0) =
        (Option.none, h2, .ok out1) := by
  obtain ⟨vst, c, h1, es, _, _, hs⟩ :=
    @encode_ok ⟨"#", false, true, ⟨[]⟩⟩ Option.none
      [⟨⟨false, "Object", 0, [], [("a", .atom (.num (.fin 1)))]⟩,
        .absent⟩] 0
      (freshHeap_of_B (by decide)) (wfHeap_of_B (by decide))
      (fun o ho => ⟨atomsOK_of_B (by decide) o ho, by
        rcases List.mem_singleton.mp ho with rfl
        exact fun _ => ⟨Option.none, rfl⟩⟩)
      (by decide)
  obtain ⟨_, hmark, h2, hs2⟩ :=
    claim_C10 ⟨"#", false, true, ⟨[]⟩⟩ Option.none
      [⟨⟨false, "Object", 0, [], [("a", .atom (.num (.fin 1)))]⟩, .absent⟩]
      0 Option.none h1 (.table es) rfl (freshHeap_of_B (by decide)) hs
  exact ⟨h1, .table es, h2, hs, hmark 0 (.here 0), hs2⟩
